import Mathlib

/-!
SolarCoin chain index: a shallow embedding of `chain.cpp`.

The block-index graph is an arena of `CBlockIndex` records; a pointer is an
`Option Nat` (`none` is the null pointer, `some a` the address `a` of the
arena).  Loops whose termination depends on the shape of the graph carry an
explicit fuel argument; every faulting behaviour of the original (failed
`assert`, dereference of a bad pointer, out-of-range vector access, thrown
exception) is a distinct `Outcome`.
-/

namespace SolarCoin

/-! ## Data model -/

/-- Outcome of running a piece of the program: a value, a failed `assert`, a
fault (null or dangling dereference, out-of-range vector access, thrown
exception), or exhaustion of the fuel given to a loop. -/
inductive Outcome (α : Type) where
  | ok (a : α)
  | assertFailed
  | fault
  | outOfFuel
  deriving DecidableEq, Repr

/-- Sequencing of outcomes. -/
def Outcome.bind {α β : Type} (x : Outcome α) (f : α → Outcome β) : Outcome β :=
  match x with
  | .ok a => f a
  | .assertFailed => .assertFailed
  | .fault => .fault
  | .outOfFuel => .outOfFuel

/-- The fields of `CBlockIndex` read by `chain.cpp` and `pos.cpp`.  `phashBlock`
is the value of the hash the entry points to, `pprev` and `pskip` are pointers
into the arena, `nChainWork` is an `arith_uint256`, `nTime` an `unsigned int`,
`nMoneySupply` an `int64_t`, and `fProofOfStake` is what `IsProofOfStake()`
returns. -/
structure CBlockIndex where
  phashBlock : Nat
  pprev : Option Nat := none
  pskip : Option Nat := none
  nHeight : Int
  nBits : Nat := 0
  nTimeMax : Int := 0
  nChainWork : Nat := 0
  nTime : Nat := 0
  fProofOfStake : Bool := false
  nMoneySupply : Int := 0
  deriving DecidableEq, Repr

/-- The block-index graph: the entry at address `a` is `mem[a]?`. -/
abbrev Arena := List CBlockIndex

/-- Two's-complement wrap of an integer to the 32-bit `int` range. -/
def wrap32 (x : Int) : Int := (x + 2 ^ 31) % 2 ^ 32 - 2 ^ 31

/-! ## Skip list (`GetSkipHeight`, `GetAncestor`) -/

/-- Bitwise `&` of two 32-bit two's-complement `int` values: both operands are
read as unsigned 32-bit patterns, and the resulting pattern is read back as a
signed value. -/
def and32 (a b : Int) : Int :=
  wrap32 (Int.ofNat (Nat.land (a % 2 ^ 32).toNat (b % 2 ^ 32).toNat))

/-- Source `InvertLowestOne`: `n & (n - 1)`. -/
def InvertLowestOne (n : Int) : Int := and32 n (n - 1)

/-- Source `GetSkipHeight`. -/
def GetSkipHeight (height : Int) : Int :=
  if height < 2 then 0
  else if and32 height 1 ≠ 0 then InvertLowestOne (InvertLowestOne (height - 1)) + 1
  else InvertLowestOne height

/-- The `while (heightWalk > height)` loop of `CBlockIndex::GetAncestor`.
`pindexWalk` is never null inside the loop.  With `heightWalk > height ≥ 0` in
the `int` range, none of `heightWalk - 1`, `heightSkip - 2` and `heightWalk--`
leaves that range. -/
def GetAncestor.walk (mem : Arena) (height : Int) : Nat → Nat → Int → Outcome (Option Nat)
  | 0, pindexWalk, heightWalk =>
    if heightWalk > height then .outOfFuel else .ok (some pindexWalk)
  | fuel + 1, pindexWalk, heightWalk =>
    if heightWalk > height then
      match mem[pindexWalk]? with
      | none => .fault
      | some e =>
        let heightSkip := GetSkipHeight heightWalk
        let heightSkipPrev := GetSkipHeight (heightWalk - 1)
        let viaPrev : Outcome (Option Nat) :=
          match e.pprev with
          | none => .assertFailed
          | some q => GetAncestor.walk mem height fuel q (heightWalk - 1)
        match e.pskip with
        | some s =>
          if heightSkip = height ∨
              (heightSkip > height ∧ ¬ (heightSkipPrev < heightSkip - 2 ∧ heightSkipPrev ≥ height)) then
            GetAncestor.walk mem height fuel s heightSkip
          else viaPrev
        | none => viaPrev
    else .ok (some pindexWalk)

/-- Source `CBlockIndex::GetAncestor`, called on the entry at address `self`.
`heightWalk` strictly decreases in every iteration, so `nHeight - height`
iterations always suffice. -/
def GetAncestor (mem : Arena) (self : Nat) (height : Int) : Outcome (Option Nat) :=
  match mem[self]? with
  | none => .fault
  | some e =>
    if height > e.nHeight ∨ height < 0 then .ok none
    else GetAncestor.walk mem height (e.nHeight - height).toNat self e.nHeight

/-- The entry reached from address `p` by following `pprev` exactly `k` times. -/
def followPrev (mem : Arena) : Nat → Nat → Option Nat
  | 0, p => some p
  | k + 1, p => ((mem[p]?).bind (fun e => e.pprev)).bind (followPrev mem k)

/-- The `pprev` link of an entry of height `nHeight` is well formed. -/
def PrevOK (mem : Arena) (nHeight : Int) : Option Nat → Prop
  | none => nHeight = 0
  | some q => (mem[q]?).map (fun pe => pe.nHeight + 1) = some nHeight

/-- The `pskip` link of the entry at address `a` of height `nHeight` is well
formed: absent, or the ancestor at height `GetSkipHeight nHeight`. -/
def SkipOK (mem : Arena) (a : Nat) (nHeight : Int) : Option Nat → Prop
  | none => True
  | some s => followPrev mem (nHeight - GetSkipHeight nHeight).toNat a = some s

instance (mem : Arena) (h : Int) : (o : Option Nat) → Decidable (PrevOK mem h o)
  | none => inferInstanceAs (Decidable (h = 0))
  | some q => inferInstanceAs (Decidable ((mem[q]?).map (fun pe => pe.nHeight + 1) = some h))

instance (mem : Arena) (a : Nat) (h : Int) : (o : Option Nat) → Decidable (SkipOK mem a h o)
  | none => inferInstanceAs (Decidable True)
  | some s => inferInstanceAs (Decidable (followPrev mem (h - GetSkipHeight h).toNat a = some s))

/-- Well-formedness of one entry: its height is a non-negative `int` below
`INT_MAX` (so that `nHeight + 1` is representable), `pprev` is absent only at
height 0 and otherwise points one level down, and `pskip` is absent or the
ancestor at `GetSkipHeight nHeight`. -/
def EntryOK (mem : Arena) (a : Nat) (e : CBlockIndex) : Prop :=
  0 ≤ e.nHeight ∧ e.nHeight < 2 ^ 31 - 1 ∧ PrevOK mem e.nHeight e.pprev ∧
    SkipOK mem a e.nHeight e.pskip

instance (mem : Arena) (a : Nat) (e : CBlockIndex) : Decidable (EntryOK mem a e) := by
  unfold EntryOK; infer_instance

/-- A well-formed block graph: every entry of the arena is well formed. -/
def WellFormed (mem : Arena) : Prop :=
  ∀ a : Fin mem.length, EntryOK mem a.val (mem.get a)

instance (mem : Arena) : Decidable (WellFormed mem) := by
  unfold WellFormed; infer_instance

/-- The entry at height `i` of a linear chain: hash `100 + i`, `pprev` one level
down, and `pskip` as `BuildSkip` sets it. -/
def linearEntry (i : Nat) : CBlockIndex :=
  { phashBlock := 100 + i
    pprev := if i = 0 then none else some (i - 1)
    pskip := if i = 0 then none else some (GetSkipHeight i).toNat
    nHeight := i
    nTimeMax := 1000 + 10 * i }

/-- A chain of `n` entries, the entry at address `i` being `linearEntry i`. -/
def linearArena (n : Nat) : Arena := (List.range n).map linearEntry

/-! ## Active chain (`CChain`) -/

/-- The member `vChain` of `CChain`: one pointer per height. -/
abbrev Chain := List (Option Nat)

/-- Modelled from the spec: `CChain::Height` (declared in `chain.h`, not under
src/), the height of the tip, `-1` for the empty index. -/
def Height (vChain : Chain) : Int := (vChain.length : Int) - 1

/-- Modelled from the spec: `CChain::Tip` (declared in `chain.h`, not under
src/), the last slot, null for the empty index. -/
def Tip (vChain : Chain) : Option Nat := (vChain.getLast?).join

/-- Modelled from the spec: `CChain::operator[]` (declared in `chain.h`, not
under src/), the slot at `nHeight`; it fails with the null pointer outside
`[0, Height()]`. -/
def chainAt (vChain : Chain) (nHeight : Int) : Option Nat :=
  if nHeight < 0 ∨ nHeight ≥ (vChain.length : Int) then none
  else (vChain[nHeight.toNat]?).join

/-- Modelled from the spec: `CChain::Contains` (declared in `chain.h`, not
under src/): true iff the slot at the entry's height is the entry itself; `p`
is the address of the entry `e`. -/
def Contains (vChain : Chain) (p : Nat) (e : CBlockIndex) : Bool :=
  chainAt vChain e.nHeight == some p

/-- The call `vChain.resize(n)` of `std::vector`: keep the first `n` slots and
fill up with null pointers. -/
def resize (vChain : Chain) (n : Nat) : Chain :=
  vChain.take n ++ List.replicate (n - vChain.length) none

/-- The `while (pindex && vChain[pindex->nHeight] != pindex)` loop of
`CChain::SetTip`. -/
def SetTip.walk (mem : Arena) : Nat → Chain → Option Nat → Outcome Chain
  | _, vChain, none => .ok vChain
  | 0, _, some _ => .outOfFuel
  | fuel + 1, vChain, some p =>
    match mem[p]? with
    | none => .fault
    | some e =>
      if e.nHeight < 0 ∨ e.nHeight ≥ (vChain.length : Int) then .fault
      else if vChain[e.nHeight.toNat]? = some (some p) then .ok vChain
      else SetTip.walk mem fuel (vChain.set e.nHeight.toNat (some p)) e.pprev

/-- Source `CChain::SetTip`; the result is the new content of `vChain`.  The
size `nHeight + 1` is computed in `int`; a negative size cannot be allocated. -/
def SetTip (mem : Arena) (fuel : Nat) (vChain : Chain) (pindex : Option Nat) : Outcome Chain :=
  match pindex with
  | none => .ok []
  | some p =>
    match mem[p]? with
    | none => .fault
    | some e =>
      if wrap32 (e.nHeight + 1) < 0 then .fault
      else SetTip.walk mem fuel (resize vChain (wrap32 (e.nHeight + 1)).toNat) (some p)

/-- The `while (pindex)` loop of `CChain::GetLocator`; `nStep` is an `int`. -/
def GetLocator.loop (mem : Arena) (vChain : Chain) :
    Nat → Option Nat → Int → List Nat → Outcome (List Nat)
  | _, none, _, vHave => .ok vHave
  | 0, some _, _, _ => .outOfFuel
  | fuel + 1, some p, nStep, vHave =>
    match mem[p]? with
    | none => .fault
    | some e =>
      let vHave1 := vHave ++ [e.phashBlock]
      if e.nHeight = 0 then .ok vHave1
      else
        let nHeight := max (wrap32 (e.nHeight - nStep)) 0
        let next : Outcome (Option Nat) :=
          if Contains vChain p e then .ok (chainAt vChain nHeight)
          else GetAncestor mem p nHeight
        let nStep1 := if vHave1.length > 10 then wrap32 (nStep * 2) else nStep
        match next with
        | .ok q => GetLocator.loop mem vChain fuel q nStep1 vHave1
        | .assertFailed => .assertFailed
        | .fault => .fault
        | .outOfFuel => .outOfFuel

/-- Source `CChain::GetLocator`; the result is the list `vHave` of hashes. -/
def GetLocator (mem : Arena) (vChain : Chain) (fuel : Nat) (pindex : Option Nat) :
    Outcome (List Nat) :=
  GetLocator.loop mem vChain fuel (if pindex.isSome then pindex else Tip vChain) 1 []

/-- The `while (pindex && !Contains(pindex))` loop of `CChain::FindFork`. -/
def FindFork.loop (mem : Arena) (vChain : Chain) : Nat → Option Nat → Outcome (Option Nat)
  | _, none => .ok none
  | 0, some _ => .outOfFuel
  | fuel + 1, some p =>
    match mem[p]? with
    | none => .fault
    | some e =>
      if Contains vChain p e then .ok (some p)
      else FindFork.loop mem vChain fuel e.pprev

/-- Source `CChain::FindFork`. -/
def FindFork (mem : Arena) (vChain : Chain) (fuel : Nat) (pindex : Option Nat) :
    Outcome (Option Nat) :=
  match pindex with
  | none => .ok none
  | some p =>
    match mem[p]? with
    | none => .fault
    | some e =>
      if e.nHeight > Height vChain then
        (GetAncestor mem p (Height vChain)).bind (FindFork.loop mem vChain fuel)
      else FindFork.loop mem vChain fuel (some p)

/-- The value `pBlock->GetBlockTimeMax()` of the slot at position `i`, when the
slot holds a valid pointer. -/
def slotTimeMax (mem : Arena) (vChain : Chain) (i : Nat) : Option Int :=
  ((vChain[i]?).join.bind (fun p => mem[p]?)).map (fun e => e.nTimeMax)

/-- The bisection of `std::lower_bound` over `vChain` with the comparison
`pBlock->GetBlockTimeMax() < time`: `first` is the start of the remaining range
and `len` its length; the result is the position found. -/
def lowerBound (mem : Arena) (vChain : Chain) (nTime : Int) : Nat → Nat → Nat → Outcome Nat
  | 0, first, len => if len > 0 then .outOfFuel else .ok first
  | fuel + 1, first, len =>
    if len > 0 then
      let half := len / 2
      let mid := first + half
      match slotTimeMax mem vChain mid with
      | none => .fault
      | some t =>
        if t < nTime then lowerBound mem vChain nTime fuel (mid + 1) (len - half - 1)
        else lowerBound mem vChain nTime fuel first half
    else .ok first

/-- Source `CChain::FindEarliestAtLeast`.  The range halves in every iteration,
so `vChain.size()` iterations always suffice. -/
def FindEarliestAtLeast (mem : Arena) (vChain : Chain) (nTime : Int) : Outcome (Option Nat) :=
  match lowerBound mem vChain nTime vChain.length 0 vChain.length with
  | .ok lower => .ok (if lower = vChain.length then none else (vChain[lower]?).join)
  | .assertFailed => .assertFailed
  | .fault => .fault
  | .outOfFuel => .outOfFuel

/-! ## Chain work (`GetBlockProof`) -/

/-- Modelled from the spec: `arith_uint256::SetCompact` (`arith_uint256.cpp` is
not under src/), the decoding of the compact difficulty target into a 256-bit
unsigned value with its `negative` and `overflow` flags.  The compact word has
a size byte, a sign bit and a 23-bit mantissa, and stands for
`mantissa * 256 ^ (size - 3)`.  The result is `(bnTarget, fNegative, fOverflow)`. -/
def SetCompact (nCompact : Nat) : Nat × Bool × Bool :=
  let nSize := (nCompact % 2 ^ 32) >>> 24
  let nWord0 := nCompact &&& 0x007fffff
  let nWord := if nSize ≤ 3 then nWord0 >>> (8 * (3 - nSize)) else nWord0
  let bnTarget := if nSize ≤ 3 then nWord else (nWord * 2 ^ (8 * (nSize - 3))) % 2 ^ 256
  let fNegative := decide (nWord ≠ 0 ∧ nCompact &&& 0x00800000 ≠ 0)
  let fOverflow := decide (nWord ≠ 0 ∧
    (nSize > 34 ∨ (nWord > 0xff ∧ nSize > 33) ∨ (nWord > 0xffff ∧ nSize > 32)))
  (bnTarget, fNegative, fOverflow)

/-- Source `GetBlockProof`, on the `nBits` of the block.  All arithmetic is that
of `arith_uint256` (modulo `2 ^ 256`); its division throws on a zero divisor. -/
def GetBlockProof (nBits : Nat) : Outcome Nat :=
  let bnTarget := (SetCompact nBits).1
  let fNegative := (SetCompact nBits).2.1
  let fOverflow := (SetCompact nBits).2.2
  if fNegative ∨ fOverflow ∨ bnTarget = 0 then .ok 0
  else if (bnTarget + 1) % 2 ^ 256 = 0 then .fault
  else .ok ((((2 ^ 256 - 1 - bnTarget) / ((bnTarget + 1) % 2 ^ 256)) + 1) % 2 ^ 256)

/-! ## Concrete inputs -/

/-- The active chain of `linearArena n` with tip `n - 1`. -/
def linearChain (n : Nat) : Chain := (List.range n).map some

/-! ## Specification predicates for the active chain -/

/-- The index `vChain` is the chain of the entry `tip`: it has `nHeight + 1`
slots and slot `h` holds the ancestor of `tip` at height `h`. -/
def IsChainOf (mem : Arena) (vChain : Chain) (tip : Nat) : Prop :=
  ∃ e, mem[tip]? = some e ∧ (vChain.length : Int) = e.nHeight + 1 ∧
    ∀ h, h < vChain.length → vChain[h]? = some (followPrev mem (vChain.length - 1 - h) tip)

/-- A chain-consistent active index: empty, or the chain of its tip. -/
def ChainConsistent (mem : Arena) (vChain : Chain) : Prop :=
  vChain = [] ∨ ∃ tip, IsChainOf mem vChain tip

/-- Every non-null slot below position `n` has its ancestors in the slots
below it. -/
def LowerLinked (mem : Arena) (vChain : Chain) (n : Nat) : Prop :=
  ∀ i r, i < n → vChain[i]? = some (some r) →
    ∀ j, j ≤ i → vChain[j]? = some (followPrev mem (i - j) r)

/-- The states of the active-chain index reachable from the empty index by
calls of `SetTip` that return. -/
inductive Reachable (mem : Arena) : Chain → Prop where
  | empty : Reachable mem []
  | setTip (vChain vChain' : Chain) (fuel : Nat) (pindex : Option Nat) :
      Reachable mem vChain → SetTip mem fuel vChain pindex = .ok vChain' →
      Reachable mem vChain'

/-- The entry at address `q` is a member of the active chain:
`index[q.height] == q`. -/
def IsMember (mem : Arena) (vChain : Chain) (q : Nat) : Prop :=
  ∃ e, mem[q]? = some e ∧ Contains vChain q e = true

/-! ## Specification functions for the locator -/

/-- The heights visited by the loop of `GetLocator` from height `h` with step
`step` when `size` hashes are already listed: the step is doubled after an
iteration that leaves more than 10 hashes in the list. -/
def locatorHeights : Nat → Nat → Nat → Nat → List Nat
  | 0, _, _, _ => []
  | fuel + 1, h, step, size =>
    h :: (if h = 0 then []
      else locatorHeights fuel (h - step) (if size + 1 > 10 then 2 * step else step) (size + 1))

/-- The hash of the ancestor at height `h` of the entry `s` of height `H`. -/
def ancestorHash (mem : Arena) (s H h : Nat) : Nat :=
  match (followPrev mem (H - h) s).bind (fun r => mem[r]?) with
  | some e => e.phashBlock
  | none => 0

/-- Distinct entries of the arena have distinct hashes. -/
def HashesDistinct (mem : Arena) : Prop := (mem.map fun e => e.phashBlock).Nodup

instance (mem : Arena) : Decidable (HashesDistinct mem) := by
  unfold HashesDistinct; infer_instance

/-- The value `hash` is the hash of an ancestor-or-self of the entry `s` whose
height is `h`. -/
def ListsAncestor (mem : Arena) (s : Nat) (h : Nat) (hash : Nat) : Prop :=
  ∃ k r er, followPrev mem k s = some r ∧ mem[r]? = some er ∧ er.nHeight = h ∧
    er.phashBlock = hash

/-! ## Specification predicates for the time search and the chain work -/

/-- Every slot of the index holds a valid pointer. -/
def SlotsValid (mem : Arena) (vChain : Chain) : Prop :=
  ∀ i, i < vChain.length → (slotTimeMax mem vChain i).isSome = true

/-- The running-maximum timestamp of the slots is non-decreasing in height. -/
def TimeMaxNonDecreasing (mem : Arena) (vChain : Chain) : Prop :=
  ∀ j, j < vChain.length → ∀ i, i < j →
    (slotTimeMax mem vChain i).getD 0 ≤ (slotTimeMax mem vChain j).getD 0

instance (mem : Arena) (vChain : Chain) : Decidable (SlotsValid mem vChain) := by
  unfold SlotsValid; infer_instance

instance (mem : Arena) (vChain : Chain) : Decidable (TimeMaxNonDecreasing mem vChain) := by
  unfold TimeMaxNonDecreasing; infer_instance

/-- The compact target `nBits` decodes validly: not negative, not overflowed,
not zero. -/
def DecodesValidly (nBits : Nat) : Prop :=
  ¬ ((SetCompact nBits).2.1 = true ∨ (SetCompact nBits).2.2 = true ∨ (SetCompact nBits).1 = 0)

instance (nBits : Nat) : Decidable (DecodesValidly nBits) := by
  unfold DecodesValidly; infer_instance

/-! ## `BuildSkip` -/

/-- Source `CBlockIndex::BuildSkip`, called on the entry at address `self`; the
result is the arena after the assignment of `pskip`. -/
def BuildSkip (mem : Arena) (self : Nat) : Outcome Arena :=
  match mem[self]? with
  | none => .fault
  | some e =>
    match e.pprev with
    | none => .ok mem
    | some q =>
      match GetAncestor mem q (GetSkipHeight e.nHeight) with
      | .ok s => .ok (mem.set self { e with pskip := s })
      | .assertFailed => .assertFailed
      | .fault => .fault
      | .outOfFuel => .outOfFuel

/-- Two arenas hold, address by address, entries of the same height and the
same `pprev`. -/
def SameLinks (mem mem' : Arena) : Prop :=
  ∀ a : Nat, (mem[a]?).map (fun e : CBlockIndex => (e.nHeight, e.pprev)) =
    (mem'[a]?).map (fun e : CBlockIndex => (e.nHeight, e.pprev))

/-! ## Work-equivalent time (`GetBlockProofEquivalentTime`) -/

/-- Two's-complement wrap of an integer to the 64-bit `int64_t` range. -/
def wrap64 (x : Int) : Int := (x + 2 ^ 63) % 2 ^ 64 - 2 ^ 63

/-- Modelled from the spec: `arith_uint256::bits` (`arith_uint256.cpp` is not
under src/), the number of significant bits of the value, so that
`bits r > 63` says that `r` does not fit in 63 bits; `bits.count width r`
counts the significant bits of a value of at most `width` bits. -/
def bits.count : Nat → Nat → Nat
  | 0, _ => 0
  | width + 1, r => if r = 0 then 0 else bits.count width (r / 2) + 1

/-- The number of significant bits of a 256-bit value (`arith_uint256::bits`). -/
def bits (r : Nat) : Nat := bits.count 256 r

/-- Source `GetBlockProofEquivalentTime`; `nPowTargetSpacing` is the `int64_t`
parameter of `Consensus::Params`, converted to `uint64_t` by the constructor
of `arith_uint256`.  The arithmetic on `r` is that of `arith_uint256` (modulo
`2 ^ 256`, division throwing on a zero divisor); `sign * r.GetLow64()` is
computed in `uint64_t` and converted to `int64_t` on return. -/
def GetBlockProofEquivalentTime (to_ from_ tip : CBlockIndex) (nPowTargetSpacing : Int) :
    Outcome Int :=
  let r0 : Nat :=
    if to_.nChainWork > from_.nChainWork then
      (to_.nChainWork + 2 ^ 256 - from_.nChainWork) % 2 ^ 256
    else (from_.nChainWork + 2 ^ 256 - to_.nChainWork) % 2 ^ 256
  let sign : Int := if to_.nChainWork > from_.nChainWork then 1 else -1
  match GetBlockProof tip.nBits with
  | .ok proof =>
    if proof = 0 then .fault
    else
      let r := ((r0 * (nPowTargetSpacing % 2 ^ 64).toNat) % 2 ^ 256) / proof
      if bits r > 63 then .ok (sign * (2 ^ 63 - 1))
      else .ok (wrap64 (((sign % 2 ^ 64) * ((r % 2 ^ 64 : Nat) : Int)) % 2 ^ 64))
  | .assertFailed => .assertFailed
  | .fault => .fault
  | .outOfFuel => .outOfFuel

/-- The magnitude `|to.work - from.work| * spacing / proof` of the
work-equivalent time, for the proof `w` of the tip. -/
def workTimeMagnitude (to_ from_ : CBlockIndex) (spacing : Int) (w : Nat) : Nat :=
  ((to_.nChainWork : Int) - (from_.nChainWork : Int)).natAbs * spacing.toNat / w

/-! ## Stake weight and rewards (`pos.cpp`, second half of `chain.cpp`) -/

/-- A value of the type `double`: NaN, an infinity, or the finite value
`m * 2 ^ e`. -/
inductive Double where
  | nan
  | negInf
  | posInf
  | fin (m : Int) (e : Int)
  deriving DecidableEq, Repr

/-- The comparison `x > y` of two `double` values; it is false when one of
them is NaN. -/
def Double.gt : Double → Double → Bool
  | .nan, _ => false
  | _, .nan => false
  | .posInf, .posInf => false
  | .posInf, _ => true
  | _, .posInf => false
  | .negInf, _ => false
  | .fin _ _, .negInf => true
  | .fin m1 e1, .fin m2 e2 =>
    decide (m2 * 2 ^ (e2 - min e1 e2).toNat < m1 * 2 ^ (e1 - min e1 e2).toNat)

/-- The comparison `x <= y` of two `double` values; it is false when one of
them is NaN. -/
def Double.le : Double → Double → Bool
  | .nan, _ => false
  | _, .nan => false
  | .negInf, _ => true
  | _, .posInf => true
  | .posInf, _ => false
  | .fin _ _, .negInf => false
  | .fin m1 e1, .fin m2 e2 =>
    decide (m1 * 2 ^ (e1 - min e1 e2).toNat ≤ m2 * 2 ^ (e2 - min e1 e2).toNat)

/-- The floating-point operations of the platform that the program uses: the
rounding arithmetic of `double`, `log`, the conversion of an integer to
`double` and the conversion `(int64_t)` of a `double`.  They are parameters of
the embedding: nothing is assumed about their results. -/
structure FloatOps where
  add : Double → Double → Double
  mul : Double → Double → Double
  div : Double → Double → Double
  log : Double → Double
  ofInt : Int → Double
  toInt64 : Double → Int

/-- The constants that the source reads but does not define: the parameters
`twoPercentIntHeight`, `twoPercentInt`, `coinSupplyGrowthRate`,
`initialCoinSupply` and `lastPowBlock` of the signatures of
`GetCurrentInterestRate` and `GetCurrentCoinSupply`, and the macros
`FORK_HEIGHT_2`, `COIN` and `CENT`. -/
structure Params where
  twoPercentIntHeight : Int
  twoPercentInt : Double
  coinSupplyGrowthRate : Double
  initialCoinSupply : Int
  lastPowBlock : Int
  FORK_HEIGHT_2 : Int
  COIN : Int
  CENT : Int

/-- The globals `nAverageStakeWeightHeightCached` and
`dAverageStakeWeightCached`. -/
structure StakeCache where
  nAverageStakeWeightHeightCached : Int
  dAverageStakeWeightCached : Double
  deriving DecidableEq, Repr

/-- The `while (pindexPrev && nStakesHandled < nPoSInterval)` loop of
`GetPoSKernelPS`, with `nPoSInterval = 72`; the result is
`(dStakeKernelsTriedAvg, nStakesTime)`.  `GetDifficulty` is not under src/ and
is a parameter.  The difference of the two `unsigned int` timestamps is taken
modulo `2 ^ 32`; `nStakesTime` is an `int`. -/
def GetPoSKernelPS.loop (ops : FloatOps) (GetDifficulty : CBlockIndex → Double)
    (FORK_HEIGHT_2 : Int) (mem : Arena) :
    Nat → Option Nat → Option Nat → Int → Int → Double → Outcome (Double × Int)
  | _, none, _, _, nStakesTime, dStakeKernelsTriedAvg =>
    .ok (dStakeKernelsTriedAvg, nStakesTime)
  | 0, some _, _, nStakesHandled, nStakesTime, dStakeKernelsTriedAvg =>
    if nStakesHandled < 72 then .outOfFuel else .ok (dStakeKernelsTriedAvg, nStakesTime)
  | fuel + 1, some p, pindexPrevStake, nStakesHandled, nStakesTime, dStakeKernelsTriedAvg =>
    if nStakesHandled < 72 then
      match mem[p]? with
      | none => .fault
      | some e =>
        if e.fProofOfStake then
          let delta : Outcome Int :=
            match pindexPrevStake with
            | none => .ok 0
            | some ps =>
              match mem[ps]? with
              | none => .fault
              | some es => .ok (((es.nTime : Int) - (e.nTime : Int)) % 2 ^ 32)
          delta.bind fun u =>
            GetPoSKernelPS.loop ops GetDifficulty FORK_HEIGHT_2 mem fuel e.pprev (some p)
              (nStakesHandled + 1)
              (if e.nHeight ≥ FORK_HEIGHT_2 then wrap32 (nStakesTime + max (wrap32 u) 0)
                else wrap32 (nStakesTime + u))
              (ops.add dStakeKernelsTriedAvg (ops.mul (GetDifficulty e) (.fin 4294967296 0)))
        else
          GetPoSKernelPS.loop ops GetDifficulty FORK_HEIGHT_2 mem fuel e.pprev pindexPrevStake
            nStakesHandled nStakesTime dStakeKernelsTriedAvg
    else .ok (dStakeKernelsTriedAvg, nStakesTime)

/-- Source `GetPoSKernelPS` (`pos.cpp`). -/
def GetPoSKernelPS (ops : FloatOps) (GetDifficulty : CBlockIndex → Double)
    (FORK_HEIGHT_2 : Int) (mem : Arena) (fuel : Nat) (pindexPrev : Option Nat) :
    Outcome Double :=
  (GetPoSKernelPS.loop ops GetDifficulty FORK_HEIGHT_2 mem fuel pindexPrev none 0 0
    (.fin 0 0)).bind fun r =>
      .ok (if r.2 ≠ 0 then ops.div r.1 (ops.ofInt r.2) else .fin 0 0)

/-- The `for (i = 0; currentBlockIndex && i < 60; i++)` loop of
`GetAverageStakeWeight`; the first argument is the number `60 - i` of
iterations left and the result is `(weightSum, i)`.  `kernelPS` is the callee
`GetPoSKernelPS`. -/
def GetAverageStakeWeight.loop (kernelPS : Option Nat → Outcome Double) (ops : FloatOps)
    (mem : Arena) : Nat → Option Nat → Int → Double → Outcome (Double × Int)
  | 0, _, i, weightSum => .ok (weightSum, i)
  | _ + 1, none, i, weightSum => .ok (weightSum, i)
  | left + 1, some p, i, weightSum =>
    (kernelPS (some p)).bind fun tempWeight =>
      match mem[p]? with
      | none => .fault
      | some e =>
        GetAverageStakeWeight.loop kernelPS ops mem left e.pprev (i + 1)
          (ops.add weightSum tempWeight)

/-- Source `GetAverageStakeWeight`, with the globals `nBestHeight` and the
cache passed explicitly; the result is the returned value and the cache after
the call.  `kernelPS` is the callee `GetPoSKernelPS`: the program passes
`GetPoSKernelPS ops GetDifficulty FORK_HEIGHT_2 mem fuel`. -/
def GetAverageStakeWeight (kernelPS : Option Nat → Outcome Double) (ops : FloatOps)
    (mem : Arena) (nBestHeight : Int) (cache : StakeCache) (pindexPrev : Option Nat) :
    Outcome (Double × StakeCache) :=
  if nBestHeight < 1 then .ok (.fin 0 0, cache)
  else
    match pindexPrev with
    | none => .fault
    | some p =>
      match mem[p]? with
      | none => .fault
      | some e =>
        if e.nHeight = cache.nAverageStakeWeightHeightCached then
          .ok (cache.dAverageStakeWeightCached, cache)
        else
          (GetAverageStakeWeight.loop kernelPS ops mem 60 (some p) 0 (.fin 0 0)).bind fun r =>
            .ok (ops.add (ops.div r.1 (ops.ofInt r.2)) (.fin 21 0),
              { nAverageStakeWeightHeightCached := e.nHeight
                dAverageStakeWeightCached := ops.add (ops.div r.1 (ops.ofInt r.2)) (.fin 21 0) })

/-- Source `GetCurrentInflationRate`. -/
def GetCurrentInflationRate (ops : FloatOps) (nAverageWeight : Double) : Double :=
  ops.div (ops.mul (.fin 17 0) (ops.log (ops.div nAverageWeight (.fin 20 0)))) (.fin 100 0)

/-- The term `(nMoneySupply - (98000000000 * COIN)) / COIN` of
`GetCurrentCoinSupply`, in `int64_t` arithmetic (wrapping, division truncated
toward zero). -/
def GetCurrentCoinSupply.supplyTerm (COIN nMoneySupply : Int) : Int :=
  Int.tdiv (wrap64 (nMoneySupply - wrap64 (98000000000 * COIN))) COIN

/-- Source `GetCurrentCoinSupply`; the result is an `int64_t`. -/
def GetCurrentCoinSupply (ops : FloatOps) (P : Params) (mem : Arena)
    (pindexPrev : Option Nat) : Outcome Int :=
  match pindexPrev with
  | none => .fault
  | some p =>
    match mem[p]? with
    | none => .fault
    | some e =>
      if e.nHeight > P.twoPercentIntHeight then
        if e.nHeight ≥ P.FORK_HEIGHT_2 then
          .ok (wrap64 (GetCurrentCoinSupply.supplyTerm P.COIN e.nMoneySupply +
            ops.toInt64 (ops.mul (ops.ofInt (wrap32 (e.nHeight - P.twoPercentIntHeight)))
              P.coinSupplyGrowthRate)))
        else .ok P.initialCoinSupply
      else
        .ok (ops.toInt64 (ops.add (ops.ofInt P.initialCoinSupply)
          (ops.mul (ops.ofInt (wrap32 (e.nHeight - P.lastPowBlock))) P.coinSupplyGrowthRate)))

/-- Source `GetCurrentInterestRate`; the result is the rate and the cache after
the call. -/
def GetCurrentInterestRate (kernelPS : Option Nat → Outcome Double) (ops : FloatOps)
    (P : Params) (mem : Arena) (nBestHeight : Int) (cache : StakeCache)
    (pindexPrev : Option Nat) : Outcome (Double × StakeCache) :=
  match pindexPrev with
  | none => .fault
  | some p =>
    match mem[p]? with
    | none => .fault
    | some e =>
      if e.nHeight > P.twoPercentIntHeight then .ok (P.twoPercentInt, cache)
      else
        (GetAverageStakeWeight kernelPS ops mem nBestHeight cache pindexPrev).bind fun a =>
          (GetCurrentCoinSupply ops P mem pindexPrev).bind fun supply =>
            let interestRate :=
              ops.mul
                (ops.div
                  (ops.mul (ops.div (GetCurrentInflationRate ops a.1) (.fin 100 0))
                    (ops.ofInt supply))
                  a.1)
                (.fin 100 0)
            .ok (if Double.gt interestRate (.fin 10 0) then .fin 10 0 else interestRate, a.2)

/-- Source `GetProofOfStakeTimeReward`; the result is the reward (an
`int64_t`) and the cache after the call.  The debug print has no effect on
the result. -/
def GetProofOfStakeTimeReward (kernelPS : Option Nat → Outcome Double) (ops : FloatOps)
    (P : Params) (mem : Arena) (nBestHeight : Int) (cache : StakeCache)
    (nStakeTime nFees : Int) (pindexPrev : Option Nat) : Outcome (Int × StakeCache) :=
  (GetCurrentInterestRate kernelPS ops P mem nBestHeight cache pindexPrev).bind fun r =>
    let nInterestRate := ops.toInt64 (ops.mul r.1 (ops.ofInt P.CENT))
    let nSubsidy := Int.tdiv (wrap64 (wrap64 (nStakeTime * nInterestRate) * 33)) (365 * 33 + 8)
    .ok (wrap64 (nSubsidy + nFees), r.2)

/-- A sample implementation of the floating-point operations: exact on finite
operands for `add`, `mul`, the conversion of an integer and the truncating
conversion to `int64_t`; `div` and `log`, whose exact results are not of the
form `m * 2 ^ e` in general, yield NaN. -/
def exactOps : FloatOps where
  add
    | .fin m1 e1, .fin m2 e2 =>
      .fin (m1 * 2 ^ (e1 - min e1 e2).toNat + m2 * 2 ^ (e2 - min e1 e2).toNat) (min e1 e2)
    | _, _ => .nan
  mul
    | .fin m1 e1, .fin m2 e2 => .fin (m1 * m2) (e1 + e2)
    | _, _ => .nan
  div := fun _ _ => .nan
  log := fun _ => .nan
  ofInt := fun n => .fin n 0
  toInt64
    | .fin m e => if 0 ≤ e then m * 2 ^ e.toNat else Int.tdiv m (2 ^ (-e).toNat)
    | _ => 0

/-- Sample constants: threshold height 5, fixed rate 2.0, growth rate 1.5,
initial supply 1000, last proof-of-work height 2, fork height 8,
`COIN = 10 ^ 8` and `CENT = 10 ^ 6`. -/
def sampleParams : Params where
  twoPercentIntHeight := 5
  twoPercentInt := .fin 2 0
  coinSupplyGrowthRate := .fin 3 (-1)
  initialCoinSupply := 1000
  lastPowBlock := 2
  FORK_HEIGHT_2 := 8
  COIN := 100000000
  CENT := 1000000

/-- A callee `GetPoSKernelPS` that always fails. -/
def failingKernelPS : Option Nat → Outcome Double := fun _ => .fault

/-! ## The locator without the active chain -/

/-- The loop of `GetLocator` as the claim restates it: the same loop, but every
jump is made with `GetAncestor(current, nextHeight)` and the index is never
read. -/
def GetLocatorViaAncestor.loop (mem : Arena) :
    Nat → Option Nat → Int → List Nat → Outcome (List Nat)
  | _, none, _, vHave => .ok vHave
  | 0, some _, _, _ => .outOfFuel
  | fuel + 1, some p, nStep, vHave =>
    match mem[p]? with
    | none => .fault
    | some e =>
      let vHave1 := vHave ++ [e.phashBlock]
      if e.nHeight = 0 then .ok vHave1
      else
        let nHeight := max (wrap32 (e.nHeight - nStep)) 0
        let nStep1 := if vHave1.length > 10 then wrap32 (nStep * 2) else nStep
        match GetAncestor mem p nHeight with
        | .ok q => GetLocatorViaAncestor.loop mem fuel q nStep1 vHave1
        | .assertFailed => .assertFailed
        | .fault => .fault
        | .outOfFuel => .outOfFuel

/-- The locator of a present entry computed without the active chain. -/
def GetLocatorViaAncestor (mem : Arena) (fuel : Nat) (pindex : Option Nat) :
    Outcome (List Nat) :=
  GetLocatorViaAncestor.loop mem fuel pindex 1 []

/-! ## The accumulated stake time of `GetPoSKernelPS`, as the specification describes it -/

theorem InvertLowestOne_bounds (n : Int) (h0 : 0 ≤ n) (h1 : n < 2 ^ 31) :
    0 ≤ InvertLowestOne n ∧ InvertLowestOne n ≤ n ∧ (0 < n → InvertLowestOne n < n) := by
  unfold InvertLowestOne and32 wrap32
  have hl := @Nat.and_le_left (n % 2 ^ 32).toNat ((n - 1) % 2 ^ 32).toNat
  have hr := @Nat.and_le_right (n % 2 ^ 32).toNat ((n - 1) % 2 ^ 32).toNat
  have hv : Nat.land (n % 2 ^ 32).toNat ((n - 1) % 2 ^ 32).toNat
      = (n % 2 ^ 32).toNat &&& ((n - 1) % 2 ^ 32).toNat := rfl
  rw [hv]
  generalize (n % 2 ^ 32).toNat &&& ((n - 1) % 2 ^ 32).toNat = v at hl hr ⊢
  simp only [Int.ofNat_eq_coe]
  omega

theorem GetSkipHeight_bounds (h : Int) (h1 : 1 ≤ h) (h2 : h < 2 ^ 31) :
    0 ≤ GetSkipHeight h ∧ GetSkipHeight h < h := by
  unfold GetSkipHeight
  split
  · omega
  · have a := InvertLowestOne_bounds h (by omega) h2
    have b := InvertLowestOne_bounds (h - 1) (by omega) (by omega)
    have c := InvertLowestOne_bounds (InvertLowestOne (h - 1)) b.1 (by omega)
    split <;> omega

/-! ## Following `pprev` -/

theorem followPrev_add (mem : Arena) (j k p : Nat) :
    followPrev mem (j + k) p = (followPrev mem j p).bind (followPrev mem k) := by
  induction j generalizing p with
  | zero => simp [followPrev]
  | succ j ih =>
    rw [Nat.succ_add]
    simp only [followPrev]
    cases h : (mem[p]?).bind (fun e => e.pprev) with
    | none => simp
    | some q => simp [ih]

theorem entryOK_of_wellFormed {mem : Arena} (hwf : WellFormed mem) {p : Nat} {e : CBlockIndex}
    (he : mem[p]? = some e) : EntryOK mem p e := by
  obtain ⟨hp, rfl⟩ := List.getElem?_eq_some.mp he
  exact hwf ⟨p, hp⟩

theorem followPrev_height {mem : Arena} (hwf : WellFormed mem) (k : Nat) :
    ∀ (p : Nat) (e : CBlockIndex) (r : Nat), mem[p]? = some e → followPrev mem k p = some r →
      ∃ er, mem[r]? = some er ∧ er.nHeight = e.nHeight - k := by
  induction k with
  | zero =>
    intro p e r he hr
    simp [followPrev] at hr
    subst hr
    exact ⟨e, he, by simp⟩
  | succ k ih =>
    intro p e r he hr
    simp only [followPrev, he, Option.some_bind] at hr
    cases hq : e.pprev with
    | none => simp [hq] at hr
    | some q =>
      rw [hq, Option.some_bind] at hr
      have ok := (entryOK_of_wellFormed hwf he).2.2.1
      rw [hq] at ok
      simp only [PrevOK, Option.map_eq_some'] at ok
      obtain ⟨eq, heq, hh⟩ := ok
      obtain ⟨er, her, hh2⟩ := ih q eq r heq hr
      exact ⟨er, her, by push_cast; omega⟩

theorem followPrev_exists {mem : Arena} (hwf : WellFormed mem) (k : Nat) :
    ∀ (p : Nat) (e : CBlockIndex), mem[p]? = some e → (k : Int) ≤ e.nHeight →
      ∃ r er, followPrev mem k p = some r ∧ mem[r]? = some er ∧ er.nHeight = e.nHeight - k := by
  induction k with
  | zero =>
    intro p e he _
    exact ⟨p, e, rfl, he, by simp⟩
  | succ k ih =>
    intro p e he hk
    have ok := entryOK_of_wellFormed hwf he
    cases hq : e.pprev with
    | none =>
      have h0 := ok.2.2.1
      rw [hq] at h0
      simp only [PrevOK] at h0
      push_cast at hk
      omega
    | some q =>
      have h0 := ok.2.2.1
      rw [hq] at h0
      simp only [PrevOK, Option.map_eq_some'] at h0
      obtain ⟨eq, heq, hh⟩ := h0
      obtain ⟨r, er, hr, her, hh2⟩ := ih q eq heq (by push_cast at hk; omega)
      refine ⟨r, er, ?_, her, by push_cast; omega⟩
      simp [followPrev, he, hq, hr]

/-! ## `GetAncestor` -/

theorem followPrev_split (mem : Arena) (n j k p s : Nat) (hn : n = j + k)
    (hs : followPrev mem j p = some s) : followPrev mem n p = followPrev mem k s := by
  subst hn
  rw [followPrev_add, hs, Option.some_bind]

theorem prev_of_wellFormed {mem : Arena} (hwf : WellFormed mem) {p : Nat} {e : CBlockIndex}
    (he : mem[p]? = some e) (hpos : 0 < e.nHeight) :
    ∃ q eq, e.pprev = some q ∧ mem[q]? = some eq ∧ eq.nHeight = e.nHeight - 1 := by
  have ok := (entryOK_of_wellFormed hwf he).2.2.1
  cases hq : e.pprev with
  | none =>
    rw [hq] at ok
    simp only [PrevOK] at ok
    omega
  | some q =>
    rw [hq] at ok
    simp only [PrevOK, Option.map_eq_some'] at ok
    obtain ⟨eq, heq, hh⟩ := ok
    exact ⟨q, eq, rfl, heq, by omega⟩

theorem GetAncestor_walk_correct {mem : Arena} (hwf : WellFormed mem) (height : Int)
    (h0 : 0 ≤ height) (fuel : Nat) :
    ∀ (w : Nat) (ew : CBlockIndex), mem[w]? = some ew → height ≤ ew.nHeight →
      (ew.nHeight - height).toNat ≤ fuel →
      ∃ r, followPrev mem (ew.nHeight - height).toNat w = some r ∧
        GetAncestor.walk mem height fuel w ew.nHeight = .ok (some r) := by
  induction fuel with
  | zero =>
    intro w ew hw hle hfuel
    have heq : ew.nHeight = height := by omega
    refine ⟨w, ?_, ?_⟩
    · simp [heq, followPrev]
    · simp [GetAncestor.walk, heq]
  | succ fuel ih =>
    intro w ew hw hle hfuel
    by_cases hgt : ew.nHeight > height
    · have ok := entryOK_of_wellFormed hwf hw
      have hsk := GetSkipHeight_bounds ew.nHeight (by omega) (by have := ok.2.1; omega)
      obtain ⟨q, eq, hq, hmq, hhq⟩ := prev_of_wellFormed hwf hw (by omega)
      have viaPrev : ∃ r, followPrev mem (ew.nHeight - height).toNat w = some r ∧
          GetAncestor.walk mem height fuel q (ew.nHeight - 1) = .ok (some r) := by
        obtain ⟨r, hr, hwalk⟩ := ih q eq hmq (by omega) (by omega)
        refine ⟨r, ?_, by rw [← hhq]; exact hwalk⟩
        rw [followPrev_split mem _ 1 (eq.nHeight - height).toNat w q (by omega)
          (by simp [followPrev, hw, hq])]
        exact hr
      rw [GetAncestor.walk]
      simp only [hgt, if_true, hw, hq]
      cases hs : ew.pskip with
      | none => exact viaPrev
      | some s =>
        simp only []
        split
        · next hcond =>
          have hge : height ≤ GetSkipHeight ew.nHeight := by
            rcases hcond with h | h
            · omega
            · omega
          have sok := ok.2.2.2
          rw [hs] at sok
          simp only [SkipOK] at sok
          obtain ⟨es, hes, hhs⟩ := followPrev_height hwf _ w ew s hw sok
          have hhs2 : es.nHeight = GetSkipHeight ew.nHeight := by
            rw [hhs, Int.toNat_of_nonneg (by omega)]; omega
          obtain ⟨r, hr, hwalk⟩ := ih s es hes (by omega) (by omega)
          refine ⟨r, ?_, by rw [← hhs2]; exact hwalk⟩
          rw [followPrev_split mem _ (ew.nHeight - GetSkipHeight ew.nHeight).toNat
            (es.nHeight - height).toNat w s (by omega) sok]
          exact hr
        · exact viaPrev
    · have heq : ew.nHeight = height := by omega
      refine ⟨w, ?_, ?_⟩
      · simp [heq, followPrev]
      · simp [GetAncestor.walk, heq]

theorem GetAncestor_correct {mem : Arena} (hwf : WellFormed mem) (p : Nat) (e : CBlockIndex)
    (he : mem[p]? = some e) (h : Int) (h0 : 0 ≤ h) (hle : h ≤ e.nHeight) :
    ∃ r, followPrev mem (e.nHeight - h).toNat p = some r ∧
      GetAncestor mem p h = .ok (some r) := by
  obtain ⟨r, hr, hwalk⟩ := GetAncestor_walk_correct hwf h h0 _ p e he hle (le_refl _)
  refine ⟨r, hr, ?_⟩
  unfold GetAncestor
  simp only [he]
  rw [if_neg (by omega)]
  exact hwalk


/-! ## Fuel of the ancestor walk -/

theorem GetAncestor_walk_ne_outOfFuel (mem : Arena) (height : Int) (h0 : 0 ≤ height)
    (fuel : Nat) :
    ∀ (w : Nat) (heightWalk : Int), heightWalk < 2 ^ 31 → height ≤ heightWalk →
      (heightWalk - height).toNat ≤ fuel →
      GetAncestor.walk mem height fuel w heightWalk ≠ .outOfFuel := by
  induction fuel with
  | zero =>
    intro w hw _ hle hf
    rw [GetAncestor.walk, if_neg (by omega)]
    simp
  | succ fuel ih =>
    intro w hw hlt hle hf
    rw [GetAncestor.walk]
    by_cases hgt : hw > height
    · rw [if_pos hgt]
      have hsk := GetSkipHeight_bounds hw (by omega) hlt
      cases hm : mem[w]? with
      | none => simp
      | some e =>
        simp only []
        have viaPrev : (match e.pprev with
            | none => Outcome.assertFailed
            | some q => GetAncestor.walk mem height fuel q (hw - 1)) ≠ Outcome.outOfFuel := by
          cases e.pprev with
          | none => simp
          | some q => exact ih q (hw - 1) (by omega) (by omega) (by omega)
        cases e.pskip with
        | none => exact viaPrev
        | some s =>
          simp only []
          split
          · next hc => exact ih s _ (by omega) (by rcases hc with h | h <;> omega) (by omega)
          · exact viaPrev
    · rw [if_neg hgt]
      simp

/-- Claim C1: in a well-formed block graph, for every entry `p` and every target
height `h` with `0 ≤ h ≤ nHeight`, `GetAncestor` returns exactly the entry
obtained by following `pprev` from `p` exactly `nHeight - h` times. -/
theorem GetAncestor_eq_followPrev (mem : Arena) (hwf : WellFormed mem) (p : Nat)
    (e : CBlockIndex) (he : mem[p]? = some e) (h : Int) (h0 : 0 ≤ h) (hle : h ≤ e.nHeight) :
    ∃ r, followPrev mem (e.nHeight - h).toNat p = some r ∧
      GetAncestor mem p h = .ok (some r) := by
  obtain ⟨r, hr, hwalk⟩ := GetAncestor_walk_correct hwf h h0 _ p e he hle (le_refl _)
  refine ⟨r, hr, ?_⟩
  unfold GetAncestor
  simp only [he]
  rw [if_neg (by omega)]
  exact hwalk

/-- Witness for C1 on a chain of 14 entries, from height 13 down to height 2. -/
theorem GetAncestor_eq_followPrev_witness :
    WellFormed (linearArena 14) ∧
      ∃ r, followPrev (linearArena 14) (((13 : Int) - 2).toNat) 13 = some r ∧
        GetAncestor (linearArena 14) 13 2 = .ok (some r) :=
  ⟨by decide, GetAncestor_eq_followPrev (linearArena 14) (by decide) 13
    (linearEntry 13)
    (by decide) 2 (by decide) (by decide)⟩

/-! ## `SetTip` -/

theorem length_resize (vc : Chain) (n : Nat) : (resize vc n).length = n := by
  simp [resize]; omega

theorem getElem?_resize (vc : Chain) (n i : Nat) (hi : i < n) :
    (resize vc n)[i]? = some ((vc[i]?).join) := by
  unfold resize
  by_cases h : i < vc.length
  · rw [List.getElem?_append_left (by simp; omega), List.getElem?_take_of_lt hi]
    obtain ⟨x, hx⟩ : ∃ x, vc[i]? = some x := ⟨vc[i], by simp [h]⟩
    simp [hx]
  · rw [List.getElem?_append_right (by simp; omega)]
    rw [List.getElem?_replicate_of_lt (by simp; omega)]
    simp [List.getElem?_eq_none (by omega : vc.length ≤ i)]

theorem lowerLinked_resize {mem : Arena} {vc : Chain} (h : LowerLinked mem vc vc.length)
    (n m : Nat) : LowerLinked mem (resize vc n) m := by
  intro i r _ hir j hji
  by_cases hin : i < n
  · rw [getElem?_resize vc n i hin] at hir
    have hvi : vc[i]? = some (some r) := by
      cases hx : vc[i]? with
      | none => simp [hx] at hir
      | some x => simp [hx] at hir; simp [hir]
    have hil : i < vc.length := by
      by_contra hc
      rw [List.getElem?_eq_none (by omega)] at hvi
      exact absurd hvi (by simp)
    rw [getElem?_resize vc n j (by omega), h i r hil hvi j hji]
    simp
  · rw [List.getElem?_eq_none (by rw [length_resize]; omega)] at hir
    exact absurd hir (by simp)

theorem lowerLinked_of_isChainOf {mem : Arena} {vc : Chain} {tip : Nat}
    (h : IsChainOf mem vc tip) (n : Nat) : LowerLinked mem vc n := by
  obtain ⟨e, _, _, hs⟩ := h
  intro i r _ hir j hji
  have hil : i < vc.length := by
    by_contra hc
    rw [List.getElem?_eq_none (by omega)] at hir
    exact absurd hir (by simp)
  have hi := hs i hil
  rw [hir] at hi
  rw [hs j (by omega)]
  congr 1
  exact followPrev_split mem _ (vc.length - 1 - i) (i - j) tip r (by omega) (Option.some.inj hi).symm

theorem lowerLinked_of_consistent {mem : Arena} {vc : Chain} (h : ChainConsistent mem vc)
    (n : Nat) : LowerLinked mem vc n := by
  rcases h with h | ⟨tip, h⟩
  · subst h
    intro i r _ hir
    simp at hir
  · exact lowerLinked_of_isChainOf h n

theorem followPrev_succ_right (mem : Arena) (k p r : Nat) (er : CBlockIndex)
    (hr : followPrev mem k p = some r) (her : mem[r]? = some er) :
    followPrev mem (k + 1) p = er.pprev := by
  rw [followPrev_add, hr, Option.some_bind]
  simp only [followPrev, her, Option.some_bind]
  cases er.pprev <;> simp [followPrev]

theorem SetTip_walk_correct {mem : Arena} (hwf : WellFormed mem) (p : Nat) (e : CBlockIndex)
    (he : mem[p]? = some e) (H : Nat) (hH : e.nHeight = H) (fuel : Nat) :
    ∀ (m : Nat) (vc : Chain) (cur : Option Nat), m ≤ fuel → m ≤ H + 1 →
      vc.length = H + 1 →
      (∀ i, m ≤ i → i ≤ H → vc[i]? = some (followPrev mem (H - i) p)) →
      LowerLinked mem vc m →
      cur = (if m = 0 then none else followPrev mem (H - (m - 1)) p) →
      ∃ vc', SetTip.walk mem fuel vc cur = .ok vc' ∧ vc'.length = H + 1 ∧
        ∀ i, i ≤ H → vc'[i]? = some (followPrev mem (H - i) p) := by
  induction fuel with
  | zero =>
    intro m vc cur hm _ hlen hup _ hcur
    have : m = 0 := by omega
    subst this
    simp only [if_true] at hcur
    subst hcur
    exact ⟨vc, by simp [SetTip.walk], hlen, fun i hi => hup i (by omega) hi⟩
  | succ fuel ih =>
    intro m vc cur hm hmH hlen hup hlow hcur
    rcases Nat.eq_zero_or_pos m with h0 | hpos
    · subst h0
      simp only [if_true] at hcur
      subst hcur
      exact ⟨vc, by simp [SetTip.walk], hlen, fun i hi => hup i (by omega) hi⟩
    · obtain ⟨m', rfl⟩ : ∃ m', m = m' + 1 := ⟨m - 1, by omega⟩
      simp only [Nat.succ_ne_zero, if_false, Nat.add_sub_cancel] at hcur
      obtain ⟨q, eq, hq, hmq, hhq⟩ := followPrev_exists hwf (H - m') p e he (by omega)
      have hqh : eq.nHeight = m' := by rw [hhq, hH]; omega
      rw [hq] at hcur
      subst hcur
      rw [SetTip.walk]
      simp only [hmq]
      rw [if_neg (by omega)]
      have htn : eq.nHeight.toNat = m' := by omega
      rw [htn]
      split
      · next hmatch =>
        refine ⟨vc, rfl, hlen, ?_⟩
        intro i hi
        by_cases him : m' + 1 ≤ i
        · exact hup i him hi
        · rw [hlow m' q (by omega) hmatch i (by omega)]
          congr 1
          exact (followPrev_split mem _ (H - m') (m' - i) p q (by omega) hq).symm
      · next hno =>
        apply ih m' (vc.set m' (some q)) eq.pprev (by omega) (by omega) (by simpa using hlen)
        · intro i hmi hi
          by_cases hie : i = m'
          · subst hie
            rw [List.getElem?_set_self (by omega), hq]
          · rw [List.getElem?_set_ne (by omega)]
            exact hup i (by omega) hi
        · intro i r hi hir j hji
          rw [List.getElem?_set_ne (by omega)] at hir
          rw [List.getElem?_set_ne (by omega)]
          exact hlow i r (by omega) hir j hji
        · by_cases hz : m' = 0
          · subst hz
            simp only [if_true]
            cases hpp : eq.pprev with
            | none => rfl
            | some q' =>
              have ok := (entryOK_of_wellFormed hwf hmq).2.2.1
              rw [hpp] at ok
              simp only [PrevOK, Option.map_eq_some'] at ok
              obtain ⟨e', he', hh'⟩ := ok
              have := (entryOK_of_wellFormed hwf he').1
              omega
          · simp only [hz, if_false]
            rw [← followPrev_succ_right mem (H - m') p q eq hq hmq]
            congr 1
            omega

theorem wrap32_of_range (x : Int) (h0 : -(2 ^ 31) ≤ x) (h1 : x < 2 ^ 31) : wrap32 x = x := by
  unfold wrap32; omega

theorem SetTip_isChainOf {mem : Arena} (hwf : WellFormed mem) (vc : Chain)
    (hlow : LowerLinked mem vc vc.length) (fuel : Nat) (p : Nat) (e : CBlockIndex)
    (he : mem[p]? = some e) (hfuel : e.nHeight < fuel) :
    ∃ vc', SetTip mem fuel vc (some p) = .ok vc' ∧ IsChainOf mem vc' p := by
  have ok := entryOK_of_wellFormed hwf he
  obtain ⟨H, hH⟩ : ∃ H : Nat, e.nHeight = H := ⟨e.nHeight.toNat, by have := ok.1; omega⟩
  have hw : wrap32 (e.nHeight + 1) = e.nHeight + 1 :=
    wrap32_of_range _ (by have := ok.1; omega) (by have := ok.2.1; omega)
  have hn : (e.nHeight + 1).toNat = H + 1 := by omega
  obtain ⟨vc', hres, hlen, hs⟩ := SetTip_walk_correct hwf p e he H hH fuel (H + 1)
    (resize vc (H + 1)) (some p) (by omega) (le_refl _) (length_resize _ _)
    (fun i h1 h2 => by omega) (lowerLinked_resize hlow _ _) (by simp [followPrev])
  refine ⟨vc', ?_, e, he, by rw [hlen, hH]; push_cast; rfl, ?_⟩
  · unfold SetTip
    simp only [he, hw, hn]
    rw [if_neg (by have := ok.1; omega)]
    exact hres
  · intro h hh
    rw [hlen] at hh ⊢
    rw [hs h (by omega)]
    simp

theorem SetTip_walk_mono (mem : Arena) (k : Nat) (fuel : Nat) :
    ∀ (vc : Chain) (cur : Option Nat) (vc' : Chain), SetTip.walk mem fuel vc cur = .ok vc' →
      SetTip.walk mem (fuel + k) vc cur = .ok vc' := by
  induction fuel with
  | zero =>
    intro vc cur vc' h
    cases cur with
    | none =>
      simp only [SetTip.walk] at h ⊢
      exact h
    | some p => simp [SetTip.walk] at h
  | succ fuel ih =>
    intro vc cur vc' h
    cases cur with
    | none =>
      simp only [SetTip.walk] at h ⊢
      exact h
    | some p =>
      rw [Nat.succ_add]
      rw [SetTip.walk] at h ⊢
      cases he : mem[p]? with
      | none => simp [he] at h
      | some e =>
        simp only [he] at h ⊢
        split
        · next hc => simp [hc] at h
        · next hc =>
          rw [if_neg hc] at h
          split
          · next hm => simpa [hm] using h
          · next hm =>
            rw [if_neg hm] at h
            exact ih _ _ _ h

theorem SetTip_mono (mem : Arena) (k fuel : Nat) (vc : Chain) (pindex : Option Nat)
    (vc' : Chain) (h : SetTip mem fuel vc pindex = .ok vc') :
    SetTip mem (fuel + k) vc pindex = .ok vc' := by
  unfold SetTip at h ⊢
  cases pindex with
  | none => exact h
  | some p =>
    cases he : mem[p]? with
    | none => simp [he] at h
    | some e =>
      simp only [he] at h ⊢
      split
      · next hc => simp [hc] at h
      · next hc =>
        rw [if_neg hc] at h
        exact SetTip_walk_mono mem k fuel _ _ _ h

theorem consistent_of_reachable {mem : Arena} (hwf : WellFormed mem) {vc : Chain}
    (h : Reachable mem vc) : ChainConsistent mem vc := by
  induction h with
  | empty => exact Or.inl rfl
  | setTip vc vc' fuel pindex _ hres ih =>
    cases pindex with
    | none =>
      simp only [SetTip, Outcome.ok.injEq] at hres
      exact Or.inl hres.symm
    | some p =>
      cases he : mem[p]? with
      | none => simp [SetTip, he] at hres
      | some e =>
        right
        refine ⟨p, ?_⟩
        have ok := entryOK_of_wellFormed hwf he
        obtain ⟨vc2, hres2, hchain⟩ := SetTip_isChainOf hwf vc
          (lowerLinked_of_consistent ih _) (fuel + (e.nHeight.toNat + 1)) p e he
          (by have := ok.1; push_cast; omega)
        have := SetTip_mono mem (e.nHeight.toNat + 1) fuel vc (some p) vc' hres
        rw [hres2] at this
        cases this
        exact hchain

theorem isChainOf_slot {mem : Arena} (hwf : WellFormed mem) {vc : Chain} {tip : Nat}
    (h : IsChainOf mem vc tip) (i : Nat) (hi : i < vc.length) :
    ∃ r er, vc[i]? = some (some r) ∧ followPrev mem (vc.length - 1 - i) tip = some r ∧
      mem[r]? = some er ∧ er.nHeight = i := by
  obtain ⟨e, he, hlen, hs⟩ := h
  obtain ⟨r, er, hr, her, hh⟩ := followPrev_exists hwf (vc.length - 1 - i) tip e he (by omega)
  exact ⟨r, er, by rw [hs i hi, hr], hr, her, by omega⟩

/-- Claim C2: in every state of the index reachable by `SetTip` calls over a
well-formed block graph, `SetTip` on a present entry returns an index with
exactly `nHeight + 1` slots whose slot `h` holds the ancestor of the entry at
height `h` (an entry of height `h`), and whose last slot is the entry itself. -/
theorem SetTip_index_invariant (mem : Arena) (hwf : WellFormed mem) (vChain : Chain)
    (hreach : Reachable mem vChain) (fuel : Nat) (p : Nat) (e : CBlockIndex)
    (he : mem[p]? = some e) (hfuel : e.nHeight < fuel) :
    ∃ vChain', SetTip mem fuel vChain (some p) = .ok vChain' ∧
      (vChain'.length : Int) = e.nHeight + 1 ∧ Height vChain' = e.nHeight ∧
      (∀ h : Nat, (h : Int) ≤ e.nHeight →
        ∃ r er, followPrev mem (e.nHeight - h).toNat p = some r ∧
          vChain'[h]? = some (some r) ∧ mem[r]? = some er ∧ er.nHeight = h) ∧
      Tip vChain' = some p := by
  obtain ⟨vc', hres, hchain⟩ := SetTip_isChainOf hwf vChain
    (lowerLinked_of_consistent (consistent_of_reachable hwf hreach) _) fuel p e he hfuel
  have hc := hchain
  obtain ⟨e', he', hlen, hs⟩ := hc
  rw [he] at he'
  cases he'
  have slots : ∀ h : Nat, (h : Int) ≤ e.nHeight →
      ∃ r er, followPrev mem (e.nHeight - h).toNat p = some r ∧
        vc'[h]? = some (some r) ∧ mem[r]? = some er ∧ er.nHeight = h := by
    intro h hh
    obtain ⟨r, er, h1, h2, h3, h4⟩ := isChainOf_slot hwf hchain h (by omega)
    refine ⟨r, er, ?_, h1, h3, h4⟩
    rw [← h2]
    congr 1
    omega
  refine ⟨vc', hres, hlen, by unfold Height; omega, slots, ?_⟩
  have ok := entryOK_of_wellFormed hwf he
  obtain ⟨r, er, h1, h2, _, _⟩ := slots e.nHeight.toNat (by have := ok.1; omega)
  have hr : r = p := by
    have hz : (e.nHeight - (e.nHeight.toNat : Int)).toNat = 0 := by have := ok.1; omega
    rw [hz] at h1
    simpa [followPrev] using h1.symm
  subst hr
  unfold Tip
  rw [List.getLast?_eq_getElem?]
  have hidx : vc'.length - 1 = e.nHeight.toNat := by omega
  rw [hidx, h2]
  rfl

/-- Witness for C2: from the index of tip 4, `SetTip` to the entry at height 9. -/
theorem SetTip_index_invariant_witness :
    WellFormed (linearArena 14) ∧ Reachable (linearArena 14) (linearChain 5) ∧
    ∃ vChain', SetTip (linearArena 14) 10 (linearChain 5) (some 9) = .ok vChain' ∧
      (vChain'.length : Int) = (9 : Int) + 1 ∧ Height vChain' = 9 ∧
      (∀ h : Nat, (h : Int) ≤ 9 →
        ∃ r er, followPrev (linearArena 14) ((9 : Int) - h).toNat 9 = some r ∧
          vChain'[h]? = some (some r) ∧ (linearArena 14)[r]? = some er ∧ er.nHeight = h) ∧
      Tip vChain' = some 9 :=
  ⟨by decide, Reachable.setTip [] _ 5 (some 4) Reachable.empty (by decide),
    SetTip_index_invariant (linearArena 14) (by decide) (linearChain 5)
      (Reachable.setTip [] _ 5 (some 4) Reachable.empty (by decide)) 10 9
      (linearEntry 9)
      (by decide) (by decide)⟩

/-! ## `FindFork` -/

theorem followPrev_succ_left (mem : Arena) (j p : Nat) (e : CBlockIndex)
    (he : mem[p]? = some e) : followPrev mem (j + 1) p = e.pprev.bind (followPrev mem j) := by
  simp [followPrev, he]

theorem FindFork_loop_none (mem : Arena) (vc : Chain) (fuel : Nat) :
    FindFork.loop mem vc fuel none = .ok none := by
  cases fuel <;> simp [FindFork.loop]

theorem not_member_of_not_contains {mem : Arena} {vc : Chain} {p : Nat} {e : CBlockIndex}
    (he : mem[p]? = some e) (hc : ¬ Contains vc p e = true) : ¬ IsMember mem vc p := by
  rintro ⟨e', he', hc'⟩
  rw [he] at he'
  cases he'
  exact hc hc'

theorem FindFork_loop_correct {mem : Arena} (hwf : WellFormed mem) (vc : Chain) (fuel : Nat) :
    ∀ (cur : Nat) (ec : CBlockIndex), mem[cur]? = some ec → ec.nHeight < fuel →
      (∃ k r, followPrev mem k cur = some r ∧ IsMember mem vc r ∧
        (∀ j q, j < k → followPrev mem j cur = some q → ¬ IsMember mem vc q) ∧
        FindFork.loop mem vc fuel (some cur) = .ok (some r)) ∨
      ((∀ j q, followPrev mem j cur = some q → ¬ IsMember mem vc q) ∧
        FindFork.loop mem vc fuel (some cur) = .ok none) := by
  induction fuel with
  | zero =>
    intro cur ec hc hf
    have := (entryOK_of_wellFormed hwf hc).1
    simp at hf
    omega
  | succ fuel ih =>
    intro cur ec hc hf
    rw [FindFork.loop]
    simp only [hc]
    by_cases hcon : Contains vc cur ec = true
    · left
      exact ⟨0, cur, rfl, ⟨ec, hc, hcon⟩, fun j q hj => absurd hj (Nat.not_lt_zero j),
        by rw [if_pos hcon]⟩
    · rw [if_neg hcon]
      have hnot := not_member_of_not_contains hc hcon
      cases hp : ec.pprev with
      | none =>
        right
        refine ⟨?_, FindFork_loop_none mem vc fuel⟩
        intro j q hj
        cases j with
        | zero =>
          simp only [followPrev, Option.some.injEq] at hj
          subst hj
          exact hnot
        | succ j =>
          rw [followPrev_succ_left mem j cur ec hc, hp] at hj
          simp at hj
      | some q0 =>
        have hpos : 0 < ec.nHeight := by
          have ok := entryOK_of_wellFormed hwf hc
          have h1 := ok.2.2.1
          rw [hp] at h1
          simp only [PrevOK, Option.map_eq_some'] at h1
          obtain ⟨e', he', hh'⟩ := h1
          have := (entryOK_of_wellFormed hwf he').1
          omega
        obtain ⟨q1, eq, hq, hmq, hhq⟩ := prev_of_wellFormed hwf hc hpos
        rw [hp] at hq
        cases hq
        have step : ∀ j q, followPrev mem (j + 1) cur = some q → followPrev mem j q0 = some q := by
          intro j q hj
          rw [followPrev_succ_left mem j cur ec hc, hp] at hj
          simpa using hj
        rcases ih q0 eq hmq (by push_cast at hf; omega) with ⟨k, r, hr, hm, hbelow, hres⟩ | ⟨hall, hres⟩
        · left
          refine ⟨k + 1, r, ?_, hm, ?_, hres⟩
          · rw [followPrev_succ_left mem k cur ec hc, hp]
            simpa using hr
          · intro j q hj hfq
            cases j with
            | zero =>
              simp only [followPrev, Option.some.injEq] at hfq
              subst hfq
              exact hnot
            | succ j => exact hbelow j q (by omega) (step j q hfq)
        · right
          refine ⟨?_, hres⟩
          intro j q hfq
          cases j with
          | zero =>
            simp only [followPrev, Option.some.injEq] at hfq
            subst hfq
            exact hnot
          | succ j => exact hall j q (step j q hfq)

theorem not_member_above {mem : Arena} {vc : Chain} {q : Nat} {e : CBlockIndex}
    (he : mem[q]? = some e) (h : e.nHeight > Height vc) : ¬ IsMember mem vc q := by
  apply not_member_of_not_contains he
  unfold Contains chainAt
  unfold Height at h
  rw [if_pos (Or.inr (by omega))]
  simp

/-- Claim C3: for a present entry of a well-formed block graph, `FindFork`
returns the highest ancestor-or-self of the entry that is a member of the
active chain: the result `r` is reached from the entry via `pprev`, it is a
member, and no entry on the path above `r` is a member; when no entry of the
path is a member (as for the empty index) the result is the null pointer. -/
theorem FindFork_highest_common_ancestor (mem : Arena) (hwf : WellFormed mem) (vChain : Chain)
    (fuel : Nat) (p : Nat) (e : CBlockIndex) (he : mem[p]? = some e)
    (hfuel : e.nHeight < fuel) :
    (∃ k r, followPrev mem k p = some r ∧ IsMember mem vChain r ∧
      (∀ j q, j < k → followPrev mem j p = some q → ¬ IsMember mem vChain q) ∧
      FindFork mem vChain fuel (some p) = .ok (some r)) ∨
    ((∀ j q, followPrev mem j p = some q → ¬ IsMember mem vChain q) ∧
      FindFork mem vChain fuel (some p) = .ok none) := by
  unfold FindFork
  simp only [he]
  have above : ∀ (j : Nat) (q : Nat), (e.nHeight - (j : Int) > Height vChain) →
      followPrev mem j p = some q → ¬ IsMember mem vChain q := by
    intro j q hj hq
    obtain ⟨eq, heq, hh⟩ := followPrev_height hwf j p e q he hq
    exact not_member_above heq (by omega)
  by_cases hgt : e.nHeight > Height vChain
  · rw [if_pos hgt]
    by_cases hneg : Height vChain < 0
    · right
      have hga : GetAncestor mem p (Height vChain) = .ok none := by
        unfold GetAncestor
        simp only [he]
        rw [if_pos (Or.inr hneg)]
      rw [hga]
      refine ⟨?_, by simp [Outcome.bind, FindFork_loop_none]⟩
      intro j q hq
      obtain ⟨eq, heq, hh⟩ := followPrev_height hwf j p e q he hq
      have := (entryOK_of_wellFormed hwf heq).1
      exact not_member_above heq (by omega)
    · obtain ⟨r0, hr0, hga⟩ :=
        GetAncestor_correct hwf p e he (Height vChain) (by omega) (by omega)
      obtain ⟨e0, he0, hh0⟩ := followPrev_height hwf _ p e r0 he hr0
      rw [hga]
      simp only [Outcome.bind]
      have hd : ((e.nHeight - Height vChain).toNat : Int) = e.nHeight - Height vChain := by
        omega
      have split1 : ∀ j q, followPrev mem j p = some q →
          (e.nHeight - Height vChain).toNat ≤ j →
          followPrev mem (j - (e.nHeight - Height vChain).toNat) r0 = some q := by
        intro j q hq hle
        rw [← followPrev_split mem j (e.nHeight - Height vChain).toNat _ p r0 (by omega) hr0]
        exact hq
      rcases FindFork_loop_correct hwf vChain fuel r0 e0 he0 (by omega) with
        ⟨k, r, hr, hm, hbelow, hres⟩ | ⟨hall, hres⟩
      · left
        refine ⟨(e.nHeight - Height vChain).toNat + k, r, ?_, hm, ?_, hres⟩
        · rw [followPrev_add, hr0]
          simpa using hr
        · intro j q hj hq
          by_cases hjd : j < (e.nHeight - Height vChain).toNat
          · exact above j q (by omega) hq
          · exact hbelow _ q (by omega) (split1 j q hq (by omega))
      · right
        refine ⟨?_, hres⟩
        intro j q hq
        by_cases hjd : j < (e.nHeight - Height vChain).toNat
        · exact above j q (by omega) hq
        · exact hall _ q (split1 j q hq (by omega))
  · rw [if_neg hgt]
    exact FindFork_loop_correct hwf vChain fuel p e he hfuel

/-- Claim C4: for an entry that is a member of the active chain, `FindFork`
returns the entry itself. -/
theorem FindFork_of_member (mem : Arena) (vChain : Chain) (fuel : Nat) (p : Nat)
    (e : CBlockIndex) (he : mem[p]? = some e) (hmem : Contains vChain p e = true)
    (hfuel : 0 < fuel) :
    e.nHeight ≤ Height vChain ∧ FindFork mem vChain fuel (some p) = .ok (some p) := by
  have hle : e.nHeight ≤ Height vChain := by
    by_contra hc
    exact not_member_above he (by omega) ⟨e, he, hmem⟩
  refine ⟨hle, ?_⟩
  unfold FindFork
  simp only [he]
  rw [if_neg (by omega)]
  obtain ⟨f, rfl⟩ : ∃ f, fuel = f + 1 := ⟨fuel - 1, by omega⟩
  rw [FindFork.loop]
  simp [he, hmem]

/-- Witness for C3: the entry at height 12 against the active chain of tip 7. -/
theorem FindFork_highest_common_ancestor_witness :
    WellFormed (linearArena 14) ∧
    ((∃ k r, followPrev (linearArena 14) k 12 = some r ∧
        IsMember (linearArena 14) (linearChain 8) r ∧
        (∀ j q, j < k → followPrev (linearArena 14) j 12 = some q →
          ¬ IsMember (linearArena 14) (linearChain 8) q) ∧
        FindFork (linearArena 14) (linearChain 8) 13 (some 12) = .ok (some r)) ∨
      ((∀ j q, followPrev (linearArena 14) j 12 = some q →
          ¬ IsMember (linearArena 14) (linearChain 8) q) ∧
        FindFork (linearArena 14) (linearChain 8) 13 (some 12) = .ok none)) :=
  ⟨by decide, FindFork_highest_common_ancestor (linearArena 14) (by decide) (linearChain 8) 13 12
    (linearEntry 12)
    (by decide) (by decide)⟩

/-- Witness for C4: the entry at height 5 is a member of the chain of tip 7. -/
theorem FindFork_of_member_witness :
    Contains (linearChain 8) 5
        (linearEntry 5)
      = true ∧
    (5 : Int) ≤ Height (linearChain 8) ∧
    FindFork (linearArena 14) (linearChain 8) 1 (some 5) = .ok (some 5) :=
  ⟨by decide, FindFork_of_member (linearArena 14) (linearChain 8) 1 5
    (linearEntry 5)
    (by decide) (by decide) (by decide)⟩

/-! ## `GetLocator` -/

theorem chainAt_of_lowerLinked {mem : Arena} {vc : Chain} (hlow : LowerLinked mem vc vc.length)
    {cur : Nat} {ec : CBlockIndex} (hcon : Contains vc cur ec = true) (h h' : Nat)
    (hh : ec.nHeight = h) (hle : h' ≤ h) :
    chainAt vc (h' : Int) = followPrev mem (h - h') cur := by
  unfold Contains at hcon
  have hat : chainAt vc ec.nHeight = some cur := by simpa using hcon
  unfold chainAt at hat ⊢
  rw [hh] at hat
  by_cases hr : (h : Int) < 0 ∨ (h : Int) ≥ (vc.length : Int)
  · rw [if_pos hr] at hat
    exact absurd hat (by simp)
  · rw [if_neg hr] at hat
    rw [if_neg (by omega)]
    simp only [Int.toNat_ofNat] at hat ⊢
    have hslot : vc[h]? = some (some cur) := by
      cases hx : vc[h]? with
      | none => simp [hx] at hat
      | some x => simp [hx] at hat; simp [hat]
    rw [hlow h cur (by omega) hslot h' hle]
    rfl

theorem ancestorHash_eq {mem : Arena} {s H h r : Nat} {er : CBlockIndex}
    (hr : followPrev mem (H - h) s = some r) (her : mem[r]? = some er) :
    ancestorHash mem s H h = er.phashBlock := by
  simp [ancestorHash, hr, her]

theorem GetLocator_loop_correct {mem : Arena} (hwf : WellFormed mem) (vc : Chain)
    (hlow : LowerLinked mem vc vc.length) (s : Nat) (es : CBlockIndex)
    (hs : mem[s]? = some es) (H : Nat) (hH : es.nHeight = H) (fuel : Nat) :
    ∀ (h cur : Nat) (nStep : Int) (step : Nat) (vHave : List Nat),
      h ≤ H → followPrev mem (H - h) s = some cur →
      (0 < h → nStep = step ∧ 1 ≤ step ∧ step + h ≤ H + 1) → h < fuel →
      GetLocator.loop mem vc fuel (some cur) nStep vHave =
        .ok (vHave ++ (locatorHeights fuel h step vHave.length).map (ancestorHash mem s H)) := by
  have hHlt : (H : Int) < 2 ^ 31 - 1 := by
    have := (entryOK_of_wellFormed hwf hs).2.1
    omega
  induction fuel with
  | zero => intro h cur nStep step vHave _ _ _ hf; omega
  | succ fuel ih =>
    intro h cur nStep step vHave hle hcur hstep hf
    obtain ⟨ec, hc, hhc⟩ := followPrev_height hwf _ s es cur hs hcur
    have hch : ec.nHeight = h := by rw [hhc, hH]; omega
    rw [GetLocator.loop]
    simp only [hc]
    by_cases hz : h = 0
    · subst hz
      rw [if_pos (by simpa using hch)]
      simp [locatorHeights, ancestorHash_eq hcur hc]
    · rw [if_neg (by omega)]
      obtain ⟨hn, h1, h2⟩ := hstep (by omega)
      subst hn
      have hmax : max (wrap32 (ec.nHeight - (step : Int))) 0 = ((h - step : Nat) : Int) := by
        rw [wrap32_of_range _ (by omega) (by omega)]
        omega
      rw [hmax]
      obtain ⟨q, eq, hq, hmq, hhq⟩ := followPrev_exists hwf (h - (h - step)) cur ec hc (by omega)
      have hnext : (if Contains vc cur ec = true then Outcome.ok (chainAt vc ((h - step : Nat) : Int))
          else GetAncestor mem cur ((h - step : Nat) : Int)) = Outcome.ok (some q) := by
        split
        · next hcon =>
          rw [chainAt_of_lowerLinked hlow hcon h (h - step) hch (by omega), hq]
        · obtain ⟨r, hr, hga⟩ := GetAncestor_correct hwf cur ec hc ((h - step : Nat) : Int)
            (by omega) (by omega)
          have hk : (ec.nHeight - ((h - step : Nat) : Int)).toNat = h - (h - step) := by omega
          rw [hk, hq] at hr
          cases hr
          exact hga
      simp only [hnext]
      have hq2 : followPrev mem (H - (h - step)) s = some q := by
        rw [followPrev_split mem _ (H - h) (h - (h - step)) s cur (by omega) hcur]
        exact hq
      rw [ih (h - step) q _ (if vHave.length + 1 > 10 then 2 * step else step)
        (vHave ++ [ec.phashBlock]) (by omega) hq2 ?_ (by omega)]
      · simp [locatorHeights, hz, ancestorHash_eq hcur hc]
      · intro hpos
        simp only [List.length_append, List.length_singleton]
        split
        · refine ⟨?_, by omega, by omega⟩
          rw [wrap32_of_range _ (by omega) (by omega)]
          push_cast
          omega
        · exact ⟨rfl, h1, by omega⟩

theorem locatorHeights_shape (fuel : Nat) :
    ∀ h step size, h < fuel → 1 ≤ step →
      ∃ init, locatorHeights fuel h step size = init ++ [0] ∧
        (∀ x ∈ init, 0 < x ∧ x ≤ h) ∧
        (locatorHeights fuel h step size).Pairwise (· > ·) ∧
        (∀ x ∈ locatorHeights fuel h step size, x ≤ h) := by
  induction fuel with
  | zero => intro h step size hf; omega
  | succ fuel ih =>
    intro h step size hf hstep
    by_cases hz : h = 0
    · subst hz
      exact ⟨[], by simp [locatorHeights], by simp, by simp [locatorHeights],
        by simp [locatorHeights]⟩
    · obtain ⟨init, hinit, hpos, hpw, hle⟩ := ih (h - step)
        (if size + 1 > 10 then 2 * step else step) (size + 1) (by omega) (by split <;> omega)
      have hl : locatorHeights (fuel + 1) h step size = h ::
          locatorHeights fuel (h - step) (if size + 1 > 10 then 2 * step else step) (size + 1) := by
        simp [locatorHeights, hz]
      rw [hl]
      refine ⟨h :: init, by rw [hinit]; rfl, ?_, ?_, ?_⟩
      · intro x hx
        rcases List.mem_cons.mp hx with rfl | hx
        · omega
        · have := hpos x hx
          omega
      · rw [List.pairwise_cons]
        refine ⟨?_, hpw⟩
        intro x hx
        have := hle x hx
        omega
      · intro x hx
        rcases List.mem_cons.mp hx with rfl | hx
        · omega
        · have := hle x hx
          omega

theorem locatorHeights_head (fuel h step size : Nat) (hf : h < fuel) :
    (locatorHeights fuel h step size).head? = some h := by
  obtain ⟨f, rfl⟩ : ∃ f, fuel = f + 1 := ⟨fuel - 1, by omega⟩
  simp [locatorHeights]

theorem locatorHeights_gap (fuel : Nat) :
    ∀ h step size, step = 2 ^ (size - 10) → ∀ i a b,
      (locatorHeights fuel h step size)[i]? = some a →
      (locatorHeights fuel h step size)[i + 1]? = some b →
      b ≤ a ∧ a - b = min a (2 ^ (size + i - 10)) := by
  induction fuel with
  | zero => intro h step size _ i a b ha; simp [locatorHeights] at ha
  | succ fuel ih =>
    intro h step size hstep i a b ha hb
    by_cases hz : h = 0
    · subst hz
      simp [locatorHeights] at hb
    · have hl : locatorHeights (fuel + 1) h step size = h ::
          locatorHeights fuel (h - step) (if size + 1 > 10 then 2 * step else step) (size + 1) := by
        simp [locatorHeights, hz]
      rw [hl] at ha hb
      have hstep' : (if size + 1 > 10 then 2 * step else step) = 2 ^ (size + 1 - 10) := by
        subst hstep
        split
        · rw [show size + 1 - 10 = (size - 10) + 1 by omega, pow_succ]; ring
        · rw [show size + 1 - 10 = 0 by omega, show size - 10 = 0 by omega]
      cases i with
      | zero =>
        simp only [List.getElem?_cons_zero, Option.some.injEq] at ha
        simp only [List.getElem?_cons_succ] at hb
        subst ha
        have hb2 : b = h - step := by
          cases fuel with
          | zero => simp [locatorHeights] at hb
          | succ f => simpa [locatorHeights] using hb.symm
        subst hb2
        clear hstep'
        rw [Nat.add_zero, ← hstep]
        omega
      | succ i =>
        simp only [List.getElem?_cons_succ] at ha hb
        have := ih (h - step) _ (size + 1) hstep' i a b ha hb
        rw [show size + (i + 1) - 10 = size + 1 + i - 10 by omega]
        exact this

theorem tip_of_consistent {mem : Arena} (hwf : WellFormed mem) {vc : Chain}
    (hcons : ChainConsistent mem vc) {s : Nat} (ht : Tip vc = some s) :
    IsChainOf mem vc s := by
  rcases hcons with h | ⟨tip, h⟩
  · subst h
    simp [Tip] at ht
  · have hc := h
    obtain ⟨e, he, hlen, hsl⟩ := hc
    have ok := (entryOK_of_wellFormed hwf he).1
    have hlast := hsl (vc.length - 1) (by omega)
    unfold Tip at ht
    rw [List.getLast?_eq_getElem?, hlast] at ht
    simp [followPrev] at ht
    subst ht
    exact h

theorem GetLocator_eq_heights {mem : Arena} (hwf : WellFormed mem) (vc : Chain)
    (hcons : ChainConsistent mem vc) (fuel : Nat) (pindex : Option Nat) (s : Nat)
    (es : CBlockIndex) (hstart : (if pindex.isSome then pindex else Tip vc) = some s)
    (hs : mem[s]? = some es) (hfuel : es.nHeight < fuel) :
    GetLocator mem vc fuel pindex =
      .ok ((locatorHeights fuel es.nHeight.toNat 1 0).map
        (ancestorHash mem s es.nHeight.toNat)) := by
  have ok := entryOK_of_wellFormed hwf hs
  have hH : es.nHeight = (es.nHeight.toNat : Int) := by have := ok.1; omega
  unfold GetLocator
  rw [hstart]
  have := GetLocator_loop_correct hwf vc (lowerLinked_of_consistent hcons _) s es hs
    es.nHeight.toNat hH fuel es.nHeight.toNat s 1 1 [] (le_refl _) (by simp [followPrev])
    (fun _ => ⟨rfl, le_refl _, by omega⟩) (by omega)
  simpa using this

theorem locator_entry {mem : Arena} (hwf : WellFormed mem) (s : Nat) (es : CBlockIndex)
    (hs : mem[s]? = some es) (h : Nat) (hle : h ≤ es.nHeight.toNat) :
    ∃ r er, followPrev mem (es.nHeight.toNat - h) s = some r ∧ mem[r]? = some er ∧
      er.nHeight = h ∧ er.phashBlock = ancestorHash mem s es.nHeight.toNat h := by
  have ok := (entryOK_of_wellFormed hwf hs).1
  obtain ⟨r, er, hr, her, hh⟩ := followPrev_exists hwf (es.nHeight.toNat - h) s es hs (by omega)
  exact ⟨r, er, hr, her, by omega, (ancestorHash_eq hr her).symm⟩

theorem hash_injective {mem : Arena} (hd : HashesDistinct mem) {a b : Nat} {ea eb : CBlockIndex}
    (ha : mem[a]? = some ea) (hb : mem[b]? = some eb) (h : ea.phashBlock = eb.phashBlock) :
    a = b := by
  obtain ⟨ha1, rfl⟩ := List.getElem?_eq_some.mp ha
  obtain ⟨hb1, rfl⟩ := List.getElem?_eq_some.mp hb
  unfold HashesDistinct at hd
  have hla : a < (mem.map fun e => e.phashBlock).length := by simpa using ha1
  have hlb : b < (mem.map fun e => e.phashBlock).length := by simpa using hb1
  exact (@List.Nodup.getElem_inj_iff _ _ hd a hla b hlb).mp (by simpa using h)

theorem GetLocator_listing {mem : Arena} (hwf : WellFormed mem) (vc : Chain)
    (hcons : ChainConsistent mem vc) (fuel : Nat) (pindex : Option Nat) (s : Nat)
    (es : CBlockIndex) (hstart : (if pindex.isSome then pindex else Tip vc) = some s)
    (hs : mem[s]? = some es) (hfuel : es.nHeight < fuel) :
    GetLocator mem vc fuel pindex =
        .ok ((locatorHeights fuel es.nHeight.toNat 1 0).map
          (ancestorHash mem s es.nHeight.toNat)) ∧
      List.Forall₂ (ListsAncestor mem s) (locatorHeights fuel es.nHeight.toNat 1 0)
        ((locatorHeights fuel es.nHeight.toNat 1 0).map (ancestorHash mem s es.nHeight.toNat)) := by
  have ok := (entryOK_of_wellFormed hwf hs).1
  refine ⟨GetLocator_eq_heights hwf vc hcons fuel pindex s es hstart hs hfuel, ?_⟩
  rw [List.forall₂_map_right_iff, List.forall₂_same]
  intro h hh
  obtain ⟨_, _, _, _, hle⟩ := locatorHeights_shape fuel es.nHeight.toNat 1 0 (by omega) (le_refl 1)
  obtain ⟨r, er, hr, her, hh1, hh2⟩ := locator_entry hwf s es hs h (hle h hh)
  exact ⟨_, r, er, hr, her, hh1, hh2⟩

/-- Claim C5: for every starting entry of a well-formed block graph with distinct
hashes (the given entry, or the tip of the active chain when none is given),
`GetLocator` returns, its last hash is the hash of the height-0 ancestor of the
starting entry, and that hash occurs exactly once in the list. -/
theorem GetLocator_ends_with_genesis (mem : Arena) (hwf : WellFormed mem)
    (hdist : HashesDistinct mem) (vChain : Chain) (hcons : ChainConsistent mem vChain)
    (fuel : Nat) (pindex : Option Nat) (s : Nat) (es : CBlockIndex)
    (hstart : (if pindex.isSome then pindex else Tip vChain) = some s)
    (hs : mem[s]? = some es) (hfuel : es.nHeight < fuel) :
    ∃ g eg vHave, followPrev mem es.nHeight.toNat s = some g ∧ mem[g]? = some eg ∧
      eg.nHeight = 0 ∧ GetLocator mem vChain fuel pindex = .ok vHave ∧
      vHave.getLast? = some eg.phashBlock ∧ vHave.count eg.phashBlock = 1 := by
  have ok := (entryOK_of_wellFormed hwf hs).1
  obtain ⟨init, hinit, hpos, _, _⟩ :=
    locatorHeights_shape fuel es.nHeight.toNat 1 0 (by omega) (le_refl 1)
  obtain ⟨g, eg, hg, heg, hh, hhash⟩ := locator_entry hwf s es hs 0 (Nat.zero_le _)
  have hres := GetLocator_eq_heights hwf vChain hcons fuel pindex s es hstart hs hfuel
  rw [hinit, List.map_append, List.map_singleton, ← hhash] at hres
  refine ⟨g, eg, _, by simpa using hg, heg, by simpa using hh, hres,
    List.getLast?_concat _, ?_⟩
  rw [List.count_append, List.count_singleton_self, List.count_eq_zero_of_not_mem]
  intro hmem
  obtain ⟨x, hx, hfx⟩ := List.mem_map.mp hmem
  obtain ⟨r, er, hr, her, hh1, hh2⟩ := locator_entry hwf s es hs x (hpos x hx).2
  have hrg : r = g := hash_injective hdist her heg (by rw [hh2, hfx])
  subst hrg
  rw [her] at heg
  cases heg
  have := (hpos x hx).1
  omega

/-- Witness for C5: no entry given, the tip of the active chain of tip 7 is used. -/
theorem GetLocator_ends_with_genesis_witness :
    WellFormed (linearArena 14) ∧ HashesDistinct (linearArena 14) ∧
    ∃ g eg vHave, followPrev (linearArena 14) ((7 : Int).toNat) 7 = some g ∧
      (linearArena 14)[g]? = some eg ∧ eg.nHeight = 0 ∧
      GetLocator (linearArena 14) (linearChain 8) 8 none = .ok vHave ∧
      vHave.getLast? = some eg.phashBlock ∧ vHave.count eg.phashBlock = 1 :=
  ⟨by decide, by decide,
    GetLocator_ends_with_genesis (linearArena 14) (by decide) (by decide) (linearChain 8)
      (Or.inr ⟨7, (linearEntry 7), by decide, by decide, by decide⟩)
      8 none 7
      (linearEntry 7)
      (by decide) (by decide) (by decide)⟩

/-- Claim C6: the list returned by `GetLocator` is most-recent-first: its first
hash is the hash of the starting entry, every listed hash is the hash of an
ancestor-or-self of the starting entry, and the heights `hs` of the listed
entries are strictly decreasing. -/
theorem GetLocator_most_recent_first (mem : Arena) (hwf : WellFormed mem) (vChain : Chain)
    (hcons : ChainConsistent mem vChain) (fuel : Nat) (pindex : Option Nat) (s : Nat)
    (es : CBlockIndex) (hstart : (if pindex.isSome then pindex else Tip vChain) = some s)
    (hs : mem[s]? = some es) (hfuel : es.nHeight < fuel) :
    ∃ (hts : List Nat) (vHave : List Nat), GetLocator mem vChain fuel pindex = .ok vHave ∧
      vHave.head? = some es.phashBlock ∧ List.Forall₂ (ListsAncestor mem s) hts vHave ∧
      hts.Pairwise (· > ·) := by
  have ok := (entryOK_of_wellFormed hwf hs).1
  obtain ⟨hres, hall⟩ := GetLocator_listing hwf vChain hcons fuel pindex s es hstart hs hfuel
  obtain ⟨_, _, _, hpw, _⟩ :=
    locatorHeights_shape fuel es.nHeight.toNat 1 0 (by omega) (le_refl 1)
  refine ⟨_, _, hres, ?_, hall, hpw⟩
  rw [List.head?_map, locatorHeights_head fuel _ 1 0 (by omega)]
  obtain ⟨r, er, hr, her, _, hh2⟩ := locator_entry hwf s es hs es.nHeight.toNat (le_refl _)
  simp only [Nat.sub_self, followPrev, Option.some.injEq] at hr
  subst hr
  rw [hs] at her
  cases her
  simp [hh2]

/-- Witness for C6: the entry at height 13, off the active chain of tip 7. -/
theorem GetLocator_most_recent_first_witness :
    WellFormed (linearArena 14) ∧
    ∃ (hts : List Nat) (vHave : List Nat),
      GetLocator (linearArena 14) (linearChain 8) 14 (some 13) = .ok vHave ∧
      vHave.head? = some 113 ∧ List.Forall₂ (ListsAncestor (linearArena 14) 13) hts vHave ∧
      hts.Pairwise (· > ·) :=
  ⟨by decide,
    GetLocator_most_recent_first (linearArena 14) (by decide) (linearChain 8)
      (Or.inr ⟨7, (linearEntry 7), by decide, by decide, by decide⟩)
      14 (some 13) 13
      (linearEntry 13)
      (by decide) (by decide) (by decide)⟩

/-- Claim C7, as amended: writing `a` for the height of the `n`-th listed entry
(counted from 1) and `b` for the height of the next one, the gap `a - b` is
`min a 1` for every `n ≤ 11` and `min a (2 ^ (n - 11))` for every `n ≥ 12`
(the exponent `n - 11` is truncated at 0). -/
theorem GetLocator_gap (mem : Arena) (hwf : WellFormed mem) (vChain : Chain)
    (hcons : ChainConsistent mem vChain) (fuel : Nat) (pindex : Option Nat) (s : Nat)
    (es : CBlockIndex) (hstart : (if pindex.isSome then pindex else Tip vChain) = some s)
    (hs : mem[s]? = some es) (hfuel : es.nHeight < fuel) :
    ∃ (hts : List Nat) (vHave : List Nat), GetLocator mem vChain fuel pindex = .ok vHave ∧
      List.Forall₂ (ListsAncestor mem s) hts vHave ∧
      ∀ n a b, 1 ≤ n → hts[n - 1]? = some a → hts[n]? = some b →
        b ≤ a ∧ a - b = min a (2 ^ (n - 11)) := by
  obtain ⟨hres, hall⟩ := GetLocator_listing hwf vChain hcons fuel pindex s es hstart hs hfuel
  refine ⟨_, _, hres, hall, ?_⟩
  intro n a b hn ha hb
  obtain ⟨i, rfl⟩ : ∃ i, n = i + 1 := ⟨n - 1, by omega⟩
  have := locatorHeights_gap fuel es.nHeight.toNat 1 0 (by simp) i a b (by simpa using ha) hb
  rw [show i + 1 - 11 = 0 + i - 10 by omega]
  exact this

/-- Witness for the amended C7 on the entry at height 13. -/
theorem GetLocator_gap_witness :
    WellFormed (linearArena 14) ∧
    ∃ (hts : List Nat) (vHave : List Nat),
      GetLocator (linearArena 14) [] 14 (some 13) = .ok vHave ∧
      List.Forall₂ (ListsAncestor (linearArena 14) 13) hts vHave ∧
      ∀ n a b, 1 ≤ n → hts[n - 1]? = some a → hts[n]? = some b →
        b ≤ a ∧ a - b = min a (2 ^ (n - 11)) :=
  ⟨by decide,
    GetLocator_gap (linearArena 14) (by decide) [] (Or.inl rfl) 14 (some 13) 13
      (linearEntry 13)
      (by decide) (by decide) (by decide)⟩

/-- Counterexample to C7 as stated: from the entry at height 12 of a chain of 13
entries (the hash of the entry at height `h` is `100 + h`) the listed heights
are `12, 11, ..., 1, 0`; the 11th listed height is 2 and the 12th is 1, a gap
of 1, where the claim asks for `min 2 (2 ^ (11 - 10)) = 2`. -/
theorem GetLocator_gap_counterexample :
    WellFormed (linearArena 13) ∧
    GetLocator (linearArena 13) [] 13 (some 12) =
      .ok ([12, 11, 10, 9, 8, 7, 6, 5, 4, 3, 2, 1, 0].map fun h => 100 + h) ∧
    ¬ (∀ n a b, 11 ≤ n → [12, 11, 10, 9, 8, 7, 6, 5, 4, 3, 2, 1, 0][n - 1]? = some a →
        [12, 11, 10, 9, 8, 7, 6, 5, 4, 3, 2, 1, 0][n]? = some b →
        a - b = min a (2 ^ (n - 10))) := by
  refine ⟨by decide, by decide, ?_⟩
  intro hc
  have h := hc 11 2 1 (by decide) (by decide) (by decide)
  revert h
  decide

/-! ## `FindEarliestAtLeast` -/

theorem slot_lt_of_some {mem : Arena} {vc : Chain} {i : Nat} {t : Int}
    (h : slotTimeMax mem vc i = some t) : i < vc.length := by
  by_contra hc
  simp [slotTimeMax, List.getElem?_eq_none (by omega : vc.length ≤ i)] at h

theorem lowerBound_correct {mem : Arena} {vc : Chain} (hvalid : SlotsValid mem vc)
    (hmono : TimeMaxNonDecreasing mem vc) (nTime : Int) (fuel : Nat) :
    ∀ first len, len ≤ fuel → first + len ≤ vc.length →
      (∀ j tj, j < first → slotTimeMax mem vc j = some tj → tj < nTime) →
      (∀ j tj, first + len ≤ j → slotTimeMax mem vc j = some tj → nTime ≤ tj) →
      ∃ pos, lowerBound mem vc nTime fuel first len = .ok pos ∧ pos ≤ vc.length ∧
        (∀ j tj, j < pos → slotTimeMax mem vc j = some tj → tj < nTime) ∧
        (∀ j tj, pos ≤ j → slotTimeMax mem vc j = some tj → nTime ≤ tj) := by
  induction fuel with
  | zero =>
    intro first len hl hle hlo hhi
    have : len = 0 := by omega
    subst this
    exact ⟨first, by simp [lowerBound], by omega, hlo, by simpa using hhi⟩
  | succ fuel ih =>
    intro first len hl hle hlo hhi
    rw [lowerBound]
    by_cases hpos : len > 0
    · rw [if_pos hpos]
      have hmid : first + len / 2 < vc.length := by omega
      obtain ⟨tm, htm⟩ := Option.isSome_iff_exists.mp (hvalid _ hmid)
      simp only [htm]
      have cmp : ∀ i j ti tj, i ≤ j → slotTimeMax mem vc i = some ti →
          slotTimeMax mem vc j = some tj → ti ≤ tj := by
        intro i j ti tj hij hi hj
        rcases Nat.lt_or_eq_of_le hij with h | h
        · have := hmono j (slot_lt_of_some hj) i h
          simpa [hi, hj] using this
        · subst h
          rw [hi] at hj
          cases hj
          exact le_refl _
      split
      · next hlt =>
        apply ih (first + len / 2 + 1) (len - len / 2 - 1) (by omega) (by omega)
        · intro j tj hj hs
          have := cmp j (first + len / 2) tj tm (by omega) hs htm
          omega
        · intro j tj hj hs
          exact hhi j tj (by omega) hs
      · next hge =>
        apply ih first (len / 2) (by omega) (by omega) hlo
        intro j tj hj hs
        have := cmp (first + len / 2) j tm tj hj htm hs
        omega
    · rw [if_neg hpos]
      have : len = 0 := by omega
      subst this
      exact ⟨first, rfl, by omega, hlo, by simpa using hhi⟩

/-- Claim C8: when every slot of the index is valid and the running-maximum
timestamp is non-decreasing in height, `FindEarliestAtLeast` returns the entry
of the lowest slot whose running-maximum timestamp is at least `nTime`, and it
returns the null pointer if and only if every slot has a running-maximum
timestamp below `nTime` (in particular for the empty index). -/
theorem FindEarliestAtLeast_correct (mem : Arena) (vChain : Chain)
    (hvalid : SlotsValid mem vChain) (hmono : TimeMaxNonDecreasing mem vChain) (nTime : Int) :
    ∃ r, FindEarliestAtLeast mem vChain nTime = .ok r ∧
      (r = none ↔ ∀ i ti, slotTimeMax mem vChain i = some ti → ti < nTime) ∧
      (∀ p, r = some p → ∃ i ti, vChain[i]? = some (some p) ∧
        slotTimeMax mem vChain i = some ti ∧ nTime ≤ ti ∧
        ∀ j tj, j < i → slotTimeMax mem vChain j = some tj → tj < nTime) := by
  obtain ⟨pos, hres, hle, hlo, hhi⟩ := lowerBound_correct hvalid hmono nTime vChain.length 0
    vChain.length (le_refl _) (by omega) (fun j tj hj => absurd hj (Nat.not_lt_zero j))
    (fun j tj hj hs => absurd (slot_lt_of_some hs) (by omega))
  unfold FindEarliestAtLeast
  simp only [hres]
  refine ⟨_, rfl, ?_, ?_⟩
  · by_cases hp : pos = vChain.length
    · simp only [hp, if_true, true_iff]
      intro i ti hs
      exact hlo i ti (by have := slot_lt_of_some hs; omega) hs
    · rw [if_neg hp]
      obtain ⟨tm, htm⟩ := Option.isSome_iff_exists.mp (hvalid pos (by omega))
      have hne : (vChain[pos]?).join ≠ none := by
        intro hn
        unfold slotTimeMax at htm
        rw [hn] at htm
        simp at htm
      constructor
      · intro h
        exact absurd h hne
      · intro hall
        have h1 := hall pos tm htm
        have h2 := hhi pos tm (le_refl _) htm
        omega
  · intro p hp
    by_cases hpl : pos = vChain.length
    · simp [hpl] at hp
    · rw [if_neg hpl] at hp
      obtain ⟨tm, htm⟩ := Option.isSome_iff_exists.mp (hvalid pos (by omega))
      refine ⟨pos, tm, ?_, htm, hhi pos tm (le_refl _) htm, hlo⟩
      cases hx : vChain[pos]? with
      | none => simp [hx] at hp
      | some x => simp [hx] at hp; simp [hp]

/-- Witness for C8: the chain of tip 7 and the time 1031. -/
theorem FindEarliestAtLeast_correct_witness :
    SlotsValid (linearArena 14) (linearChain 8) ∧
    TimeMaxNonDecreasing (linearArena 14) (linearChain 8) ∧
    ∃ r, FindEarliestAtLeast (linearArena 14) (linearChain 8) 1031 = .ok r ∧
      (r = none ↔
        ∀ i ti, slotTimeMax (linearArena 14) (linearChain 8) i = some ti → ti < 1031) ∧
      (∀ p, r = some p → ∃ i ti, (linearChain 8)[i]? = some (some p) ∧
        slotTimeMax (linearArena 14) (linearChain 8) i = some ti ∧ (1031 : Int) ≤ ti ∧
        ∀ j tj, j < i → slotTimeMax (linearArena 14) (linearChain 8) j = some tj → tj < 1031) :=
  ⟨by decide, by decide,
    FindEarliestAtLeast_correct (linearArena 14) (linearChain 8) (by decide) (by decide) 1031⟩

/-! ## `GetBlockProof` -/

theorem SetCompact_target_lt (nBits : Nat) : (SetCompact nBits).1 + 1 < 2 ^ 256 := by
  unfold SetCompact
  simp only
  have hw : nBits &&& 0x007fffff ≤ 0x007fffff := Nat.and_le_right
  split
  · have hs : (nBits &&& 0x007fffff) >>> (8 * (3 - (nBits % 2 ^ 32) >>> 24))
        ≤ nBits &&& 0x007fffff := by
      rw [Nat.shiftRight_eq_div_pow]
      exact Nat.div_le_self _ _
    have : (0x007fffff : Nat) + 1 < 2 ^ 256 := by norm_num
    omega
  · next hsize =>
    have hlt : ((nBits &&& 0x007fffff) * 2 ^ (8 * ((nBits % 2 ^ 32) >>> 24 - 3))) % 2 ^ 256
        < 2 ^ 256 := Nat.mod_lt _ (by positivity)
    have heven : (((nBits &&& 0x007fffff) * 2 ^ (8 * ((nBits % 2 ^ 32) >>> 24 - 3))) % 2 ^ 256) % 2
        = 0 := by
      rw [Nat.mod_mod_of_dvd _ (dvd_pow_self 2 (by norm_num))]
      obtain ⟨k, hk⟩ : ∃ k, 8 * ((nBits % 2 ^ 32) >>> 24 - 3) = k + 1 :=
        ⟨8 * ((nBits % 2 ^ 32) >>> 24 - 3) - 1, by omega⟩
      rw [hk, pow_succ, ← Nat.mul_assoc, Nat.mul_mod_left]
    generalize ((nBits &&& 0x007fffff) * 2 ^ (8 * ((nBits % 2 ^ 32) >>> 24 - 3))) % 2 ^ 256 = t
      at hlt heven ⊢
    norm_num at hlt ⊢
    omega

theorem work_identity (t : Nat) (h : t + 1 < 2 ^ 256) :
    (2 ^ 256 - 1 - t) / (t + 1) + 1 = 2 ^ 256 / (t + 1) := by
  have h2 : 2 ^ 256 = (2 ^ 256 - 1 - t) + (t + 1) := by omega
  conv_rhs => rw [h2]
  rw [Nat.add_div_right _ (by omega)]

theorem target_pos_of_valid {nBits : Nat} (hv : DecodesValidly nBits) :
    0 < (SetCompact nBits).1 := by
  rcases Nat.eq_zero_or_pos (SetCompact nBits).1 with h | h
  · exact absurd (Or.inr (Or.inr h)) hv
  · exact h

theorem GetBlockProof_of_valid (nBits : Nat) (hv : DecodesValidly nBits) :
    GetBlockProof nBits = .ok (2 ^ 256 / ((SetCompact nBits).1 + 1)) := by
  have hlt := SetCompact_target_lt nBits
  have hpos := target_pos_of_valid hv
  unfold DecodesValidly at hv
  unfold GetBlockProof
  simp only
  rw [if_neg hv, Nat.mod_eq_of_lt hlt, if_neg (by omega), work_identity _ hlt]
  rw [Nat.mod_eq_of_lt]
  exact Nat.div_lt_self (by positivity) (by omega)

/-- Claim C9: `GetBlockProof` returns 0 when the compact target decodes as
negative, overflowed or zero; otherwise, for the decoded target `t`, neither
`t + 1` nor the final `+ 1` wraps in 256-bit arithmetic, and the value
`(~t / (t + 1)) + 1` returned is exactly `2 ^ 256 / (t + 1)`. -/
theorem GetBlockProof_exact (nBits : Nat) :
    if (SetCompact nBits).2.1 = true ∨ (SetCompact nBits).2.2 = true ∨ (SetCompact nBits).1 = 0
    then GetBlockProof nBits = .ok 0
    else (SetCompact nBits).1 + 1 < 2 ^ 256 ∧
      (2 ^ 256 - 1 - (SetCompact nBits).1) / ((SetCompact nBits).1 + 1) + 1 < 2 ^ 256 ∧
      (2 ^ 256 - 1 - (SetCompact nBits).1) / ((SetCompact nBits).1 + 1) + 1
        = 2 ^ 256 / ((SetCompact nBits).1 + 1) ∧
      GetBlockProof nBits = .ok (2 ^ 256 / ((SetCompact nBits).1 + 1)) := by
  have hlt := SetCompact_target_lt nBits
  split
  · next hc =>
    unfold GetBlockProof
    simp only
    rw [if_pos hc]
  · next hc =>
    have hpos := target_pos_of_valid hc
    refine ⟨hlt, ?_, work_identity _ hlt, GetBlockProof_of_valid nBits hc⟩
    rw [work_identity _ hlt]
    exact Nat.div_lt_self (by positivity) (by omega)

/-- Claim C10: for two blocks whose compact targets decode validly to `t1 < t2`,
the proof of the block with target `t2` is not greater than the proof of the
block with target `t1`. -/
theorem GetBlockProof_antitone (nBits1 nBits2 : Nat) (hv1 : DecodesValidly nBits1)
    (hv2 : DecodesValidly nBits2) (hlt : (SetCompact nBits1).1 < (SetCompact nBits2).1) :
    ∃ w1 w2, GetBlockProof nBits1 = .ok w1 ∧ GetBlockProof nBits2 = .ok w2 ∧ w2 ≤ w1 :=
  ⟨_, _, GetBlockProof_of_valid nBits1 hv1, GetBlockProof_of_valid nBits2 hv2,
    Nat.div_le_div_left (by omega) (by omega)⟩

/-- Witness for C10: the targets of `0x1d00ffff` and of `0x1e0ffff0`. -/
theorem GetBlockProof_antitone_witness :
    DecodesValidly 0x1d00ffff ∧ DecodesValidly 0x1e0ffff0 ∧
    (SetCompact 0x1d00ffff).1 < (SetCompact 0x1e0ffff0).1 ∧
    ∃ w1 w2, GetBlockProof 0x1d00ffff = .ok w1 ∧ GetBlockProof 0x1e0ffff0 = .ok w2 ∧ w2 ≤ w1 :=
  ⟨by decide, by decide, by decide,
    GetBlockProof_antitone 0x1d00ffff 0x1e0ffff0 (by decide) (by decide) (by decide)⟩

/-! ## `GetAncestor`: absence, termination and the `pprev` assertion -/

/-- Claim C17: on a well-formed block graph `GetAncestor` returns, and it
returns the null pointer if and only if the target height is above the
height of the entry or negative. -/
theorem GetAncestor_not_found_iff (mem : Arena) (hwf : WellFormed mem) (p : Nat)
    (e : CBlockIndex) (he : mem[p]? = some e) (targetHeight : Int) :
    ∃ r, GetAncestor mem p targetHeight = .ok r ∧
      (r = none ↔ (targetHeight > e.nHeight ∨ targetHeight < 0)) := by
  by_cases hout : targetHeight > e.nHeight ∨ targetHeight < 0
  · refine ⟨none, ?_, by simp [hout]⟩
    unfold GetAncestor
    simp only [he]
    rw [if_pos hout]
  · obtain ⟨r, _, hres⟩ := GetAncestor_correct hwf p e he targetHeight (by omega) (by omega)
    exact ⟨some r, hres, by simp [hout]⟩

/-- Witness for C17: a target above the entry, on a chain of 14 entries. -/
theorem GetAncestor_not_found_iff_witness :
    WellFormed (linearArena 14) ∧
    ∃ r, GetAncestor (linearArena 14) 5 9 = .ok r ∧
      (r = none ↔ ((9 : Int) > (linearEntry 5).nHeight ∨ (9 : Int) < 0)) :=
  ⟨by decide, GetAncestor_not_found_iff (linearArena 14) (by decide) 5 (linearEntry 5)
    (by decide) 9⟩

theorem GetAncestor_walk_iteration {mem : Arena} (hwf : WellFormed mem) (height : Int)
    (h0 : 0 ≤ height) (w : Nat) (ew : CBlockIndex) (hw : mem[w]? = some ew)
    (hgt : height < ew.nHeight) :
    ∃ w' ew', mem[w']? = some ew' ∧ height ≤ ew'.nHeight ∧ ew'.nHeight < ew.nHeight ∧
      ∀ fuel, GetAncestor.walk mem height (fuel + 1) w ew.nHeight =
        GetAncestor.walk mem height fuel w' ew'.nHeight := by
  have ok := entryOK_of_wellFormed hwf hw
  have hsk := GetSkipHeight_bounds ew.nHeight (by omega) (by have := ok.2.1; omega)
  obtain ⟨q, eq, hq, hmq, hhq⟩ := prev_of_wellFormed hwf hw (by omega)
  have viaPrev : ∃ w' ew', mem[w']? = some ew' ∧ height ≤ ew'.nHeight ∧
      ew'.nHeight < ew.nHeight ∧
      ∀ fuel, GetAncestor.walk mem height fuel q (ew.nHeight - 1) =
        GetAncestor.walk mem height fuel w' ew'.nHeight :=
    ⟨q, eq, hmq, by omega, by omega, fun fuel => by rw [hhq]⟩
  cases hs : ew.pskip with
  | none =>
    obtain ⟨w', ew', h1, h2, h3, h4⟩ := viaPrev
    refine ⟨w', ew', h1, h2, h3, fun fuel => ?_⟩
    rw [GetAncestor.walk]
    simp only [gt_iff_lt, hgt, if_true, hw, hq, hs]
    exact h4 fuel
  | some s =>
    by_cases hcond : GetSkipHeight ew.nHeight = height ∨
        (GetSkipHeight ew.nHeight > height ∧
          ¬ (GetSkipHeight (ew.nHeight - 1) < GetSkipHeight ew.nHeight - 2 ∧
            GetSkipHeight (ew.nHeight - 1) ≥ height))
    · have sok := ok.2.2.2
      rw [hs] at sok
      simp only [SkipOK] at sok
      obtain ⟨es, hes, hhs⟩ := followPrev_height hwf _ w ew s hw sok
      have hhs2 : es.nHeight = GetSkipHeight ew.nHeight := by
        rw [hhs, Int.toNat_of_nonneg (by omega)]; omega
      refine ⟨s, es, hes, by rcases hcond with h | h <;> omega, by omega, fun fuel => ?_⟩
      rw [GetAncestor.walk]
      simp only [gt_iff_lt, hgt, if_true, hw, hq, hs]
      rw [if_pos hcond, hhs2]
    · obtain ⟨w', ew', h1, h2, h3, h4⟩ := viaPrev
      refine ⟨w', ew', h1, h2, h3, fun fuel => ?_⟩
      rw [GetAncestor.walk]
      simp only [gt_iff_lt, hgt, if_true, hw, hq, hs]
      rw [if_neg hcond]
      exact h4 fuel

theorem GetAncestor_walk_assert (mem : Arena) (height : Int) (fuel : Nat) :
    ∀ (w : Nat) (hw : Int), GetAncestor.walk mem height fuel w hw = .assertFailed →
      ∃ (f w' : Nat) (hw' : Int) (ew' : CBlockIndex), height < hw' ∧ mem[w']? = some ew' ∧
        ew'.pprev = none ∧ GetAncestor.walk mem height (f + 1) w' hw' = .assertFailed := by
  induction fuel with
  | zero =>
    intro w hw h
    rw [GetAncestor.walk] at h
    split at h <;> simp at h
  | succ fuel ih =>
    intro w hw h
    have h' := h
    rw [GetAncestor.walk] at h
    by_cases hgt : hw > height
    · rw [if_pos hgt] at h
      cases hm : mem[w]? with
      | none => simp [hm] at h
      | some e =>
        simp only [hm] at h
        have viaPrev : (match e.pprev with
            | none => Outcome.assertFailed
            | some q => GetAncestor.walk mem height fuel q (hw - 1)) = Outcome.assertFailed →
            ∃ (f w' : Nat) (hw' : Int) (ew' : CBlockIndex), height < hw' ∧
              mem[w']? = some ew' ∧ ew'.pprev = none ∧
              GetAncestor.walk mem height (f + 1) w' hw' = .assertFailed := by
          intro hv
          cases hp : e.pprev with
          | none => exact ⟨fuel, w, hw, e, hgt, hm, hp, h'⟩
          | some q =>
            rw [hp] at hv
            exact ih q _ hv
        cases hs : e.pskip with
        | none =>
          rw [hs] at h
          exact viaPrev h
        | some s =>
          rw [hs] at h
          simp only [] at h
          split at h
          · exact ih s _ h
          · exact viaPrev h
    · rw [if_neg hgt] at h
      simp at h

/-- Claim C18: on a well-formed block graph, for every `0 ≤ h ≤ nHeight` the walk
of `GetAncestor` returns an entry (no fuel is missing and the assertion on
`pprev` holds); every iteration started at an entry above `h` continues at an
entry of strictly lower height that is still at least `h`; and on any arena,
a failed assertion means that an iteration was entered at a walk height above
`h ≥ 0` on an entry whose `pprev` is null. -/
theorem GetAncestor_terminates (mem : Arena) (hwf : WellFormed mem) (p : Nat)
    (e : CBlockIndex) (he : mem[p]? = some e) (h : Int) (h0 : 0 ≤ h) (hle : h ≤ e.nHeight) :
    (∃ r, GetAncestor mem p h = .ok (some r)) ∧
    (∀ w ew, mem[w]? = some ew → h < ew.nHeight →
      ∃ w' ew', mem[w']? = some ew' ∧ h ≤ ew'.nHeight ∧ ew'.nHeight < ew.nHeight ∧
        ∀ fuel, GetAncestor.walk mem h (fuel + 1) w ew.nHeight =
          GetAncestor.walk mem h fuel w' ew'.nHeight) ∧
    (∀ (mem' : Arena) (p' : Nat), GetAncestor mem' p' h = .assertFailed →
      ∃ (f w' : Nat) (hw' : Int) (ew' : CBlockIndex), 0 ≤ h ∧ h < hw' ∧
        mem'[w']? = some ew' ∧ ew'.pprev = none ∧
        GetAncestor.walk mem' h (f + 1) w' hw' = .assertFailed) := by
  refine ⟨?_, ?_, ?_⟩
  · obtain ⟨r, _, hres⟩ := GetAncestor_correct hwf p e he h h0 hle
    exact ⟨r, hres⟩
  · intro w ew hw hgt
    exact GetAncestor_walk_iteration hwf h h0 w ew hw hgt
  · intro mem' p' hfail
    unfold GetAncestor at hfail
    cases hm : mem'[p']? with
    | none => simp [hm] at hfail
    | some e' =>
      simp only [hm] at hfail
      split at hfail
      · simp at hfail
      · obtain ⟨f, w', hw', ew', h1, h2, h3, h4⟩ := GetAncestor_walk_assert mem' h _ _ _ hfail
        exact ⟨f, w', hw', ew', h0, h1, h2, h3, h4⟩

/-- Witness for C18: from height 13 down to height 2 on a chain of 14 entries. -/
theorem GetAncestor_terminates_witness :
    WellFormed (linearArena 14) ∧ (linearArena 14)[13]? = some (linearEntry 13) ∧
    (∃ r, GetAncestor (linearArena 14) 13 2 = .ok (some r)) :=
  ⟨by decide, by decide,
    (GetAncestor_terminates (linearArena 14) (by decide) 13 (linearEntry 13) (by decide) 2
      (by decide) (by decide)).1⟩

/-! ## `GetSkipHeight`: the lowest set bit -/

theorem land_pred_clears_lowest_bit (n : Nat) (hn : 0 < n) :
    ∃ k, n.testBit k = true ∧ (∀ j, j < k → n.testBit j = false) ∧ n &&& (n - 1) = n - 2 ^ k := by
  induction n using Nat.strong_induction_on with
  | _ n ih =>
    have hdiv : (n &&& (n - 1)) / 2 = n / 2 &&& (n - 1) / 2 := Nat.and_div_two
    have hmod : ¬ (n &&& (n - 1)) % 2 = 1 := by
      rw [Nat.and_mod_two_eq_one]
      omega
    by_cases hodd : n % 2 = 1
    · refine ⟨0, by simp [hodd], fun j hj => absurd hj (Nat.not_lt_zero j), ?_⟩
      have h2 : (n - 1) / 2 = n / 2 := by omega
      rw [h2, Nat.and_self] at hdiv
      simp only [pow_zero]
      omega
    · obtain ⟨k, hk, hlow, hval⟩ := ih (n / 2) (by omega) (by omega)
      refine ⟨k + 1, by rw [Nat.testBit_succ]; exact hk, ?_, ?_⟩
      · intro j hj
        cases j with
        | zero => simp [hodd]
        | succ j =>
          rw [Nat.testBit_succ]
          exact hlow j (by omega)
      · have h2 : (n - 1) / 2 = n / 2 - 1 := by omega
        rw [h2, hval] at hdiv
        have hle : 2 ^ k ≤ n / 2 := Nat.testBit_implies_ge hk
        rw [pow_succ]
        omega

theorem InvertLowestOne_eq_land (n : Int) (h0 : 0 ≤ n) (h1 : n < 2 ^ 31) :
    InvertLowestOne n = ((n.toNat &&& (n.toNat - 1) : Nat) : Int) := by
  rcases lt_or_eq_of_le h0 with hpos | hz
  · unfold InvertLowestOne and32 wrap32
    have e1 : (n % 2 ^ 32).toNat = n.toNat := by omega
    have e2 : ((n - 1) % 2 ^ 32).toNat = n.toNat - 1 := by omega
    rw [e1, e2]
    have hr := @Nat.and_le_right n.toNat (n.toNat - 1)
    have hv : Nat.land n.toNat (n.toNat - 1) = n.toNat &&& (n.toNat - 1) := rfl
    rw [hv]
    generalize n.toNat &&& (n.toNat - 1) = v at hr ⊢
    simp only [Int.ofNat_eq_coe]
    omega
  · rw [← hz]
    decide

/-- Claim C19: for heights in the `int` range, `GetSkipHeight` is 0 below 2,
lies in `[0, h)` for every `h ≥ 1`, is `InvertLowestOne (InvertLowestOne (h - 1)) + 1`
for odd `h ≥ 3` and `InvertLowestOne h` for even `h ≥ 2`, where
`InvertLowestOne` clears the lowest set bit of a positive number (it subtracts
`2 ^ k` for the lowest position `k` holding a 1) and maps 0 to 0. -/
theorem GetSkipHeight_spec (h : Int) (hr : h < 2 ^ 31) :
    (h < 2 → GetSkipHeight h = 0) ∧
    (1 ≤ h → 0 ≤ GetSkipHeight h ∧ GetSkipHeight h < h) ∧
    (3 ≤ h → h % 2 = 1 →
      GetSkipHeight h = InvertLowestOne (InvertLowestOne (h - 1)) + 1) ∧
    (2 ≤ h → h % 2 = 0 → GetSkipHeight h = InvertLowestOne h) ∧
    InvertLowestOne 0 = 0 ∧
    (∀ n : Int, 0 < n → n < 2 ^ 31 →
      ∃ k : Nat, n.toNat.testBit k = true ∧ (∀ j, j < k → n.toNat.testBit j = false) ∧
        InvertLowestOne n = n - 2 ^ k) := by
  have hparity : 2 ≤ h → and32 h 1 = h % 2 := by
    intro h2
    unfold and32 wrap32
    have e1 : (h % 2 ^ 32).toNat = h.toNat := by omega
    have e2 : ((1 : Int) % 2 ^ 32).toNat = 1 := by decide
    rw [e1, e2]
    have hv : Nat.land h.toNat 1 = h.toNat &&& 1 := rfl
    rw [hv, Nat.and_one_is_mod]
    simp only [Int.ofNat_eq_coe]
    omega
  refine ⟨?_, ?_, ?_, ?_, by decide, ?_⟩
  · intro h2
    unfold GetSkipHeight
    rw [if_pos h2]
  · intro h1
    exact GetSkipHeight_bounds h h1 hr
  · intro h3 hodd
    unfold GetSkipHeight
    rw [if_neg (by omega), hparity (by omega), if_pos (by omega)]
  · intro h2 heven
    unfold GetSkipHeight
    rw [if_neg (by omega), hparity h2, if_neg (by omega)]
  · intro n hn0 hn1
    obtain ⟨k, hk, hlow, hval⟩ := land_pred_clears_lowest_bit n.toNat (by omega)
    refine ⟨k, hk, hlow, ?_⟩
    rw [InvertLowestOne_eq_land n (by omega) hn1, hval]
    have hle : 2 ^ k ≤ n.toNat := Nat.testBit_implies_ge hk
    push_cast [Nat.cast_sub hle]
    omega

/-- Witness for C19 at height 13. -/
theorem GetSkipHeight_spec_witness :
    (13 : Int) < 2 ^ 31 ∧ GetSkipHeight 13 = InvertLowestOne (InvertLowestOne (13 - 1)) + 1 ∧
    (0 ≤ GetSkipHeight 13 ∧ GetSkipHeight 13 < 13) :=
  ⟨by decide, (GetSkipHeight_spec 13 (by decide)).2.2.1 (by decide) (by decide),
    (GetSkipHeight_spec 13 (by decide)).2.1 (by decide)⟩

/-! ## `BuildSkip` -/

theorem sameLinks_set_skip (mem : Arena) (p : Nat) (e : CBlockIndex) (he : mem[p]? = some e)
    (s : Option Nat) : SameLinks mem (mem.set p { e with pskip := s }) := by
  intro a
  by_cases hap : p = a
  · subst hap
    have hp : p < mem.length := (List.getElem?_eq_some.mp he).1
    rw [List.getElem?_set_self hp, he]
    rfl
  · rw [List.getElem?_set_ne hap]

theorem SameLinks.symm {mem mem' : Arena} (h : SameLinks mem mem') : SameLinks mem' mem :=
  fun a => (h a).symm

theorem SameLinks.trans {m1 m2 m3 : Arena} (h : SameLinks m1 m2) (h' : SameLinks m2 m3) :
    SameLinks m1 m3 :=
  fun a => (h a).trans (h' a)

theorem sameLinks_prev {mem mem' : Arena} (h : SameLinks mem mem') (a : Nat) :
    (mem[a]?).bind (fun e => e.pprev) = (mem'[a]?).bind (fun e => e.pprev) := by
  have := h a
  cases h1 : mem[a]? <;> cases h2 : mem'[a]? <;> simp [h1, h2] at this ⊢
  exact this.2

theorem sameLinks_height {mem mem' : Arena} (h : SameLinks mem mem') (a : Nat) :
    (mem[a]?).map (fun e => e.nHeight + 1) = (mem'[a]?).map (fun e => e.nHeight + 1) := by
  have := h a
  cases h1 : mem[a]? <;> cases h2 : mem'[a]? <;> simp [h1, h2] at this ⊢
  exact this.1

theorem followPrev_sameLinks {mem mem' : Arena} (h : SameLinks mem mem') (k : Nat) :
    ∀ a, followPrev mem k a = followPrev mem' k a := by
  induction k with
  | zero => intro a; rfl
  | succ k ih =>
    intro a
    simp only [followPrev]
    rw [sameLinks_prev h a]
    cases (mem'[a]?).bind (fun e => e.pprev) with
    | none => rfl
    | some q => simp [ih q]

theorem entryOK_sameLinks {mem mem' : Arena} (h : SameLinks mem mem') (a : Nat)
    (e : CBlockIndex) (hok : EntryOK mem a e) : EntryOK mem' a e := by
  obtain ⟨h1, h2, h3, h4⟩ := hok
  refine ⟨h1, h2, ?_, ?_⟩
  · cases hp : e.pprev with
    | none => rw [hp] at h3; exact h3
    | some q =>
      rw [hp] at h3
      simp only [PrevOK] at h3 ⊢
      rw [← sameLinks_height h q]
      exact h3
  · cases hs : e.pskip with
    | none => trivial
    | some s =>
      rw [hs] at h4
      simp only [SkipOK] at h4 ⊢
      rw [← followPrev_sameLinks h]
      exact h4

theorem GetAncestor_walk_set_skip {mem : Arena} (p : Nat) (e : CBlockIndex)
    (he : mem[p]? = some e) (hwf : WellFormed (mem.set p { e with pskip := none }))
    (height : Int) (h0 : 0 ≤ height) (fuel : Nat) :
    ∀ (w : Nat) (ew : CBlockIndex), (mem.set p { e with pskip := none })[w]? = some ew →
      ew.nHeight < e.nHeight →
      GetAncestor.walk mem height fuel w ew.nHeight =
        GetAncestor.walk (mem.set p { e with pskip := none }) height fuel w ew.nHeight := by
  have hp : p < mem.length := (List.getElem?_eq_some.mp he).1
  have hpe : (mem.set p { e with pskip := none })[p]? = some { e with pskip := none } :=
    List.getElem?_set_self hp
  have hne : ∀ (w : Nat) (ew : CBlockIndex),
      (mem.set p { e with pskip := none })[w]? = some ew → ew.nHeight < e.nHeight →
      mem[w]? = some ew := by
    intro w ew hw hlt
    by_cases hpw : p = w
    · subst hpw
      rw [hpe] at hw
      cases hw
      simp at hlt
    · rw [List.getElem?_set_ne hpw] at hw
      exact hw
  induction fuel with
  | zero =>
    intro w ew _ _
    simp [GetAncestor.walk]
  | succ fuel ih =>
    intro w ew hw hlt
    by_cases hgt : height < ew.nHeight
    · obtain ⟨q, eq, hq, hmq, hhq⟩ := prev_of_wellFormed hwf hw (by omega)
      have ok := entryOK_of_wellFormed hwf hw
      have hsk := GetSkipHeight_bounds ew.nHeight (by omega) (by have := ok.2.1; omega)
      rw [GetAncestor.walk, GetAncestor.walk]
      simp only [gt_iff_lt, hgt, if_true, hw, hne w ew hw hlt, hq]
      have hprev := ih q eq hmq (by omega)
      rw [hhq] at hprev
      cases hs : ew.pskip with
      | none => exact hprev
      | some s =>
        simp only []
        split
        · have sok := ok.2.2.2
          rw [hs] at sok
          simp only [SkipOK] at sok
          obtain ⟨es, hes, hhs⟩ := followPrev_height hwf _ w ew s hw sok
          have hhs2 : es.nHeight = GetSkipHeight ew.nHeight := by
            rw [hhs, Int.toNat_of_nonneg (by omega)]; omega
          have := ih s es hes (by omega)
          rw [hhs2] at this
          exact this
        · exact hprev
    · rw [GetAncestor.walk, GetAncestor.walk]
      simp [hgt]

theorem wellFormed_of_getElem {mem : Arena}
    (h : ∀ a ea, mem[a]? = some ea → EntryOK mem a ea) : WellFormed mem := by
  intro a
  apply h
  simp [List.getElem?_eq_getElem a.isLt]

/-- Claim C20: `BuildSkip` leaves the arena unchanged for an entry without
`pprev`; for an entry with `pprev = q` in an arena that is well formed when
the old `pskip` of the entry is disregarded, it stores
`q.GetAncestor(GetSkipHeight(nHeight))`, which is present, is the ancestor of
the entry at height `GetSkipHeight(nHeight) < nHeight`, and the resulting arena
is well formed. -/
theorem BuildSkip_invariant (mem : Arena) (p : Nat) (e : CBlockIndex)
    (he : mem[p]? = some e) :
    (e.pprev = none → BuildSkip mem p = .ok mem) ∧
    (∀ q, e.pprev = some q → WellFormed (mem.set p { e with pskip := none }) →
      ∃ s es, GetAncestor mem q (GetSkipHeight e.nHeight) = .ok (some s) ∧
        BuildSkip mem p = .ok (mem.set p { e with pskip := some s }) ∧
        followPrev mem (e.nHeight - GetSkipHeight e.nHeight).toNat p = some s ∧
        mem[s]? = some es ∧ es.nHeight = GetSkipHeight e.nHeight ∧
        es.nHeight < e.nHeight ∧
        WellFormed (mem.set p { e with pskip := some s })) := by
  refine ⟨?_, ?_⟩
  · intro hp
    unfold BuildSkip
    simp [he, hp]
  · intro q hq hwf0
    have hp : p < mem.length := (List.getElem?_eq_some.mp he).1
    have hpe : (mem.set p { e with pskip := none })[p]? = some { e with pskip := none } :=
      List.getElem?_set_self hp
    have ok0 := entryOK_of_wellFormed hwf0 hpe
    have hprev : PrevOK (mem.set p { e with pskip := none }) e.nHeight (some q) := by
      rw [← hq]
      exact ok0.2.2.1
    simp only [PrevOK, Option.map_eq_some'] at hprev
    obtain ⟨eq, hmq0, hhq⟩ := hprev
    have hq0 := (entryOK_of_wellFormed hwf0 hmq0).1
    have hrange := ok0.2.1
    simp only [] at hrange
    have hsk := GetSkipHeight_bounds e.nHeight (by omega) (by omega)
    have hne : ∀ (w : Nat) (ew : CBlockIndex),
        (mem.set p { e with pskip := none })[w]? = some ew → ew.nHeight < e.nHeight →
        mem[w]? = some ew := by
      intro w ew hw hlt
      by_cases hpw : p = w
      · subst hpw
        rw [hpe] at hw
        cases hw
        simp at hlt
      · rw [List.getElem?_set_ne hpw] at hw
        exact hw
    have hmq : mem[q]? = some eq := hne q eq hmq0 (by omega)
    have hl0 := sameLinks_set_skip mem p e he none
    obtain ⟨s, hs0, hga0⟩ := GetAncestor_correct hwf0 q eq hmq0 (GetSkipHeight e.nHeight)
      (by omega) (by omega)
    obtain ⟨es, hes0, hhs⟩ := followPrev_height hwf0 _ q eq s hmq0 hs0
    have hhs2 : es.nHeight = GetSkipHeight e.nHeight := by
      rw [hhs, Int.toNat_of_nonneg (by omega)]; omega
    have hga : GetAncestor mem q (GetSkipHeight e.nHeight) = .ok (some s) := by
      rw [← hga0]
      unfold GetAncestor
      simp only [hmq, hmq0]
      split
      · rfl
      · exact GetAncestor_walk_set_skip p e he hwf0 _ (by omega) _ q eq hmq0 (by omega)
    have hfollow : followPrev mem (e.nHeight - GetSkipHeight e.nHeight).toNat p = some s := by
      rw [followPrev_sameLinks hl0]
      rw [followPrev_split (mem.set p { e with pskip := none }) _ 1
        (eq.nHeight - GetSkipHeight e.nHeight).toNat p q (by omega)
        (by simp only [followPrev, hpe, Option.some_bind]; rw [hq]; rfl)]
      exact hs0
    refine ⟨s, es, hga, ?_, hfollow, hne s es hes0 (by omega), hhs2, by omega, ?_⟩
    · unfold BuildSkip
      simp only [he, hq, hga]
    · have hl1 := sameLinks_set_skip mem p e he (some s)
      have hl01 := hl0.symm.trans hl1
      apply wellFormed_of_getElem
      intro a ea ha
      by_cases hpa : p = a
      · subst hpa
        rw [List.getElem?_set_self hp] at ha
        cases ha
        refine ⟨ok0.1, ok0.2.1, (entryOK_sameLinks hl01 p _ ok0).2.2.1, ?_⟩
        simp only [SkipOK]
        rw [← followPrev_sameLinks hl1]
        exact hfollow
      · rw [List.getElem?_set_ne hpa] at ha
        have ha0 : (mem.set p { e with pskip := none })[a]? = some ea := by
          rw [List.getElem?_set_ne hpa]
          exact ha
        exact entryOK_sameLinks hl01 a ea (entryOK_of_wellFormed hwf0 ha0)

/-- Witness for C20: the entry at height 13 of a chain of 14 entries, whose
`pskip` is first overwritten with the address 5. -/
theorem BuildSkip_invariant_witness :
    WellFormed (((linearArena 14).set 13 { linearEntry 13 with pskip := some 5 }).set 13
      { ({ linearEntry 13 with pskip := some 5 } : CBlockIndex) with pskip := none }) ∧
    ∃ s es, GetAncestor ((linearArena 14).set 13 { linearEntry 13 with pskip := some 5 }) 12
        (GetSkipHeight 13) = .ok (some s) ∧
      BuildSkip ((linearArena 14).set 13 { linearEntry 13 with pskip := some 5 }) 13 =
        .ok (((linearArena 14).set 13 { linearEntry 13 with pskip := some 5 }).set 13
          { ({ linearEntry 13 with pskip := some 5 } : CBlockIndex) with pskip := some s }) ∧
      followPrev ((linearArena 14).set 13 { linearEntry 13 with pskip := some 5 })
        ((13 : Int) - GetSkipHeight 13).toNat 13 = some s ∧
      ((linearArena 14).set 13 { linearEntry 13 with pskip := some 5 })[s]? = some es ∧
      es.nHeight = GetSkipHeight 13 ∧ es.nHeight < 13 ∧
      WellFormed (((linearArena 14).set 13 { linearEntry 13 with pskip := some 5 }).set 13
        { ({ linearEntry 13 with pskip := some 5 } : CBlockIndex) with pskip := some s }) :=
  ⟨by decide,
    (BuildSkip_invariant ((linearArena 14).set 13 { linearEntry 13 with pskip := some 5 }) 13
      { linearEntry 13 with pskip := some 5 } (by decide)).2 12 (by decide) (by decide)⟩

/-! ## `GetBlockProofEquivalentTime` -/

theorem bits_count_le_iff (width : Nat) :
    ∀ r k, r < 2 ^ width → (bits.count width r ≤ k ↔ r < 2 ^ k) := by
  induction width with
  | zero =>
    intro r k hr
    have : r = 0 := by simpa using hr
    subst this
    simp [bits.count]
  | succ width ih =>
    intro r k hr
    rw [bits.count]
    by_cases hz : r = 0
    · subst hz
      simp
    · rw [if_neg hz]
      cases k with
      | zero =>
        simp only [pow_zero, Nat.lt_one_iff]
        constructor
        · intro h; omega
        · intro h; exact absurd h hz
      | succ k =>
        have hr2 : r / 2 < 2 ^ width := by
          rw [pow_succ] at hr
          omega
        rw [Nat.succ_le_succ_iff, ih (r / 2) k hr2, pow_succ]
        omega

theorem bits_gt_iff (r : Nat) (hr : r < 2 ^ 256) : bits r > 63 ↔ 2 ^ 63 ≤ r := by
  have := bits_count_le_iff 256 r 63 hr
  unfold bits
  omega

theorem wrap64_sign_mul (m : Nat) (hm : m < 2 ^ 63) (sign : Int) (hs : sign = 1 ∨ sign = -1) :
    wrap64 (((sign % 2 ^ 64) * ((m % 2 ^ 64 : Nat) : Int)) % 2 ^ 64) = sign * m := by
  unfold wrap64
  have h1 : ((m % 2 ^ 64 : Nat) : Int) = m := by
    rw [Nat.mod_eq_of_lt (by omega)]
  rw [h1]
  rcases hs with rfl | rfl
  · have : ((1 : Int) % 2 ^ 64) = 1 := by decide
    rw [this]
    omega
  · have : ((-1 : Int) % 2 ^ 64) = 2 ^ 64 - 1 := by decide
    rw [this]
    have h2 : ((2 : Int) ^ 64 - 1) * (m : Int) = 2 ^ 64 * (m : Int) - m := by ring
    rw [h2]
    omega

/-- Claim C11: when `GetBlockProof(tip)` is a positive `w`, the chain works are
256-bit values, the spacing is a non-negative `int64_t` and
`|to.work - from.work| * spacing < 2 ^ 256`, the function returns
`sign * m` for `m = |to.work - from.work| * spacing / w` if `m < 2 ^ 63` and
`sign * (2 ^ 63 - 1)` otherwise, where `sign` is `+1` if
`to.work > from.work` and `-1` otherwise; the result lies strictly between
`-2 ^ 63` and `2 ^ 63`. -/
theorem GetBlockProofEquivalentTime_saturates (to_ from_ tip : CBlockIndex) (spacing : Int)
    (w : Nat) (hto : to_.nChainWork < 2 ^ 256) (hfrom : from_.nChainWork < 2 ^ 256)
    (hs0 : 0 ≤ spacing) (hs1 : spacing < 2 ^ 63)
    (hw : GetBlockProof tip.nBits = .ok w) (hpos : 0 < w)
    (hmul : ((to_.nChainWork : Int) - (from_.nChainWork : Int)).natAbs * spacing.toNat
      < 2 ^ 256) :
    ∃ res : Int, GetBlockProofEquivalentTime to_ from_ tip spacing = .ok res ∧
      res = (if to_.nChainWork > from_.nChainWork then 1 else -1) *
        (if workTimeMagnitude to_ from_ spacing w < 2 ^ 63
          then (workTimeMagnitude to_ from_ spacing w : Int) else 2 ^ 63 - 1) ∧
      -(2 ^ 63) < res ∧ res < 2 ^ 63 := by
  have hr0 : (if to_.nChainWork > from_.nChainWork then
        (to_.nChainWork + 2 ^ 256 - from_.nChainWork) % 2 ^ 256
      else (from_.nChainWork + 2 ^ 256 - to_.nChainWork) % 2 ^ 256)
      = ((to_.nChainWork : Int) - (from_.nChainWork : Int)).natAbs := by
    split <;> omega
  have hsp : (spacing % 2 ^ 64).toNat = spacing.toNat := by omega
  have hsign : (if to_.nChainWork > from_.nChainWork then (1 : Int) else -1) = 1 ∨
      (if to_.nChainWork > from_.nChainWork then (1 : Int) else -1) = -1 := by
    split <;> simp
  have hm256 : ((to_.nChainWork : Int) - (from_.nChainWork : Int)).natAbs * spacing.toNat / w
      < 2 ^ 256 := lt_of_le_of_lt (Nat.div_le_self _ _) hmul
  unfold GetBlockProofEquivalentTime workTimeMagnitude
  simp only [hw, hr0, hsp]
  rw [if_neg (by omega), Nat.mod_eq_of_lt hmul]
  generalize ((to_.nChainWork : Int) - (from_.nChainWork : Int)).natAbs * spacing.toNat / w = m
    at hm256 ⊢
  generalize (if to_.nChainWork > from_.nChainWork then (1 : Int) else -1) = sign at hsign ⊢
  by_cases hbig : 2 ^ 63 ≤ m
  · rw [if_pos ((bits_gt_iff _ hm256).mpr hbig)]
    refine ⟨_, rfl, ?_, ?_, ?_⟩
    · rw [if_neg (Nat.not_lt.mpr hbig)]
    · rcases hsign with h | h <;> rw [h] <;> norm_num
    · rcases hsign with h | h <;> rw [h] <;> norm_num
  · rw [if_neg (by rw [bits_gt_iff _ hm256]; exact hbig)]
    have hlt : m < 2 ^ 63 := Nat.lt_of_not_le hbig
    rw [wrap64_sign_mul _ hlt _ hsign]
    refine ⟨_, rfl, ?_, ?_, ?_⟩
    · rw [if_pos hlt]
    · rcases hsign with h | h <;> rw [h] <;> omega
    · rcases hsign with h | h <;> rw [h] <;> omega

/-- Witness for C11: works 1000 and 4000, spacing 60, tip target `0x207fffff`. -/
theorem GetBlockProofEquivalentTime_saturates_witness :
    GetBlockProof 0x207fffff = .ok 2 ∧
    ∃ res : Int, GetBlockProofEquivalentTime
        { phashBlock := 1, nHeight := 5, nChainWork := 1000 }
        { phashBlock := 2, nHeight := 9, nChainWork := 4000 }
        { phashBlock := 3, nHeight := 9, nBits := 0x207fffff } 60 = .ok res ∧
      res = (if (1000 : Nat) > 4000 then 1 else -1) *
        (if workTimeMagnitude { phashBlock := 1, nHeight := 5, nChainWork := 1000 }
            { phashBlock := 2, nHeight := 9, nChainWork := 4000 } 60 2 < 2 ^ 63
          then (workTimeMagnitude { phashBlock := 1, nHeight := 5, nChainWork := 1000 }
            { phashBlock := 2, nHeight := 9, nChainWork := 4000 } 60 2 : Int)
          else 2 ^ 63 - 1) ∧
      -(2 ^ 63) < res ∧ res < 2 ^ 63 :=
  ⟨by decide, GetBlockProofEquivalentTime_saturates
    { phashBlock := 1, nHeight := 5, nChainWork := 1000 }
    { phashBlock := 2, nHeight := 9, nChainWork := 4000 }
    { phashBlock := 3, nHeight := 9, nBits := 0x207fffff } 60 2
    (by decide) (by decide) (by decide) (by decide) (by decide) (by decide) (by decide)⟩

/-! ## `GetCurrentInterestRate` -/

theorem cap_not_gt (x : Double) :
    Double.gt (if Double.gt x (.fin 10 0) then .fin 10 0 else x) (.fin 10 0) = false := by
  by_cases h : Double.gt x (.fin 10 0) = true
  · rw [if_pos h]
    decide
  · rw [if_neg h]
    simpa using h

/-- Claim C12, as amended: above the threshold height `GetCurrentInterestRate`
returns the fixed rate itself, uncapped; at or below the threshold the rate
returned is never greater than 10.0 (and the function returns whenever
`GetAverageStakeWeight` does); hence the returned rate is never greater than
10.0 whenever the fixed rate is not. -/
theorem GetCurrentInterestRate_cap (kernelPS : Option Nat → Outcome Double) (ops : FloatOps)
    (P : Params) (mem : Arena) (nBestHeight : Int) (cache : StakeCache) (p : Nat)
    (e : CBlockIndex) (he : mem[p]? = some e) :
    (e.nHeight > P.twoPercentIntHeight →
      GetCurrentInterestRate kernelPS ops P mem nBestHeight cache (some p) =
        .ok (P.twoPercentInt, cache)) ∧
    (e.nHeight ≤ P.twoPercentIntHeight →
      (∀ a, GetAverageStakeWeight kernelPS ops mem nBestHeight cache (some p) = .ok a →
        ∃ r, GetCurrentInterestRate kernelPS ops P mem nBestHeight cache (some p) =
          .ok (r, a.2)) ∧
      (∀ r c, GetCurrentInterestRate kernelPS ops P mem nBestHeight cache (some p) =
        .ok (r, c) → Double.gt r (.fin 10 0) = false)) ∧
    (Double.gt P.twoPercentInt (.fin 10 0) = false →
      ∀ r c, GetCurrentInterestRate kernelPS ops P mem nBestHeight cache (some p) =
        .ok (r, c) → Double.gt r (.fin 10 0) = false) := by
  have above : e.nHeight > P.twoPercentIntHeight →
      GetCurrentInterestRate kernelPS ops P mem nBestHeight cache (some p) =
        .ok (P.twoPercentInt, cache) := by
    intro h
    unfold GetCurrentInterestRate
    simp only [he]
    rw [if_pos h]
  have hsupply : ∃ supply, GetCurrentCoinSupply ops P mem (some p) = .ok supply := by
    unfold GetCurrentCoinSupply
    simp only [he]
    split
    · split <;> exact ⟨_, rfl⟩
    · exact ⟨_, rfl⟩
  obtain ⟨supply, hsup⟩ := hsupply
  have below : e.nHeight ≤ P.twoPercentIntHeight →
      ∀ r c, GetCurrentInterestRate kernelPS ops P mem nBestHeight cache (some p) =
        .ok (r, c) → Double.gt r (.fin 10 0) = false := by
    intro h r c hres
    unfold GetCurrentInterestRate at hres
    simp only [he] at hres
    rw [if_neg (by omega)] at hres
    cases ha : GetAverageStakeWeight kernelPS ops mem nBestHeight cache (some p) with
    | ok a =>
      simp only [ha, hsup, Outcome.bind, Outcome.ok.injEq, Prod.mk.injEq] at hres
      rw [← hres.1]
      exact cap_not_gt _
    | assertFailed => simp [ha, Outcome.bind] at hres
    | fault => simp [ha, Outcome.bind] at hres
    | outOfFuel => simp [ha, Outcome.bind] at hres
  refine ⟨above, fun h => ⟨?_, below h⟩, ?_⟩
  · intro a ha
    unfold GetCurrentInterestRate
    simp only [he]
    rw [if_neg (by omega)]
    simp only [ha, hsup, Outcome.bind]
    exact ⟨_, rfl⟩
  · intro hfix r c hres
    by_cases h : e.nHeight > P.twoPercentIntHeight
    · rw [above h] at hres
      simp only [Outcome.ok.injEq, Prod.mk.injEq] at hres
      rw [← hres.1]
      exact hfix
    · exact below (by omega) r c hres

/-- Witness for the amended C12: the entry at height 3, at the cached height. -/
theorem GetCurrentInterestRate_cap_witness :
    (linearArena 14)[3]? = some (linearEntry 3) ∧
    ∀ r c, GetCurrentInterestRate failingKernelPS exactOps sampleParams (linearArena 14) 13
        ⟨3, .fin 100 0⟩ (some 3) = .ok (r, c) → Double.gt r (.fin 10 0) = false :=
  ⟨by decide,
    ((GetCurrentInterestRate_cap failingKernelPS exactOps sampleParams (linearArena 14) 13
      ⟨3, .fin 100 0⟩ 3 (linearEntry 3) (by decide)).2.1 (by decide)).2⟩

/-- Counterexample to C12 as stated: with the fixed rate 11.0 and the entry at
height 9, above the threshold height 5, the rate returned is 11.0, which is
greater than 10.0. -/
theorem GetCurrentInterestRate_cap_counterexample :
    GetCurrentInterestRate failingKernelPS exactOps
        { sampleParams with twoPercentInt := .fin 11 0 } (linearArena 14) 13
        ⟨3, .fin 100 0⟩ (some 9) = .ok (.fin 11 0, ⟨3, .fin 100 0⟩) ∧
    Double.le (.fin 11 0) (.fin 10 0) = false ∧ Double.gt (.fin 11 0) (.fin 10 0) = true := by
  decide

/-! ## `GetCurrentCoinSupply` -/

/-- Claim C13, as amended: for an entry with `twoPercentIntHeight < nHeight` and
`nHeight < FORK_HEIGHT_2` the result is exactly `initialCoinSupply`, whatever
`nMoneySupply` is; the offset-corrected formula is used for
`nHeight ≥ FORK_HEIGHT_2` above the threshold (the fork height included); at
or below the threshold the growth formula from `lastPowBlock` is used. -/
theorem GetCurrentCoinSupply_ranges (ops : FloatOps) (P : Params) (mem : Arena) (p : Nat)
    (e : CBlockIndex) (he : mem[p]? = some e) :
    (P.twoPercentIntHeight < e.nHeight → e.nHeight < P.FORK_HEIGHT_2 →
      GetCurrentCoinSupply ops P mem (some p) = .ok P.initialCoinSupply) ∧
    (P.twoPercentIntHeight < e.nHeight → P.FORK_HEIGHT_2 ≤ e.nHeight →
      GetCurrentCoinSupply ops P mem (some p) =
        .ok (wrap64 (GetCurrentCoinSupply.supplyTerm P.COIN e.nMoneySupply +
          ops.toInt64 (ops.mul (ops.ofInt (wrap32 (e.nHeight - P.twoPercentIntHeight)))
            P.coinSupplyGrowthRate)))) ∧
    (e.nHeight ≤ P.twoPercentIntHeight →
      GetCurrentCoinSupply ops P mem (some p) =
        .ok (ops.toInt64 (ops.add (ops.ofInt P.initialCoinSupply)
          (ops.mul (ops.ofInt (wrap32 (e.nHeight - P.lastPowBlock)))
            P.coinSupplyGrowthRate)))) := by
  refine ⟨?_, ?_, ?_⟩
  · intro h1 h2
    unfold GetCurrentCoinSupply
    simp only [he]
    rw [if_pos (by omega), if_neg (by omega)]
  · intro h1 h2
    unfold GetCurrentCoinSupply
    simp only [he]
    rw [if_pos (by omega), if_pos (by omega)]
  · intro h1
    unfold GetCurrentCoinSupply
    simp only [he]
    rw [if_neg (by omega)]

/-- Witness for the amended C13: the entry at height 7, between the threshold
height 5 and the fork height 8. -/
theorem GetCurrentCoinSupply_ranges_witness :
    (linearArena 14)[7]? = some (linearEntry 7) ∧
    GetCurrentCoinSupply exactOps sampleParams (linearArena 14) (some 7) = .ok 1000 :=
  ⟨by decide,
    (GetCurrentCoinSupply_ranges exactOps sampleParams (linearArena 14) 7 (linearEntry 7)
      (by decide)).1 (by decide) (by decide)⟩

/-- Counterexample to C13 as stated: the entry at height 8 is above the
threshold height 5 and not above the fork height 8, yet the result is the
offset-corrected value 86467440741 and not the initial supply 1000. -/
theorem GetCurrentCoinSupply_ranges_counterexample :
    (linearArena 14)[8]? = some (linearEntry 8) ∧
    sampleParams.twoPercentIntHeight < (linearEntry 8).nHeight ∧
    (linearEntry 8).nHeight ≤ sampleParams.FORK_HEIGHT_2 ∧
    GetCurrentCoinSupply exactOps sampleParams (linearArena 14) (some 8) = .ok 86467440741 ∧
    (86467440741 : Int) ≠ sampleParams.initialCoinSupply := by
  decide

/-- Claim C14: with `COIN = 10 ^ 8`, for every true supply `T` with
`98000000000 * COIN ≤ T < 2 ^ 64` stored as the wrapped negative `int64_t`
value `T - 2 ^ 64`, the money-supply term computed in wrapping 64-bit
arithmetic equals `(T - 98000000000 * COIN) / COIN`, and above the threshold
from `FORK_HEIGHT_2` on `GetCurrentCoinSupply` returns this term plus the
height term. -/
theorem GetCurrentCoinSupply_overflow_correction (T : Int)
    (hT0 : 98000000000 * 100000000 ≤ T) (hT1 : T < 2 ^ 64) :
    (-(2 ^ 63) ≤ T - 2 ^ 64 ∧ T - 2 ^ 64 < 0) ∧
    GetCurrentCoinSupply.supplyTerm 100000000 (T - 2 ^ 64) =
      (T - 98000000000 * 100000000) / 100000000 ∧
    ∀ (ops : FloatOps) (P : Params) (mem : Arena) (p : Nat) (e : CBlockIndex),
      mem[p]? = some e → P.COIN = 100000000 → e.nMoneySupply = T - 2 ^ 64 →
      P.twoPercentIntHeight < e.nHeight → P.FORK_HEIGHT_2 ≤ e.nHeight →
      GetCurrentCoinSupply ops P mem (some p) =
        .ok (wrap64 ((T - 98000000000 * 100000000) / 100000000 +
          ops.toInt64 (ops.mul (ops.ofInt (wrap32 (e.nHeight - P.twoPercentIntHeight)))
            P.coinSupplyGrowthRate))) := by
  have hterm : GetCurrentCoinSupply.supplyTerm 100000000 (T - 2 ^ 64) =
      (T - 98000000000 * 100000000) / 100000000 := by
    unfold GetCurrentCoinSupply.supplyTerm
    have hc : wrap64 (98000000000 * 100000000) = 98000000000 * 100000000 - 2 ^ 64 := by decide
    rw [hc]
    have hw : wrap64 (T - 2 ^ 64 - (98000000000 * 100000000 - 2 ^ 64)) =
        T - 98000000000 * 100000000 := by
      unfold wrap64
      omega
    rw [hw]
    exact Int.tdiv_eq_ediv (by omega) (by decide)
  refine ⟨by omega, hterm, ?_⟩
  intro ops P mem p e he hcoin hms h1 h2
  unfold GetCurrentCoinSupply
  simp only [he]
  rw [if_pos (by omega), if_pos (by omega), hcoin, hms, hterm]

/-- Witness for C14: the true supply `T = 98000000007 * 10 ^ 8`. -/
theorem GetCurrentCoinSupply_overflow_correction_witness :
    (98000000000 * 100000000 : Int) ≤ 98000000007 * 100000000 ∧
    (98000000007 * 100000000 : Int) < 2 ^ 64 ∧
    GetCurrentCoinSupply.supplyTerm 100000000 (98000000007 * 100000000 - 2 ^ 64) =
      (98000000007 * 100000000 - 98000000000 * 100000000) / 100000000 :=
  ⟨by decide, by decide,
    (GetCurrentCoinSupply_overflow_correction (98000000007 * 100000000) (by decide)
      (by decide)).2.1⟩

/-! ## `GetAverageStakeWeight` -/

/-- Claim C15: with the best height at least 1, when the height of the entry
equals the cached height `GetAverageStakeWeight` returns the cached value and
leaves the cache unchanged, whatever the callee `GetPoSKernelPS` does (even
one that always fails, so it is not called); and after any call that returns,
a second call on any entry of the same height returns the same value and
leaves the cache as the first call left it. -/
theorem GetAverageStakeWeight_cache_stable (kernelPS : Option Nat → Outcome Double)
    (ops : FloatOps) (mem : Arena) (nBestHeight : Int) (cache : StakeCache) (p : Nat)
    (e : CBlockIndex) (hbest : 1 ≤ nBestHeight) (he : mem[p]? = some e) :
    (e.nHeight = cache.nAverageStakeWeightHeightCached →
      ∀ kernelPS', GetAverageStakeWeight kernelPS' ops mem nBestHeight cache (some p) =
        .ok (cache.dAverageStakeWeightCached, cache)) ∧
    (∀ v c, GetAverageStakeWeight kernelPS ops mem nBestHeight cache (some p) = .ok (v, c) →
      ∀ kernelPS' p' e', mem[p']? = some e' → e'.nHeight = e.nHeight →
        GetAverageStakeWeight kernelPS' ops mem nBestHeight c (some p') = .ok (v, c)) := by
  have hit : ∀ (c : StakeCache) (q : Nat) (eq : CBlockIndex), mem[q]? = some eq →
      eq.nHeight = c.nAverageStakeWeightHeightCached →
      ∀ kernelPS', GetAverageStakeWeight kernelPS' ops mem nBestHeight c (some q) =
        .ok (c.dAverageStakeWeightCached, c) := by
    intro c q eq hq hh kernelPS'
    unfold GetAverageStakeWeight
    rw [if_neg (by omega)]
    simp only [hq]
    rw [if_pos hh]
  refine ⟨fun h => hit cache p e he h, ?_⟩
  intro v c hres kernelPS' p' e' he' hh'
  by_cases hc : e.nHeight = cache.nAverageStakeWeightHeightCached
  · rw [hit cache p e he hc kernelPS] at hres
    simp only [Outcome.ok.injEq, Prod.mk.injEq] at hres
    obtain ⟨rfl, rfl⟩ := hres
    exact hit cache p' e' he' (by omega) kernelPS'
  · unfold GetAverageStakeWeight at hres
    rw [if_neg (by omega)] at hres
    simp only [he] at hres
    rw [if_neg hc] at hres
    cases hl : GetAverageStakeWeight.loop kernelPS ops mem 60 (some p) 0 (.fin 0 0) with
    | ok r =>
      simp only [hl, Outcome.bind, Outcome.ok.injEq, Prod.mk.injEq] at hres
      obtain ⟨rfl, rfl⟩ := hres
      exact hit _ p' e' he' hh' kernelPS'
    | assertFailed => simp [hl, Outcome.bind] at hres
    | fault => simp [hl, Outcome.bind] at hres
    | outOfFuel => simp [hl, Outcome.bind] at hres

/-- Witness for C15: the entry at height 3 with the cache `(3, 100.0)` and a
callee that always fails. -/
theorem GetAverageStakeWeight_cache_stable_witness :
    (1 : Int) ≤ 13 ∧ (linearArena 14)[3]? = some (linearEntry 3) ∧
    ∀ kernelPS', GetAverageStakeWeight kernelPS' exactOps (linearArena 14) 13
      ⟨3, .fin 100 0⟩ (some 3) = .ok (.fin 100 0, ⟨3, .fin 100 0⟩) :=
  ⟨by decide, by decide,
    (GetAverageStakeWeight_cache_stable failingKernelPS exactOps (linearArena 14) 13
      ⟨3, .fin 100 0⟩ 3 (linearEntry 3) (by decide) (by decide)).1 (by decide)⟩

/-! ## `GetProofOfStakeTimeReward` -/

/-- Claim C16: when `GetCurrentInterestRate` returns `rate`, with
`r = (int64_t)(rate * CENT)` and absent 64-bit overflow the reward is
`(nStakeTime * r * 33) / 12053 + nFees`, the quotient being truncated toward
zero; in particular the reward is `nFees` when `nStakeTime` is 0, and the
reward minus the fees is the same for every amount of fees. -/
theorem GetProofOfStakeTimeReward_formula (kernelPS : Option Nat → Outcome Double)
    (ops : FloatOps) (P : Params) (mem : Arena) (nBestHeight : Int) (cache : StakeCache)
    (nStakeTime nFees : Int) (pindexPrev : Option Nat) (rate : Double) (c : StakeCache)
    (hrate : GetCurrentInterestRate kernelPS ops P mem nBestHeight cache pindexPrev =
      .ok (rate, c))
    (h1 : -(2 ^ 63) ≤ nStakeTime * ops.toInt64 (ops.mul rate (ops.ofInt P.CENT)) ∧
      nStakeTime * ops.toInt64 (ops.mul rate (ops.ofInt P.CENT)) < 2 ^ 63)
    (h2 : -(2 ^ 63) ≤ nStakeTime * ops.toInt64 (ops.mul rate (ops.ofInt P.CENT)) * 33 ∧
      nStakeTime * ops.toInt64 (ops.mul rate (ops.ofInt P.CENT)) * 33 < 2 ^ 63)
    (h3 : -(2 ^ 63) ≤
        Int.tdiv (nStakeTime * ops.toInt64 (ops.mul rate (ops.ofInt P.CENT)) * 33) 12053
          + nFees ∧
      Int.tdiv (nStakeTime * ops.toInt64 (ops.mul rate (ops.ofInt P.CENT)) * 33) 12053
        + nFees < 2 ^ 63) :
    (365 * 33 + 8 : Int) = 12053 ∧
    GetProofOfStakeTimeReward kernelPS ops P mem nBestHeight cache nStakeTime nFees pindexPrev =
      .ok (Int.tdiv (nStakeTime * ops.toInt64 (ops.mul rate (ops.ofInt P.CENT)) * 33) 12053
        + nFees, c) ∧
    (nStakeTime = 0 →
      GetProofOfStakeTimeReward kernelPS ops P mem nBestHeight cache nStakeTime nFees
        pindexPrev = .ok (nFees, c)) ∧
    (∀ nFees' : Int,
      -(2 ^ 63) ≤
        Int.tdiv (nStakeTime * ops.toInt64 (ops.mul rate (ops.ofInt P.CENT)) * 33) 12053
          + nFees' →
      Int.tdiv (nStakeTime * ops.toInt64 (ops.mul rate (ops.ofInt P.CENT)) * 33) 12053
        + nFees' < 2 ^ 63 →
      ∃ reward', GetProofOfStakeTimeReward kernelPS ops P mem nBestHeight cache nStakeTime
          nFees' pindexPrev = .ok (reward', c) ∧
        reward' - nFees' =
          Int.tdiv (nStakeTime * ops.toInt64 (ops.mul rate (ops.ofInt P.CENT)) * 33) 12053) := by
  have key : ∀ fees : Int,
      -(2 ^ 63) ≤
        Int.tdiv (nStakeTime * ops.toInt64 (ops.mul rate (ops.ofInt P.CENT)) * 33) 12053
          + fees →
      Int.tdiv (nStakeTime * ops.toInt64 (ops.mul rate (ops.ofInt P.CENT)) * 33) 12053
        + fees < 2 ^ 63 →
      GetProofOfStakeTimeReward kernelPS ops P mem nBestHeight cache nStakeTime fees
          pindexPrev =
        .ok (Int.tdiv (nStakeTime * ops.toInt64 (ops.mul rate (ops.ofInt P.CENT)) * 33) 12053
          + fees, c) := by
    intro fees hf0 hf1
    unfold GetProofOfStakeTimeReward
    simp only [hrate, Outcome.bind]
    generalize ops.toInt64 (ops.mul rate (ops.ofInt P.CENT)) = r at h1 h2 hf0 hf1 ⊢
    have e1 : wrap64 (nStakeTime * r) = nStakeTime * r := by
      unfold wrap64
      omega
    have e2 : wrap64 (nStakeTime * r * 33) = nStakeTime * r * 33 := by
      unfold wrap64
      omega
    have e3 : (365 * 33 + 8 : Int) = 12053 := by decide
    rw [e1, e2, e3]
    have e4 : wrap64 (Int.tdiv (nStakeTime * r * 33) 12053 + fees) =
        Int.tdiv (nStakeTime * r * 33) 12053 + fees := by
      unfold wrap64
      omega
    rw [e4]
  refine ⟨by decide, key nFees h3.1 h3.2, ?_, ?_⟩
  · intro hz
    rw [key nFees h3.1 h3.2, hz]
    simp
  · intro nFees' hf0 hf1
    exact ⟨_, key nFees' hf0 hf1, by omega⟩

/-- Witness for C16: stake time 1000, fees 7, the entry at height 9 (above the
threshold, so the rate is the fixed rate 2.0 and `r = 2000000`). -/
theorem GetProofOfStakeTimeReward_formula_witness :
    GetCurrentInterestRate failingKernelPS exactOps sampleParams (linearArena 14) 13
      ⟨0, .nan⟩ (some 9) = .ok (.fin 2 0, ⟨0, .nan⟩) ∧
    GetProofOfStakeTimeReward failingKernelPS exactOps sampleParams (linearArena 14) 13
      ⟨0, .nan⟩ 1000 7 (some 9) =
      .ok (Int.tdiv (1000 * exactOps.toInt64 (exactOps.mul (.fin 2 0)
        (exactOps.ofInt sampleParams.CENT)) * 33) 12053 + 7, ⟨0, .nan⟩) :=
  ⟨by decide,
    (GetProofOfStakeTimeReward_formula failingKernelPS exactOps sampleParams (linearArena 14) 13
      ⟨0, .nan⟩ 1000 7 (some 9) (.fin 2 0) ⟨0, .nan⟩ (by decide) (by decide) (by decide)
      (by decide)).2.1⟩

/-! ## Zero work as a sentinel, and antisymmetry of the work-equivalent time -/

theorem GetBlockProof_of_invalid (nBits : Nat) (hv : ¬ DecodesValidly nBits) :
    GetBlockProof nBits = .ok 0 := by
  unfold DecodesValidly at hv
  unfold GetBlockProof
  simp only
  rw [if_pos (not_not.mp hv)]

theorem work_quotient_pos (nBits : Nat) : 1 ≤ 2 ^ 256 / ((SetCompact nBits).1 + 1) :=
  (Nat.one_le_div_iff (by omega)).mpr (le_of_lt (SetCompact_target_lt nBits))

/-- Claim C26: `GetBlockProof` always returns; the value is at least 1 when the
compact target decodes validly and 0 exactly when it does not; and when the
target of the tip decodes validly `GetBlockProofEquivalentTime` divides by a
non-zero proof: it returns a value and does not fail. -/
theorem GetBlockProof_zero_iff (nBits : Nat) :
    ∃ w, GetBlockProof nBits = .ok w ∧ (w = 0 ↔ ¬ DecodesValidly nBits) ∧
      (DecodesValidly nBits ↔ 1 ≤ w) ∧
      ∀ (to_ from_ tip : CBlockIndex) (spacing : Int), tip.nBits = nBits →
        (DecodesValidly nBits ↔
          ∃ res, GetBlockProofEquivalentTime to_ from_ tip spacing = .ok res) := by
  by_cases hv : DecodesValidly nBits
  · have hpos := work_quotient_pos nBits
    refine ⟨_, GetBlockProof_of_valid nBits hv, ?_, ?_, ?_⟩
    · constructor
      · intro h0; omega
      · intro hn; exact absurd hv hn
    · exact ⟨fun _ => hpos, fun _ => hv⟩
    · intro to_ from_ tip spacing htip
      refine ⟨fun _ => ?_, fun _ => hv⟩
      unfold GetBlockProofEquivalentTime
      rw [htip]
      simp only [GetBlockProof_of_valid nBits hv]
      rw [if_neg (by omega)]
      repeat' split
      all_goals exact ⟨_, rfl⟩
  · refine ⟨0, GetBlockProof_of_invalid nBits hv, ?_, ?_, ?_⟩
    · exact ⟨fun _ => hv, fun _ => rfl⟩
    · constructor
      · intro h; exact absurd h hv
      · intro h; omega
    · intro to_ from_ tip spacing htip
      constructor
      · intro h; exact absurd h hv
      · rintro ⟨res, hres⟩
        unfold GetBlockProofEquivalentTime at hres
        rw [htip] at hres
        simp [GetBlockProof_of_invalid nBits hv] at hres

theorem GetBlockProofEquivalentTime_eq (to_ from_ tip : CBlockIndex) (spacing : Int)
    (w : Nat) (hw : GetBlockProof tip.nBits = .ok w) (hpos : 0 < w) (r0 : Nat)
    (hr0 : r0 = if to_.nChainWork > from_.nChainWork then
        (to_.nChainWork + 2 ^ 256 - from_.nChainWork) % 2 ^ 256
      else (from_.nChainWork + 2 ^ 256 - to_.nChainWork) % 2 ^ 256) :
    GetBlockProofEquivalentTime to_ from_ tip spacing =
      .ok ((if to_.nChainWork > from_.nChainWork then 1 else -1) *
        (if 2 ^ 63 ≤ r0 * (spacing % 2 ^ 64).toNat % 2 ^ 256 / w then 2 ^ 63 - 1
          else ((r0 * (spacing % 2 ^ 64).toNat % 2 ^ 256 / w : Nat) : Int))) := by
  have hsign : (if to_.nChainWork > from_.nChainWork then (1 : Int) else -1) = 1 ∨
      (if to_.nChainWork > from_.nChainWork then (1 : Int) else -1) = -1 := by
    split <;> simp
  have hm : r0 * (spacing % 2 ^ 64).toNat % 2 ^ 256 / w < 2 ^ 256 :=
    lt_of_le_of_lt (Nat.div_le_self _ _) (Nat.mod_lt _ (by positivity))
  unfold GetBlockProofEquivalentTime
  simp only [hw, ← hr0]
  rw [if_neg (by omega)]
  generalize r0 * (spacing % 2 ^ 64).toNat % 2 ^ 256 / w = m at hm ⊢
  generalize (if to_.nChainWork > from_.nChainWork then (1 : Int) else -1) = sign at hsign ⊢
  by_cases hbig : 2 ^ 63 ≤ m
  · rw [if_pos ((bits_gt_iff _ hm).mpr hbig), if_pos hbig]
  · rw [if_neg (by rw [bits_gt_iff _ hm]; exact hbig), if_neg hbig,
      wrap64_sign_mul _ (Nat.lt_of_not_le hbig) _ hsign]

/-- Claim C27: when `GetBlockProof(tip)` is a positive `w`,
`GetBlockProofEquivalentTime(to, from, tip)` returns some `res`,
`GetBlockProofEquivalentTime(from, to, tip)` returns `-res` for the same
spacing (also when the magnitude saturates), and `res` is 0 when the two
chain works are equal. -/
theorem GetBlockProofEquivalentTime_antisymm (to_ from_ tip : CBlockIndex) (spacing : Int)
    (w : Nat) (hw : GetBlockProof tip.nBits = .ok w) (hpos : 0 < w) :
    ∃ res : Int, GetBlockProofEquivalentTime to_ from_ tip spacing = .ok res ∧
      GetBlockProofEquivalentTime from_ to_ tip spacing = .ok (-res) ∧
      (to_.nChainWork = from_.nChainWork → res = 0) := by
  rw [GetBlockProofEquivalentTime_eq to_ from_ tip spacing w hw hpos _ rfl,
    GetBlockProofEquivalentTime_eq from_ to_ tip spacing w hw hpos _ rfl]
  refine ⟨_, rfl, ?_, ?_⟩
  · rcases Nat.lt_trichotomy from_.nChainWork to_.nChainWork with hlt | heq | hgt
    · have h1 : to_.nChainWork > from_.nChainWork := hlt
      have h2 : ¬ from_.nChainWork > to_.nChainWork := by omega
      simp only [h1, h2, if_true, if_false]
      congr 1
      ring
    · have hz : (to_.nChainWork + 2 ^ 256 - to_.nChainWork) % 2 ^ 256 = 0 := by
        rw [Nat.add_sub_cancel_left, Nat.mod_self]
      rw [heq]
      simp only [gt_iff_lt, lt_self_iff_false, if_false, hz]
      simp
    · have h1 : ¬ to_.nChainWork > from_.nChainWork := by omega
      have h2 : from_.nChainWork > to_.nChainWork := hgt
      simp only [h1, h2, if_true, if_false]
      congr 1
      ring
  · intro heq
    have hz : (from_.nChainWork + 2 ^ 256 - from_.nChainWork) % 2 ^ 256 = 0 := by
      rw [Nat.add_sub_cancel_left, Nat.mod_self]
    rw [heq]
    simp only [gt_iff_lt, lt_self_iff_false, if_false, hz]
    simp

/-- Witness for C27: works 1000 and 4000, spacing 60, tip target `0x207fffff`. -/
theorem GetBlockProofEquivalentTime_antisymm_witness :
    GetBlockProof 0x207fffff = .ok 2 ∧
    ∃ res : Int, GetBlockProofEquivalentTime
        { phashBlock := 1, nHeight := 5, nChainWork := 1000 }
        { phashBlock := 2, nHeight := 9, nChainWork := 4000 }
        { phashBlock := 3, nHeight := 9, nBits := 0x207fffff } 60 = .ok res ∧
      GetBlockProofEquivalentTime
        { phashBlock := 2, nHeight := 9, nChainWork := 4000 }
        { phashBlock := 1, nHeight := 5, nChainWork := 1000 }
        { phashBlock := 3, nHeight := 9, nBits := 0x207fffff } 60 = .ok (-res) ∧
      ((1000 : Nat) = 4000 → res = 0) :=
  ⟨by decide, GetBlockProofEquivalentTime_antisymm
    { phashBlock := 1, nHeight := 5, nChainWork := 1000 }
    { phashBlock := 2, nHeight := 9, nChainWork := 4000 }
    { phashBlock := 3, nHeight := 9, nBits := 0x207fffff } 60 2 (by decide) (by decide)⟩

/-! ## `GetLocator`: independence of the active chain, and length -/

theorem GetLocator_loop_empty_chain (mem : Arena) (fuel : Nat) :
    ∀ (cur : Option Nat) (nStep : Int) (vHave : List Nat),
      GetLocator.loop mem [] fuel cur nStep vHave =
        GetLocatorViaAncestor.loop mem fuel cur nStep vHave := by
  induction fuel with
  | zero =>
    intro cur nStep vHave
    cases cur <;> simp [GetLocator.loop, GetLocatorViaAncestor.loop]
  | succ fuel ih =>
    intro cur nStep vHave
    cases cur with
    | none => simp [GetLocator.loop, GetLocatorViaAncestor.loop]
    | some p =>
      rw [GetLocator.loop, GetLocatorViaAncestor.loop]
      cases hm : mem[p]? with
      | none => rfl
      | some e =>
        simp only []
        split
        · rfl
        · have hc : Contains [] p e = false := by simp [Contains, chainAt]
          simp only [hc, Bool.false_eq_true, if_false]
          cases GetAncestor mem p (max (wrap32 (e.nHeight - nStep)) 0) with
          | ok q => exact ih q _ _
          | assertFailed => rfl
          | fault => rfl
          | outOfFuel => rfl

/-- Claim C24: for a present entry of a well-formed block graph and a
chain-consistent active index, `GetLocator` returns the same list as the loop
that always jumps with `GetAncestor` and never reads the index; and for a
member of the active chain the slot at any height up to its own is the entry
that `GetAncestor` returns for that height. -/
theorem GetLocator_chain_independent (mem : Arena) (hwf : WellFormed mem) (vChain : Chain)
    (hcons : ChainConsistent mem vChain) (fuel : Nat) (s : Nat) (es : CBlockIndex)
    (hs : mem[s]? = some es) (hfuel : es.nHeight < fuel) :
    (∃ vHave, GetLocator mem vChain fuel (some s) = .ok vHave ∧
      GetLocatorViaAncestor mem fuel (some s) = .ok vHave) ∧
    (∀ (cur : Nat) (ec : CBlockIndex) (nextHeight : Int), mem[cur]? = some ec →
      Contains vChain cur ec = true → 0 ≤ nextHeight → nextHeight ≤ ec.nHeight →
      GetAncestor mem cur nextHeight = .ok (chainAt vChain nextHeight)) := by
  refine ⟨⟨_, GetLocator_eq_heights hwf vChain hcons fuel (some s) s es rfl hs hfuel, ?_⟩, ?_⟩
  · have h := GetLocator_eq_heights hwf [] (Or.inl rfl) fuel (some s) s es rfl hs hfuel
    unfold GetLocator at h
    unfold GetLocatorViaAncestor
    rw [← GetLocator_loop_empty_chain]
    exact h
  · intro cur ec nextHeight hc hcon h0 hle
    obtain ⟨r, hr, hga⟩ := GetAncestor_correct hwf cur ec hc nextHeight h0 hle
    have ok := (entryOK_of_wellFormed hwf hc).1
    have hch := chainAt_of_lowerLinked (lowerLinked_of_consistent hcons _) hcon ec.nHeight.toNat
      nextHeight.toNat (by omega) (by omega)
    rw [Int.toNat_of_nonneg h0] at hch
    rw [hga, hch, ← hr]
    congr 2
    omega

/-- Witness for C24: the entry at height 13 and the active chain of tip 7. -/
theorem GetLocator_chain_independent_witness :
    WellFormed (linearArena 14) ∧
    ∃ vHave, GetLocator (linearArena 14) (linearChain 8) 14 (some 13) = .ok vHave ∧
      GetLocatorViaAncestor (linearArena 14) 14 (some 13) = .ok vHave :=
  ⟨by decide,
    (GetLocator_chain_independent (linearArena 14) (by decide) (linearChain 8)
      (Or.inr ⟨7, (linearEntry 7), by decide, by decide, by decide⟩)
      14 13 (linearEntry 13) (by decide) (by decide)).1⟩

theorem locatorHeights_length_le (fuel : Nat) :
    ∀ h step size k, (size < 10 → step = 1) → 1 ≤ step →
      h + step ≤ (10 - size) + step * 2 ^ k →
      (locatorHeights fuel h step size).length ≤ (10 - size) + k + 1 := by
  induction fuel with
  | zero => intro h step size k _ _ _; simp [locatorHeights]
  | succ fuel ih =>
    intro h step size k hlin hstep hb
    by_cases hz : h = 0
    · subst hz
      simp [locatorHeights]
    · have hl : locatorHeights (fuel + 1) h step size = h ::
          locatorHeights fuel (h - step) (if size + 1 > 10 then 2 * step else step) (size + 1) := by
        simp [locatorHeights, hz]
      rw [hl, List.length_cons]
      by_cases hs : size < 10
      · have h1 := hlin hs
        subst h1
        have := ih (h - 1) (if size + 1 > 10 then 2 * 1 else 1) (size + 1) k
          (fun _ => by rw [if_neg (by omega)]) (by split <;> omega)
          (by rw [if_neg (by omega)]; omega)
        omega
      · have hs10 : 10 - size = 0 := by omega
        rw [hs10] at hb ⊢
        cases k with
        | zero =>
          simp only [pow_zero, Nat.mul_one] at hb
          omega
        | succ k =>
          have hpow : step * 2 ^ (k + 1) = 2 * (step * 2 ^ k) := by rw [pow_succ]; ring
          have hge : step ≤ step * 2 ^ k := Nat.le_mul_of_pos_right _ (by positivity)
          rw [hpow] at hb
          have := ih (h - step) (if size + 1 > 10 then 2 * step else step) (size + 1) k
            (fun hc => by omega) (by split <;> omega)
            (by
              rw [if_pos (by omega), show 10 - (size + 1) = 0 by omega]
              have : 2 * step * 2 ^ k = 2 * (step * 2 ^ k) := by ring
              omega)
          rw [show 10 - (size + 1) = 0 by omega] at this
          omega

theorem locatorHeights_length_small (fuel : Nat) :
    ∀ h step size, h < fuel → (h = 0 ∨ (step = 1 ∧ h + size ≤ 11)) →
      (locatorHeights fuel h step size).length = h + 1 := by
  induction fuel with
  | zero => intro h step size hf; omega
  | succ fuel ih =>
    intro h step size hf hcase
    by_cases hz : h = 0
    · subst hz
      simp [locatorHeights]
    · have hl : locatorHeights (fuel + 1) h step size = h ::
          locatorHeights fuel (h - step) (if size + 1 > 10 then 2 * step else step) (size + 1) := by
        simp [locatorHeights, hz]
      rcases hcase with h0 | ⟨hstep, hsz⟩
      · exact absurd h0 hz
      · subst hstep
        rw [hl, List.length_cons, ih (h - 1) _ (size + 1) (by omega) ?_]
        · omega
        · by_cases hlast : size + 1 > 10
          · left; omega
          · right
            rw [if_neg hlast]
            exact ⟨rfl, by omega⟩

/-- Claim C25: for a starting entry of height `h` in a well-formed block graph,
`GetLocator` returns exactly `h + 1` hashes when `h ≤ 11` and at most
`12 + log2 h` hashes when `h ≥ 12`. -/
theorem GetLocator_length (mem : Arena) (hwf : WellFormed mem) (vChain : Chain)
    (hcons : ChainConsistent mem vChain) (fuel : Nat) (pindex : Option Nat) (s : Nat)
    (es : CBlockIndex) (hstart : (if pindex.isSome then pindex else Tip vChain) = some s)
    (hs : mem[s]? = some es) (hfuel : es.nHeight < fuel) :
    ∃ vHave, GetLocator mem vChain fuel pindex = .ok vHave ∧
      (es.nHeight ≤ 11 → (vHave.length : Int) = es.nHeight + 1) ∧
      (12 ≤ es.nHeight → vHave.length ≤ 12 + Nat.log2 es.nHeight.toNat) := by
  have ok := (entryOK_of_wellFormed hwf hs).1
  refine ⟨_, GetLocator_eq_heights hwf vChain hcons fuel pindex s es hstart hs hfuel, ?_, ?_⟩
  · intro h11
    rw [List.length_map, locatorHeights_length_small fuel _ 1 0 (by omega)
      (Or.inr ⟨rfl, by omega⟩)]
    omega
  · intro h12
    rw [List.length_map]
    have hlog := @Nat.lt_log2_self es.nHeight.toNat
    have := locatorHeights_length_le fuel es.nHeight.toNat 1 0 (Nat.log2 es.nHeight.toNat + 1)
      (fun _ => rfl) (le_refl 1) (by omega)
    omega

/-- Witness for C25: the entry at height 13 of a chain of 14 entries. -/
theorem GetLocator_length_witness :
    WellFormed (linearArena 14) ∧
    ∃ vHave, GetLocator (linearArena 14) (linearChain 8) 14 (some 13) = .ok vHave ∧
      ((linearEntry 13).nHeight ≤ 11 → (vHave.length : Int) = (linearEntry 13).nHeight + 1) ∧
      (12 ≤ (linearEntry 13).nHeight →
        vHave.length ≤ 12 + Nat.log2 (linearEntry 13).nHeight.toNat) :=
  ⟨by decide,
    GetLocator_length (linearArena 14) (by decide) (linearChain 8)
      (Or.inr ⟨7, (linearEntry 7), by decide, by decide, by decide⟩)
      14 (some 13) 13 (linearEntry 13) (by decide) (by decide) (by decide)⟩

/-! ## `SetTip` writes only the divergent branch -/

theorem SetTip_walk_frame {mem : Arena} (hwf : WellFormed mem) (p : Nat) (e : CBlockIndex)
    (he : mem[p]? = some e) (H : Nat) (hH : e.nHeight = H) (old : Chain) (k : Nat)
    (hk : k = 0 ∨ old[k - 1]? = some (followPrev mem (H - (k - 1)) p))
    (hno : ∀ i, k ≤ i → i ≤ H → old[i]? ≠ some (followPrev mem (H - i) p)) (fuel : Nat) :
    ∀ (m : Nat) (vc : Chain) (cur : Option Nat), m ≤ fuel → k ≤ m → m ≤ H + 1 →
      vc.length = H + 1 →
      (∀ i, m ≤ i → i ≤ H → vc[i]? = some (followPrev mem (H - i) p)) →
      (∀ i, i < m → vc[i]? = old[i]?) →
      cur = (if m = 0 then none else followPrev mem (H - (m - 1)) p) →
      ∃ vc', SetTip.walk mem fuel vc cur = .ok vc' ∧ vc'.length = H + 1 ∧
        (∀ i, k ≤ i → i ≤ H → vc'[i]? = some (followPrev mem (H - i) p)) ∧
        (∀ i, i < k → vc'[i]? = old[i]?) := by
  induction fuel with
  | zero =>
    intro m vc cur hm hkm _ hlen hup hold hcur
    have : m = 0 := by omega
    subst this
    simp only [if_true] at hcur
    subst hcur
    exact ⟨vc, by simp [SetTip.walk], hlen, fun i _ hi => hup i (by omega) hi,
      fun i hi => by omega⟩
  | succ fuel ih =>
    intro m vc cur hm hkm hmH hlen hup hold hcur
    rcases Nat.eq_zero_or_pos m with h0 | hpos
    · subst h0
      simp only [if_true] at hcur
      subst hcur
      exact ⟨vc, by simp [SetTip.walk], hlen, fun i _ hi => hup i (by omega) hi,
        fun i hi => by omega⟩
    · obtain ⟨m', rfl⟩ : ∃ m', m = m' + 1 := ⟨m - 1, by omega⟩
      simp only [Nat.succ_ne_zero, if_false, Nat.add_sub_cancel] at hcur
      obtain ⟨q, eq, hq, hmq, hhq⟩ := followPrev_exists hwf (H - m') p e he (by omega)
      have hqh : eq.nHeight = m' := by rw [hhq, hH]; omega
      rw [hq] at hcur
      subst hcur
      rw [SetTip.walk]
      simp only [hmq]
      rw [if_neg (by omega)]
      have htn : eq.nHeight.toNat = m' := by omega
      rw [htn]
      split
      · next hmatch =>
        have hkeq : k = m' + 1 := by
          by_contra hne
          apply hno m' (by omega) (by omega)
          rw [← hold m' (by omega), hmatch, hq]
        refine ⟨vc, rfl, hlen, ?_, ?_⟩
        · intro i hki hi
          exact hup i (by omega) hi
        · intro i hi
          exact hold i (by omega)
      · next hnomatch =>
        have hkle : k ≤ m' := by
          by_contra hne
          have hkeq : k = m' + 1 := by omega
          rcases hk with hk | hk
          · omega
          · apply hnomatch
            rw [hold m' (by omega)]
            rw [hkeq, Nat.add_sub_cancel, hq] at hk
            exact hk
        apply ih m' (vc.set m' (some q)) eq.pprev (by omega) hkle (by omega)
          (by simpa using hlen)
        · intro i hmi hi
          by_cases hie : i = m'
          · subst hie
            rw [List.getElem?_set_self (by omega), hq]
          · rw [List.getElem?_set_ne (by omega)]
            exact hup i (by omega) hi
        · intro i hi
          rw [List.getElem?_set_ne (by omega)]
          exact hold i (by omega)
        · by_cases hz : m' = 0
          · subst hz
            simp only [if_true]
            cases hpp : eq.pprev with
            | none => rfl
            | some q' =>
              have ok := (entryOK_of_wellFormed hwf hmq).2.2.1
              rw [hpp] at ok
              simp only [PrevOK, Option.map_eq_some'] at ok
              obtain ⟨e', he', hh'⟩ := ok
              have := (entryOK_of_wellFormed hwf he').1
              omega
          · simp only [hz, if_false]
            rw [← followPrev_succ_right mem (H - m') p q eq hq hmq]
            congr 1
            omega

theorem SetTip_eq_walk {mem : Arena} (hwf : WellFormed mem) (vc : Chain) (fuel : Nat) (p : Nat)
    (e : CBlockIndex) (he : mem[p]? = some e) :
    SetTip mem fuel vc (some p) =
      SetTip.walk mem fuel (resize vc (e.nHeight.toNat + 1)) (some p) := by
  have ok := entryOK_of_wellFormed hwf he
  have hw : wrap32 (e.nHeight + 1) = e.nHeight + 1 :=
    wrap32_of_range _ (by have := ok.1; omega) (by have := ok.2.1; omega)
  have hn : (e.nHeight + 1).toNat = e.nHeight.toNat + 1 := by have := ok.1; omega
  unfold SetTip
  simp only [he, hw, hn]
  rw [if_neg (by have := ok.1; omega)]

/-- Claim C21: `SetTip` with a present entry `p` of height `H` in a well-formed
block graph returns an index of `H + 1` slots such that, with `old` the old
index resized to `H + 1` slots: if `hstar` is the greatest height at most `H`
at which `old` holds the ancestor of `p`, every slot at a height at most
`hstar` is as in `old` and every slot at a height in `(hstar, H]` holds the
ancestor of `p` and differs from `old`; and if `old` holds the ancestor of `p`
at no height, every slot `0..H` holds the ancestor of `p` and differs from
`old`.  A store of the loop always changes the slot, and no slot is stored
twice, so the slots that differ from `old` are exactly the stored ones. -/
theorem SetTip_writes_divergent_branch (mem : Arena) (hwf : WellFormed mem) (vChain : Chain)
    (fuel : Nat) (p : Nat) (e : CBlockIndex) (he : mem[p]? = some e)
    (hfuel : e.nHeight < fuel) :
    ∃ vChain', SetTip mem fuel vChain (some p) = .ok vChain' ∧
      vChain'.length = e.nHeight.toNat + 1 ∧
      (∀ hstar, hstar ≤ e.nHeight.toNat →
        (resize vChain (e.nHeight.toNat + 1))[hstar]? =
          some (followPrev mem (e.nHeight.toNat - hstar) p) →
        (∀ h, hstar < h → h ≤ e.nHeight.toNat →
          (resize vChain (e.nHeight.toNat + 1))[h]? ≠
            some (followPrev mem (e.nHeight.toNat - h) p)) →
        (∀ h, h ≤ hstar → vChain'[h]? = (resize vChain (e.nHeight.toNat + 1))[h]?) ∧
        (∀ h, hstar < h → h ≤ e.nHeight.toNat →
          vChain'[h]? = some (followPrev mem (e.nHeight.toNat - h) p) ∧
          vChain'[h]? ≠ (resize vChain (e.nHeight.toNat + 1))[h]?)) ∧
      ((∀ h, h ≤ e.nHeight.toNat →
          (resize vChain (e.nHeight.toNat + 1))[h]? ≠
            some (followPrev mem (e.nHeight.toNat - h) p)) →
        ∀ h, h ≤ e.nHeight.toNat →
          vChain'[h]? = some (followPrev mem (e.nHeight.toNat - h) p) ∧
          vChain'[h]? ≠ (resize vChain (e.nHeight.toNat + 1))[h]?) := by
  have ok := entryOK_of_wellFormed hwf he
  have hH : e.nHeight = (e.nHeight.toNat : Nat) := by have := ok.1; omega
  generalize hHd : e.nHeight.toNat = H at hH ⊢
  generalize hold : resize vChain (H + 1) = old
  have hlen : old.length = H + 1 := by rw [← hold]; exact length_resize _ _
  have hres : SetTip mem fuel vChain (some p) = SetTip.walk mem fuel old (some p) := by
    rw [SetTip_eq_walk hwf vChain fuel p e he, hHd, hold]
  have hrun : ∀ k, (k = 0 ∨ old[k - 1]? = some (followPrev mem (H - (k - 1)) p)) →
      (∀ i, k ≤ i → i ≤ H → old[i]? ≠ some (followPrev mem (H - i) p)) → k ≤ H + 1 →
      ∃ vc', SetTip.walk mem fuel old (some p) = .ok vc' ∧ vc'.length = H + 1 ∧
        (∀ i, k ≤ i → i ≤ H → vc'[i]? = some (followPrev mem (H - i) p)) ∧
        (∀ i, i < k → vc'[i]? = old[i]?) := by
    intro k hk hno hkH
    exact SetTip_walk_frame hwf p e he H hH old k hk hno fuel (H + 1) old (some p) (by omega)
      hkH (le_refl _) hlen (fun i h1 h2 => by omega) (fun i _ => rfl) (by simp [followPrev])
  have hex : ∃ k, (k = 0 ∨ old[k - 1]? = some (followPrev mem (H - (k - 1)) p)) ∧
      (∀ i, k ≤ i → i ≤ H → old[i]? ≠ some (followPrev mem (H - i) p)) ∧ k ≤ H + 1 := by
    by_cases hany : ∃ i, i ≤ H ∧ old[i]? = some (followPrev mem (H - i) p)
    · obtain ⟨i0, hi0, hm0⟩ := hany
      classical
      have hspec := Nat.findGreatest_spec
        (P := fun i => old[i]? = some (followPrev mem (H - i) p)) hi0 hm0
      have hle := Nat.findGreatest_le
        (P := fun i => old[i]? = some (followPrev mem (H - i) p)) H
      refine ⟨Nat.findGreatest (fun i => old[i]? = some (followPrev mem (H - i) p)) H + 1,
        Or.inr ?_, ?_, by omega⟩
      · simpa using hspec
      · intro i hki hi
        exact Nat.findGreatest_is_greatest
          (P := fun i => old[i]? = some (followPrev mem (H - i) p)) (by omega) hi
    · refine ⟨0, Or.inl rfl, ?_, by omega⟩
      intro i _ hi hm
      exact hany ⟨i, hi, hm⟩
  obtain ⟨k0, hk0, hno0, hkH0⟩ := hex
  obtain ⟨vc, hr, hl, _, _⟩ := hrun k0 hk0 hno0 hkH0
  refine ⟨vc, hres.trans hr, hl, ?_, ?_⟩
  · intro hstar hle hm hgt
    obtain ⟨vc1, hr1, _, hup1, hkeep1⟩ := hrun (hstar + 1) (Or.inr (by simpa using hm))
      (fun i hki hi => hgt i (by omega) hi) (by omega)
    have hvc : vc1 = vc := by
      rw [hr] at hr1
      exact (Outcome.ok.inj hr1).symm
    subst hvc
    refine ⟨fun h hh => hkeep1 h (by omega), fun h hlt hh => ?_⟩
    have := hup1 h (by omega) hh
    exact ⟨this, by rw [this]; exact fun hc => hgt h hlt hh hc.symm⟩
  · intro hnone h hh
    obtain ⟨vc1, hr1, _, hup1, _⟩ := hrun 0 (Or.inl rfl) (fun i _ hi => hnone i hi) (by omega)
    have hvc : vc1 = vc := by
      rw [hr] at hr1
      exact (Outcome.ok.inj hr1).symm
    subst hvc
    have := hup1 h (by omega) hh
    exact ⟨this, by rw [this]; exact fun hc => hnone h hh hc.symm⟩

/-- Witness for C21: the tip moves from height 7 to height 13 on one chain. -/
theorem SetTip_writes_divergent_branch_witness :
    WellFormed (linearArena 14) ∧
    ∃ vChain', SetTip (linearArena 14) 14 (linearChain 8) (some 13) = .ok vChain' ∧
      vChain'.length = (linearEntry 13).nHeight.toNat + 1 ∧
      (∀ hstar, hstar ≤ (linearEntry 13).nHeight.toNat →
        (resize (linearChain 8) ((linearEntry 13).nHeight.toNat + 1))[hstar]? =
          some (followPrev (linearArena 14) ((linearEntry 13).nHeight.toNat - hstar) 13) →
        (∀ h, hstar < h → h ≤ (linearEntry 13).nHeight.toNat →
          (resize (linearChain 8) ((linearEntry 13).nHeight.toNat + 1))[h]? ≠
            some (followPrev (linearArena 14) ((linearEntry 13).nHeight.toNat - h) 13)) →
        (∀ h, h ≤ hstar →
          vChain'[h]? = (resize (linearChain 8) ((linearEntry 13).nHeight.toNat + 1))[h]?) ∧
        (∀ h, hstar < h → h ≤ (linearEntry 13).nHeight.toNat →
          vChain'[h]? =
            some (followPrev (linearArena 14) ((linearEntry 13).nHeight.toNat - h) 13) ∧
          vChain'[h]? ≠ (resize (linearChain 8) ((linearEntry 13).nHeight.toNat + 1))[h]?)) ∧
      ((∀ h, h ≤ (linearEntry 13).nHeight.toNat →
          (resize (linearChain 8) ((linearEntry 13).nHeight.toNat + 1))[h]? ≠
            some (followPrev (linearArena 14) ((linearEntry 13).nHeight.toNat - h) 13)) →
        ∀ h, h ≤ (linearEntry 13).nHeight.toNat →
          vChain'[h]? =
            some (followPrev (linearArena 14) ((linearEntry 13).nHeight.toNat - h) 13) ∧
          vChain'[h]? ≠ (resize (linearChain 8) ((linearEntry 13).nHeight.toNat + 1))[h]?) :=
  ⟨by decide,
    SetTip_writes_divergent_branch (linearArena 14) (by decide) (linearChain 8) 14 13
      (linearEntry 13) (by decide) (by decide)⟩

/-! ## The ancestor walk from height 2^17 to the genesis entry -/

theorem linearArena_getElem? (n i : Nat) (h : i < n) :
    (linearArena n)[i]? = some (linearEntry i) := by
  simp [linearArena, h]

theorem followPrev_linearArena (n : Nat) (k : Nat) :
    ∀ a, a < n → k ≤ a → followPrev (linearArena n) k a = some (a - k) := by
  induction k with
  | zero => intro a _ _; rfl
  | succ k ih =>
    intro a ha hk
    have hp : (linearEntry a).pprev = some (a - 1) := by
      simp only [linearEntry]
      rw [if_neg (by omega)]
    simp only [followPrev, linearArena_getElem? n a ha, Option.some_bind]
    rw [hp, Option.some_bind, ih (a - 1) (by omega) (by omega)]
    congr 1
    omega

theorem linearArena_wellFormed (n : Nat) (hn : n < 2 ^ 31) : WellFormed (linearArena n) := by
  apply wellFormed_of_getElem
  intro a ea ha
  have han : a < n := by
    have := (List.getElem?_eq_some.mp ha).1
    simpa [linearArena] using this
  rw [linearArena_getElem? n a han] at ha
  have hea := (Option.some.inj ha).symm
  subst hea
  have hh : (linearEntry a).nHeight = (a : Int) := rfl
  refine ⟨by rw [hh]; omega, by rw [hh]; omega, ?_, ?_⟩
  · rw [hh]
    by_cases hz : a = 0
    · subst hz
      simp [linearEntry, PrevOK]
    · have hp : (linearEntry a).pprev = some (a - 1) := by
        simp only [linearEntry]
        rw [if_neg hz]
      rw [hp]
      simp only [PrevOK, linearArena_getElem? n (a - 1) (by omega), Option.map_some']
      congr 1
      show ((a - 1 : Nat) : Int) + 1 = a
      omega
  · rw [hh]
    by_cases hz : a = 0
    · subst hz
      simp [linearEntry, SkipOK]
    · have hs : (linearEntry a).pskip = some (GetSkipHeight a).toNat := by
        simp only [linearEntry]
        rw [if_neg hz]
      have hb := GetSkipHeight_bounds (a : Int) (by omega) (by omega)
      rw [hs]
      simp only [SkipOK]
      rw [followPrev_linearArena n _ a han (by omega)]
      congr 1
      omega

/-- Claim C22: in a well-formed block graph, from an entry at height 131072
whose `pskip` is set, the loop of `GetAncestor` for height 0 returns the
ancestor at height 0 with fuel for 110 iterations; it does so with fuel for
one iteration and not with fuel for none, so it runs exactly one iteration
(`GetSkipHeight 131072 = 0`, and `pskip` is followed), and `GetAncestor`
returns that entry. -/
theorem GetAncestor_walk_from_131072 (mem : Arena) (hwf : WellFormed mem) (p : Nat)
    (e : CBlockIndex) (he : mem[p]? = some e) (hh : e.nHeight = 131072)
    (hskip : e.pskip ≠ none) :
    ∃ g eg, mem[g]? = some eg ∧ eg.nHeight = 0 ∧ followPrev mem 131072 p = some g ∧
      GetAncestor mem p 0 = .ok (some g) ∧
      GetAncestor.walk mem 0 110 p e.nHeight = .ok (some g) ∧
      (∀ fuel, 1 ≤ fuel → GetAncestor.walk mem 0 fuel p e.nHeight = .ok (some g)) ∧
      GetAncestor.walk mem 0 0 p e.nHeight = .outOfFuel := by
  obtain ⟨s, hs⟩ := Option.ne_none_iff_exists'.mp hskip
  have hskipH : GetSkipHeight 131072 = 0 := by decide
  have ok := (entryOK_of_wellFormed hwf he).2.2.2
  rw [hs, hh] at ok
  simp only [SkipOK, hskipH] at ok
  have hfp : followPrev mem 131072 p = some s := ok
  obtain ⟨eg, heg, hhg⟩ := followPrev_height hwf 131072 p e s he hfp
  have hstep : ∀ fuel, GetAncestor.walk mem 0 (fuel + 1) p e.nHeight = .ok (some s) := by
    intro fuel
    rw [GetAncestor.walk, hh, if_pos (by decide)]
    simp only [he, hs, hskipH]
    rw [if_pos (Or.inl trivial)]
    cases fuel <;> simp [GetAncestor.walk]
  refine ⟨s, eg, heg, by rw [hhg, hh]; rfl, hfp, ?_, hstep 109, ?_, ?_⟩
  · unfold GetAncestor
    simp only [he]
    rw [if_neg (by omega), hh]
    have := hstep 131071
    rw [hh] at this
    exact this
  · intro fuel hf
    obtain ⟨f, rfl⟩ : ∃ f, fuel = f + 1 := ⟨fuel - 1, by omega⟩
    exact hstep f
  · rw [GetAncestor.walk, hh, if_pos (by decide)]

/-- Witness for C22: the entry at height 131072 of a chain of 131073 entries. -/
theorem GetAncestor_walk_from_131072_witness :
    WellFormed (linearArena 131073) ∧
    (linearArena 131073)[131072]? = some (linearEntry 131072) ∧
    ∃ g eg, (linearArena 131073)[g]? = some eg ∧ eg.nHeight = 0 ∧
      followPrev (linearArena 131073) 131072 131072 = some g ∧
      GetAncestor (linearArena 131073) 131072 0 = .ok (some g) ∧
      GetAncestor.walk (linearArena 131073) 0 110 131072 (linearEntry 131072).nHeight =
        .ok (some g) ∧
      (∀ fuel, 1 ≤ fuel →
        GetAncestor.walk (linearArena 131073) 0 fuel 131072 (linearEntry 131072).nHeight =
          .ok (some g)) ∧
      GetAncestor.walk (linearArena 131073) 0 0 131072 (linearEntry 131072).nHeight =
        .outOfFuel :=
  ⟨linearArena_wellFormed 131073 (by decide),
    linearArena_getElem? 131073 131072 (by decide),
    GetAncestor_walk_from_131072 (linearArena 131073)
      (linearArena_wellFormed 131073 (by decide)) 131072 (linearEntry 131072)
      (linearArena_getElem? 131073 131072 (by decide)) rfl (by simp [linearEntry])⟩

/-! ## `GetPoSKernelPS`: the clamped time sum -/

end SolarCoin
